import Mathlib

/-!
# A verification development for the DunGEN dungeon generator

This file gives a shallow embedding of the generator module `DunGEN.py`
(data model, the branching path builder, the region partitioner, the
difficulty curve assigner, the room-type and enemy layers and the layer
driver `gen_map`) and proves properties of the embedded code.

Modelling conventions:
* Python's sequential random source is modelled by an explicit oracle
  tape `List Nat`; reading past the end of the tape yields `0`, so every
  run is total and deterministic in the tape.
* `random.randrange` raises `ValueError` on an empty range; fallible
  operations run in `Except Err`.
* `random.shuffle` is modelled by letting the tape choose one of the
  permutations of the input list.
* `random.random()` (a float in `[0,1)`) is modelled by two tape reads
  `a`, `b` interpreted as the rational `a / (a + b + 1)`; every rational
  in `[0,1)` is realisable this way.  All float arithmetic is modelled
  over `ℚ`; Python's `ZeroDivisionError` is modelled explicitly.
* Python object references to rooms are modelled by the room's index in
  the dungeon's room list (the code keeps `room.index` equal to that
  position); references to `RoomType` / `EnemyType` catalog entries are
  modelled by the records themselves.
* The unbounded `while True` retry loop of
  `BranchingPathLayer.process_dungeon` takes an explicit attempt budget,
  and the recursive `create_path` takes a recursion budget `gas`
  (exhaustion is the distinguished error `Err.fuel`; nesting of branch
  calls in the source is at most two deep, so `gas = 3` is never
  exhausted).
-/

/-- Errors a generator run can raise: `ValueError` from `randrange` on an
empty range, `GeneratorError` from the catalog searches,
`ZeroDivisionError` from the difficulty formula, `IndexError` from
indexing an empty list, and the fuel artifact of the embedding. -/
inductive Err where
  | valueError
  | generatorError
  | zeroDivisionError
  | indexError
  | fuel
deriving Repr, DecidableEq

/-- The random tape: Python's single sequential random source. -/
abbrev Oracle := List Nat

/-- Read one natural number from the tape (0 once the tape is spent). -/
def takeNat : Oracle → Nat × Oracle
  | [] => (0, [])
  | n :: r => (n, r)

/-- `randrange(a, b)`: uniform draw from `[a, b)`; `ValueError` when the
range is empty. -/
def randrange2 (a b : Nat) (t : Oracle) : Except Err (Nat × Oracle) :=
  if b ≤ a then .error .valueError
  else
    let (k, t') := takeNat t
    .ok (a + k % (b - a), t')

/-- `randrange(n)`: uniform draw from `[0, n)`; `ValueError` when
`n = 0`. -/
def randrange1 (n : Nat) (t : Oracle) : Except Err (Nat × Oracle) :=
  if n = 0 then .error .valueError
  else
    let (k, t') := takeNat t
    .ok (k % n, t')

/-- `random.shuffle`: the tape selects one permutation of the list. -/
def shuffleL {α : Type} (l : List α) (t : Oracle) : List α × Oracle :=
  let (k, t') := takeNat t
  (l.permutations.getD (k % l.permutations.length) l, t')

/-- `random.random()`: a rational in `[0, 1)` decoded from two tape
reads. -/
def randFloat (t : Oracle) : ℚ × Oracle :=
  let (a, t1) := takeNat t
  let (b, t2) := takeNat t1
  ((a : ℚ) / ((a : ℚ) + (b : ℚ) + 1), t2)

/-- In-place update of one list entry (Python's `l[i].field = v`). -/
def listModify {α : Type} (l : List α) (i : Nat) (f : α → α) : List α :=
  match l, i with
  | [], _ => []
  | a :: r, 0 => f a :: r
  | a :: r, n + 1 => a :: listModify r n f

/-- `RoomType` from `DunGEN.py`. -/
structure RoomType where
  name : String
  optional : Bool
  maxDoors : Nat
  isEntrance : Bool
  isExit : Bool
  difficulty : ℚ
  priority : Nat
  requiresEnemy : Bool
deriving Repr, DecidableEq, Inhabited

/-- The `RoomType.__init__` defaults. -/
def RoomType.new : RoomType :=
  { name := "Unnamed Room", optional := false, maxDoors := 4,
    isEntrance := false, isExit := false, difficulty := 0,
    priority := 1, requiresEnemy := false }

/-- `EnemyType` from `DunGEN.py`. -/
structure EnemyType where
  name : String
  priority : Nat
  difficulty : ℚ
  maxCount : Nat
  endOfRegion : Bool
  requiresEnemy : List String
  requiresRoom : List String
deriving Repr, DecidableEq, Inhabited

/-- The `EnemyType.__init__` defaults. -/
def EnemyType.new : EnemyType :=
  { name := "Unnamed Enemy", priority := 1, difficulty := 0,
    maxCount := 8, endOfRegion := false, requiresEnemy := [],
    requiresRoom := [] }

/-- `DungeonRoom` from `DunGEN.py`.  `pathNext` / `pathLast` are the
back-references `create_path` installs on key rooms (set dynamically in
Python, absent until then, hence `Option`). -/
structure DungeonRoom where
  x : Int
  y : Int
  index : Nat
  doors : Bool × Bool × Bool × Bool
  depth : Nat
  rtype : Option RoomType
  difficulty : ℚ
  region : Int
  enemies : List EnemyType
  pathNext : Option Nat
  pathLast : Option Nat
deriving Repr, DecidableEq, Inhabited

/-- The `DungeonRoom.__init__` defaults. -/
def DungeonRoom.new : DungeonRoom :=
  { x := 0, y := 0, index := 0, doors := (false, false, false, false),
    depth := 0, rtype := none, difficulty := 0, region := 0,
    enemies := [], pathNext := none, pathLast := none }

/-- Read `room.doors[d]` (0 = west, 1 = north, 2 = east, 3 = south). -/
def DungeonRoom.door (r : DungeonRoom) (d : Nat) : Bool :=
  if d = 0 then r.doors.1
  else if d = 1 then r.doors.2.1
  else if d = 2 then r.doors.2.2.1
  else if d = 3 then r.doors.2.2.2
  else false

/-- `DungeonRoom.set_door`. -/
def DungeonRoom.set_door (r : DungeonRoom) (door : Nat) (state : Bool) :
    DungeonRoom :=
  let r := if door = 0 then
    { r with doors := (state, r.doors.2.1, r.doors.2.2.1, r.doors.2.2.2) }
    else r
  let r := if door = 1 then
    { r with doors := (r.doors.1, state, r.doors.2.2.1, r.doors.2.2.2) }
    else r
  let r := if door = 2 then
    { r with doors := (r.doors.1, r.doors.2.1, state, r.doors.2.2.2) }
    else r
  let r := if door = 3 then
    { r with doors := (r.doors.1, r.doors.2.1, r.doors.2.2.1, state) }
    else r
  r

/-- `DungeonRoom.has_room_for`: can one more instance of this enemy type
fit, given `maxCount`? -/
def DungeonRoom.has_room_for (r : DungeonRoom) (enemy : EnemyType) : Bool :=
  (r.enemies.filter (fun e => e = enemy)).length < enemy.maxCount

/-- `DungeonKey`: rooms referenced by index. -/
structure DungeonKey where
  keyLocation : Nat
  lockLocation : Nat
  lockedDoor : Nat
deriving Repr, DecidableEq, Inhabited

/-- `DungeonPath`: rooms referenced by index; `optFlag` is the source's
`optional` attribute. -/
inductive DungeonPath where
  | mk (rooms : List Nat) (sidePaths : List DungeonPath) (optFlag : Bool)
deriving Repr

/-- The rooms of a path. -/
def DungeonPath.rooms : DungeonPath → List Nat
  | .mk r _ _ => r

/-- The nested side paths of a path. -/
def DungeonPath.sidePaths : DungeonPath → List DungeonPath
  | .mk _ s _ => s

/-- The `optional` attribute of a path. -/
def DungeonPath.optFlag : DungeonPath → Bool
  | .mk _ _ o => o

/-- `Dungeon`: the aggregate graph. -/
structure Dungeon where
  rooms : List DungeonRoom
  keys : List DungeonKey
  mainPath : DungeonPath
deriving Repr

/-- A fresh `Dungeon()` (empty rooms and keys, fresh non-optional main
path). -/
def Dungeon.empty : Dungeon :=
  { rooms := [], keys := [], mainPath := .mk [] [] false }

/-- `Dungeon.get_room_at` on a room list: the first room with the given
coordinates. -/
def getRoomAt (rooms : List DungeonRoom) (x y : Int) : Option DungeonRoom :=
  rooms.find? (fun r => r.x = x && r.y = y)

/-- `Dungeon.get_room_at`. -/
def Dungeon.get_room_at (d : Dungeon) (x y : Int) : Option DungeonRoom :=
  getRoomAt d.rooms x y

/-- `Dungeon.region_count`. -/
def Dungeon.region_count (d : Dungeon) : Int :=
  match d.rooms.getLast? with
  | none => 0
  | some r => r.region + 1

/-- `Dungeon.is_end_of_region`: note the code tests `key.lockLocation`
(the room with the locked door), then falls back to comparing with the
final main-path room. -/
def Dungeon.is_end_of_region (d : Dungeon) (i : Nat) : Bool :=
  d.keys.any (fun k => k.lockLocation = i) ||
    d.mainPath.rooms.getLast? = some i

/-- The rooms-and-keys part of the dungeon threaded through
`create_path` (the main path being built is threaded separately). -/
structure GenSt where
  rooms : List DungeonRoom
  keys : List DungeonKey
deriving Repr

/-- `BranchingPathLayer`'s constructor parameters. -/
structure BPLayer where
  mainPathLength : Nat × Nat
  sidePathLength : Nat × Nat
  sidePathChance : Nat
  optionalRoomChance : Nat
deriving Repr, DecidableEq

/-- `BranchingPathLayer.shuffle_directions`: the four neighbours of
`(x, y)` with the direction to each, in tape-shuffled order. -/
def directionsOf (x y : Int) : List (Int × Int × Nat) :=
  [(x - 1, y, 0), (x, y - 1, 1), (x + 1, y, 2), (x, y + 1, 3)]

/-- The `nextPos` scan of `create_path`: walk the shuffled candidates
and remember the latest unoccupied one (the source loop overwrites
`nextPos` without breaking). -/
def pickNext (rooms : List DungeonRoom) (dirs : List (Int × Int × Nat)) :
    Option (Int × Int × Nat) :=
  dirs.foldl
    (fun acc p => if getRoomAt rooms p.1 p.2.1 = none then some p else acc)
    none

/-- The loop body state transition of `create_path` once `nextPos` is
chosen: create the room, wire the doors, record a pending key, then give
the room its coordinates.  Returns the new state and the new room's
index. -/
def placeRoom (st : GenSt) (roomIdx : Nat) (np : Int × Int × Nat)
    (depth : Nat) (prepLocked : Bool) (keyLoc : Option Nat) :
    GenSt × Nat :=
  let newIdx := st.rooms.length
  let newRoom := { DungeonRoom.new with index := newIdx, depth := depth }
  let rooms := st.rooms ++ [newRoom]
  let rooms := listModify rooms roomIdx (fun r => r.set_door np.2.2 true)
  let rooms := listModify rooms newIdx
    (fun r => r.set_door ((np.2.2 + 2) % 4) true)
  let (keys, rooms) :=
    if prepLocked then
      match keyLoc with
      | some kIdx =>
          (st.keys ++ [⟨kIdx, roomIdx, np.2.2⟩],
           listModify
             (listModify rooms kIdx (fun r => { r with pathNext := some newIdx }))
             newIdx (fun r => { r with pathLast := some roomIdx }))
      | none => (st.keys, rooms)
    else (st.keys, rooms)
  let rooms := listModify rooms newIdx
    (fun r => { r with x := np.1, y := np.2.1 })
  (⟨rooms, keys⟩, newIdx)

/-! The `while length > 0` loop of `BranchingPathLayer.create_path`,
split with its two branch-spawning steps into three mutually recursive
functions.  Arguments mirror the source's local state: the room list
under construction (`st`), the remaining `length`, the current `room`
(`roomIdx`), the accumulated rooms and side paths of the path being
built, the pending-lock flags, the branch `depth` and the tape.  The
result carries the final state, the built path pieces, the
`Optional[DungeonRoom]` result (`none` = dead end) and the tape.
Recursive branch builds start their own loop with the fresh path
`[baseIdx]`, exactly as `create_path` does after `path.add_room(room)`.
`fuel` decreases at every recursive call; it is an artifact of the
embedding (Python's recursion needs no fuel), with exhaustion reported
as the distinguished `Err.fuel`, and callers pass enough of it for
every run that Python could perform. -/

mutual

/-- See the comment above the `mutual` block. -/
def cpLoop (cfg : BPLayer) (fuel : Nat) (st : GenSt) (len : Nat)
    (roomIdx : Nat) (pathRooms : List Nat) (sidePaths : List DungeonPath)
    (prepLocked : Bool) (keyLoc : Option Nat) (depth : Nat) (t : Oracle) :
    Except Err (GenSt × List Nat × List DungeonPath × Option Nat × Oracle) :=
  match fuel with
  | 0 => .error .fuel
  | fuel + 1 =>
    match len with
    | 0 => .ok (st, pathRooms, sidePaths, some roomIdx, t)
    | len' + 1 =>
      let room := st.rooms.getD roomIdx DungeonRoom.new
      let (dirs, t) := shuffleL (directionsOf room.x room.y) t
      match pickNext st.rooms dirs with
      | none => .ok (st, pathRooms, sidePaths, none, t)
      | some np =>
        let (st, newIdx) := placeRoom st roomIdx np depth prepLocked keyLoc
        let pathRooms := pathRooms ++ [newIdx]
        if len' > 0 then
          -- optional dead-end branch first, then the locked side branch
          match optionalBranch cfg fuel st newIdx pathRooms sidePaths
              depth t with
          | .error e => .error e
          | .ok (st, pathRooms, sidePaths, none, t) =>
            .ok (st, pathRooms, sidePaths, none, t)
          | .ok (st, pathRooms, sidePaths, some _, t) =>
            sideBranch cfg fuel st len' newIdx pathRooms sidePaths keyLoc
              depth t
        else
          cpLoop cfg fuel st len' newIdx pathRooms sidePaths false keyLoc
            depth t
termination_by (fuel, 0)

/-- The `optionalRoomChance` step of the loop body: with probability
`1 / optionalRoomChance` build a one-room optional dead-end branch off
the new room; a dead end there fails the enclosing walk. -/
def optionalBranch (cfg : BPLayer) (fuel : Nat) (st : GenSt)
    (newIdx : Nat) (pathRooms : List Nat) (sidePaths : List DungeonPath)
    (depth : Nat) (t : Oracle) :
    Except Err (GenSt × List Nat × List DungeonPath × Option Nat × Oracle) :=
  if cfg.optionalRoomChance > 0 then
    match randrange1 cfg.optionalRoomChance t with
    | .error e => .error e
    | .ok (k, t) =>
      if k = 0 then
        match cpLoop cfg fuel st 1 newIdx [newIdx] [] false none
            (depth + 1) t with
        | .error e => .error e
        | .ok (st, bRooms, bSides, bRes, t) =>
          let sidePaths := sidePaths ++ [.mk bRooms bSides true]
          match bRes with
          | none => .ok (st, pathRooms, sidePaths, none, t)
          | some _ => .ok (st, pathRooms, sidePaths, some newIdx, t)
      else .ok (st, pathRooms, sidePaths, some newIdx, t)
  else .ok (st, pathRooms, sidePaths, some newIdx, t)
termination_by (fuel, 1)

/-- The `sidePathChance` step of the loop body (main path only): with
probability `1 / sidePathChance` build a side branch of drawn length
off the new room, remember its last room as the pending key location,
and continue the walk with the next door marked to be locked; otherwise
just continue the walk. -/
def sideBranch (cfg : BPLayer) (fuel : Nat) (st : GenSt) (len' : Nat)
    (newIdx : Nat) (pathRooms : List Nat) (sidePaths : List DungeonPath)
    (keyLoc : Option Nat) (depth : Nat) (t : Oracle) :
    Except Err (GenSt × List Nat × List DungeonPath × Option Nat × Oracle) :=
  if depth = 0 ∧ cfg.sidePathChance > 0 then
    match randrange1 cfg.sidePathChance t with
    | .error e => .error e
    | .ok (k, t) =>
      if k = 0 then
        match randrange2 cfg.sidePathLength.1 cfg.sidePathLength.2 t with
        | .error e => .error e
        | .ok (l, t) =>
          match cpLoop cfg fuel st l newIdx [newIdx] [] false none
              (depth + 1) t with
          | .error e => .error e
          | .ok (st, bRooms, bSides, bRes, t) =>
            let sidePaths := sidePaths ++ [.mk bRooms bSides false]
            match bRes with
            | none => .ok (st, pathRooms, sidePaths, none, t)
            | some bIdx =>
              cpLoop cfg fuel st len' newIdx pathRooms sidePaths true
                (some bIdx) depth t
      else
        cpLoop cfg fuel st len' newIdx pathRooms sidePaths false keyLoc
          depth t
  else
    cpLoop cfg fuel st len' newIdx pathRooms sidePaths false keyLoc depth t
termination_by (fuel, 1)

end

/-- `BranchingPathLayer.create_path`: add the starting room to a fresh
path (all call sites pass a fresh path) and run the walk loop. -/
def create_path (cfg : BPLayer) (fuel : Nat) (st : GenSt) (len : Nat)
    (roomIdx : Nat) (optFlag : Bool) (depth : Nat) (t : Oracle) :
    Except Err (GenSt × DungeonPath × Option Nat × Oracle) :=
  match cpLoop cfg fuel st len roomIdx [roomIdx] [] false none depth t with
  | .error e => .error e
  | .ok (st, pr, sp, res, t) => .ok (st, .mk pr sp optFlag, res, t)

/-- The recursion fuel `BranchingPathLayer.process_dungeon` hands to
`create_path` for a drawn main-path length: ample for the walk loop,
every side branch and every nested optional branch. -/
def bpFuel (cfg : BPLayer) (pathLength : Nat) : Nat :=
  pathLength + cfg.sidePathLength.2 + 8

/-- `BranchingPathLayer.process_dungeon`: seed a fresh entrance room,
draw the main-path length, walk; on a dead end discard everything and
retry (`attempts` bounds the unbounded Python retry loop). -/
def BPLayer.process_dungeon (cfg : BPLayer) (attempts : Nat) (d : Dungeon)
    (t : Oracle) : Except Err (Dungeon × Oracle) :=
  match attempts with
  | 0 => .error .fuel
  | a + 1 =>
    let room0 := { DungeonRoom.new with index := d.rooms.length, depth := 0 }
    let rooms := d.rooms ++ [room0]
    match randrange2 cfg.mainPathLength.1 cfg.mainPathLength.2 t with
    | .error e => .error e
    | .ok (pathLength, t) =>
      match create_path cfg (bpFuel cfg pathLength) ⟨rooms, d.keys⟩ pathLength
          (rooms.length - 1) false 0 t with
      | .error e => .error e
      | .ok (st, path, res, t) =>
        match res with
        | some _ => .ok (Dungeon.mk st.rooms st.keys path, t)
        | none => BPLayer.process_dungeon cfg a Dungeon.empty t

/-- Python list read with negative-index-from-the-end semantics
(`l[i]`); out of range raises `IndexError`. -/
def pyListGet {α : Type} (l : List α) (i : Int) : Except Err α :=
  if 0 ≤ i ∧ i < l.length then
    match l.get? i.toNat with
    | some a => .ok a
    | none => .error .indexError
  else if -(l.length : Int) ≤ i ∧ i < 0 then
    match l.get? (l.length - (-i).toNat) with
    | some a => .ok a
    | none => .error .indexError
  else .error .indexError

/-- Python list write with negative-index-from-the-end semantics
(`l[i] = v`); out of range raises `IndexError`. -/
def pyListSet {α : Type} (l : List α) (i : Int) (v : α) :
    Except Err (List α) :=
  if 0 ≤ i ∧ i < l.length then
    .ok (listModify l i.toNat (fun _ => v))
  else if -(l.length : Int) ≤ i ∧ i < 0 then
    .ok (listModify l (l.length - (-i).toNat) (fun _ => v))
  else .error .indexError

/-- One neighbour inspection of `AssignRegionsLayer.process_dungeon`'s
inner `for near in [...]` body, for room `i` and direction entry `nr`:
thread the room list and the `changed` flag exactly as the source does
(the key scan can overwrite an already-made assignment in the same
pass). -/
def regionNearStep (keys : List DungeonKey) (acc : List DungeonRoom × Bool)
    (i : Nat) (nr : Int × Int × Nat) : List DungeonRoom × Bool :=
  let rooms := acc.1
  let room := rooms.getD i DungeonRoom.new
  let d := nr.2.2
  if !(room.door d) then acc
  else
    match getRoomAt rooms nr.1 nr.2.1 with
    | none => acc
    | some n =>
      if n.region = -1 then acc
      else
        let acc :=
          if keys.any (fun k => k.lockLocation = n.index &&
              k.lockedDoor = (d + 2) % 4) then
            (listModify rooms i (fun r => { r with region := n.region + 1 }),
             true)
          else acc
        let rooms := acc.1
        let room := rooms.getD i DungeonRoom.new
        if room.region = -1 then
          (listModify rooms i (fun r => { r with region := n.region }), true)
        else acc

/-- The per-room body of the region relaxation pass: skip resolved
rooms, otherwise inspect the four neighbours in west/north/east/south
order. -/
def regionRoomStep (keys : List DungeonKey) (acc : List DungeonRoom × Bool)
    (i : Nat) : List DungeonRoom × Bool :=
  let room := acc.1.getD i DungeonRoom.new
  if room.region > -1 then acc
  else
    (directionsOf room.x room.y).foldl
      (fun a nr => regionNearStep keys a i nr) acc

/-- One full pass of the region relaxation (`for room in dungeon.rooms`),
returning the updated rooms and whether anything changed. -/
def regionPass (keys : List DungeonKey) (rooms : List DungeonRoom) :
    List DungeonRoom × Bool :=
  (List.range rooms.length).foldl (fun a i => regionRoomStep keys a i)
    (rooms, false)

/-- The `while changed` loop of `AssignRegionsLayer.process_dungeon`.
`fuel` bounds the number of passes; `rooms.length + 1` passes always
reach the fixed point because every changing pass resolves at least one
room. -/
def regionIter (keys : List DungeonKey) (fuel : Nat)
    (rooms : List DungeonRoom) : List DungeonRoom :=
  match fuel with
  | 0 => rooms
  | f + 1 =>
    let (rooms', ch) := regionPass keys rooms
    if ch then regionIter keys f rooms' else rooms'

/-- `AssignRegionsLayer.process_dungeon`: reset all regions to `-1`,
seed the entrance with region `0`, and relax to a fixed point. -/
def AssignRegionsLayer.process_dungeon (d : Dungeon) : Except Err Dungeon :=
  match d.mainPath.rooms with
  | [] => .error .indexError
  | i0 :: _ =>
    let rooms := d.rooms.map (fun r => { r with region := -1 })
    let rooms := listModify rooms i0 (fun r => { r with region := 0 })
    .ok { d with rooms := regionIter d.keys (rooms.length + 1) rooms }

/-- `AssignDifficultiesLayer`'s constructor parameters. -/
structure ADLayer where
  dropoff : ℚ
  noise : ℚ
  startingPoints : ℚ
deriving Repr, DecidableEq

/-- The first pass of `AssignDifficultiesLayer.process_dungeon`: number
the rooms sequentially into their `difficulty` field and record, in
`regionValues`, the sequence index at which each region change is first
seen.  Folds over the rooms threading
(`diff`, `currentRegion`, `regionValues`, rooms so far). -/
def adFirstPass (rooms : List DungeonRoom) (regionValues : List ℚ) :
    Except Err (ℚ × List ℚ × List DungeonRoom) := do
  let r ← rooms.foldlM
    (fun (a : ℚ × Int × List ℚ × List DungeonRoom) room => do
      let (diff, currentRegion, regionValues, done) := a
      let (currentRegion, regionValues) ←
        if room.region ≠ currentRegion then do
          let rv ← pyListSet regionValues room.region diff
          pure (room.region, rv)
        else pure (currentRegion, regionValues)
      pure (diff + 1, currentRegion, regionValues,
        done ++ [{ room with difficulty := diff }]))
    ((0 : ℚ), (0 : Int), regionValues, ([] : List DungeonRoom))
  let (diff, _, regionValues, done) := r
  let diff := diff - 1
  let regionValues ← pyListSet regionValues (-1) diff
  pure (diff, regionValues, done)

/-- The second pass of `AssignDifficultiesLayer.process_dungeon`:
the per-region quadratic ramp, global normalisation, noise, clamp.
Division by zero raises, as in Python. -/
def adSecondPass (cfg : ADLayer) (diff : ℚ) (regionValues : List ℚ)
    (rooms : List DungeonRoom) (t : Oracle) :
    Except Err (List DungeonRoom × Oracle) := do
  rooms.foldlM
    (fun (a : List DungeonRoom × Oracle) room => do
      let (done, t) := a
      let x1 ← pyListGet regionValues room.region
      let x2 ← pyListGet regionValues (room.region + 1)
      let n := room.difficulty
      if x2 - x1 = 0 then throw .zeroDivisionError
      else
        let d := ((n - x1) / (x2 - x1)) ^ 2 * (x2 - cfg.dropoff * x1)
          + cfg.dropoff * x1
        if diff = 0 then throw .zeroDivisionError
        else
          let d := d / diff * (1 - cfg.startingPoints) + cfg.startingPoints
          let (r, t) := randFloat t
          let d := d + r * 2 * cfg.noise - cfg.noise
          let d := max 0 (min 1 d)
          pure (done ++ [{ room with difficulty := d }], t))
    (([] : List DungeonRoom), t)

/-- `AssignDifficultiesLayer.process_dungeon`. -/
def ADLayer.process_dungeon (cfg : ADLayer) (d : Dungeon) (t : Oracle) :
    Except Err (Dungeon × Oracle) := do
  let regionValues := List.replicate (d.region_count + 1).toNat (0 : ℚ)
  let (diff, regionValues, rooms) ← adFirstPass d.rooms regionValues
  let (rooms, t) ← adSecondPass cfg diff regionValues rooms t
  pure ({ d with rooms := rooms }, t)

/-- `AssignRoomTypes.random_room`: weighted draw from the catalog
entries satisfying `search`; `GeneratorError` when none does. -/
def random_room (roomTypes : List RoomType) (search : RoomType → Bool)
    (t : Oracle) : Except Err (RoomType × Oracle) :=
  let remaining := roomTypes.filter search
  let weighted := remaining.flatMap (fun r => List.replicate r.priority r)
  if weighted.length > 0 then do
    let (k, t) ← randrange1 weighted.length t
    pure (weighted.getD k RoomType.new, t)
  else .error .generatorError

/-- The `except GeneratorError` fallback of
`AssignRoomTypes.process_dungeon`: the first catalog entry (in order)
with the strictly smallest difficulty among non-entrance, non-exit
types; `GeneratorError` if there are none. -/
def fallbackRoom (roomTypes : List RoomType) : Except Err RoomType :=
  let available := roomTypes.filter (fun x => !x.isEntrance && !x.isExit)
  match available with
  | [] => .error .generatorError
  | a :: rest =>
    .ok (rest.foldl (fun best rt =>
      if rt.difficulty < best.difficulty then rt else best) a)

/-- `AssignRoomTypes.process_dungeon`: type the entrance, the exit, then
every remaining untyped room by difficulty-bounded weighted draw with
the lowest-difficulty fallback. -/
def AssignRoomTypes.process_dungeon (roomTypes : List RoomType)
    (d : Dungeon) (t : Oracle) : Except Err (Dungeon × Oracle) := do
  match d.mainPath.rooms with
  | [] => .error .indexError
  | i0 :: _ => do
    let (entranceType, t) ← random_room roomTypes (fun x => x.isEntrance) t
    let rooms := listModify d.rooms i0
      (fun r => { r with rtype := some entranceType })
    let iLast := (d.mainPath.rooms).getLastD 0
    let (exitType, t) ← random_room roomTypes (fun x => x.isExit) t
    let rooms := listModify rooms iLast
      (fun r => { r with rtype := some exitType })
    let r ← (List.range rooms.length).foldlM
      (fun (a : List DungeonRoom × Oracle) i => do
        let (rooms, t) := a
        let room := rooms.getD i DungeonRoom.new
        if room.rtype.isSome then pure (rooms, t)
        else
          match random_room roomTypes (fun x => !x.isEntrance && !x.isExit
              && x.difficulty ≤ room.difficulty) t with
          | .ok (rt, t) =>
            pure (listModify rooms i (fun r => { r with rtype := some rt }), t)
          | .error .generatorError => do
            let rt ← fallbackRoom roomTypes
            pure (listModify rooms i (fun r => { r with rtype := some rt }), t)
          | .error e => .error e)
      (rooms, t)
    pure ({ d with rooms := r.1 }, r.2)

/-- `EnemiesLayer.random_enemy`: weighted draw from the catalog entries
satisfying `search`; `GeneratorError` when none does. -/
def random_enemy (enemyTypes : List EnemyType) (search : EnemyType → Bool)
    (t : Oracle) : Except Err (EnemyType × Oracle) :=
  let remaining := enemyTypes.filter search
  let weighted := remaining.flatMap (fun e => List.replicate e.priority e)
  if weighted.length > 0 then do
    let (k, t) ← randrange1 weighted.length t
    pure (weighted.getD k EnemyType.new, t)
  else .error .generatorError

/-- `EnemiesLayer.meets_enemy_requirements`. -/
def meets_enemy_requirements (enemy : EnemyType) (room : DungeonRoom) :
    Bool :=
  enemy.requiresEnemy.length = 0 ||
    room.enemies.any (fun en => enemy.requiresEnemy.contains en.name)

/-- `EnemiesLayer.meets_room_type_requirements`. -/
def meets_room_type_requirements (enemy : EnemyType) (room : DungeonRoom) :
    Bool :=
  enemy.requiresRoom.length = 0 ||
    match room.rtype with
    | none => false
    | some rt => enemy.requiresRoom.contains rt.name

/-- The `while diff > 0` enemy-placement loop for one room.  `fuel`
bounds the iterations (the source loop terminates because every drawn
enemy consumes one unit of remaining `maxCount` capacity; the sum of all
`maxCount`s plus one is always enough fuel).  The bare `except: break`
of the source stops on any draw failure. -/
def enemiesRoomLoop (enemyTypes : List EnemyType) (d : Dungeon)
    (fuel : Nat) (i : Nat) (room : DungeonRoom) (diff : ℚ) (t : Oracle) :
    DungeonRoom × Oracle :=
  match fuel with
  | 0 => (room, t)
  | f + 1 =>
    if diff > 0 then
      match random_enemy enemyTypes (fun x => x.difficulty ≤ diff
          && room.has_room_for x
          && (!x.endOfRegion || d.is_end_of_region i)
          && meets_enemy_requirements x room
          && meets_room_type_requirements x room) t with
      | .ok (enemy, t) =>
        enemiesRoomLoop enemyTypes d f i
          { room with enemies := room.enemies ++ [enemy] }
          (diff - enemy.difficulty) t
      | .error _ => (room, t)
    else (room, t)

/-- `EnemiesLayer.process_dungeon`: spend each non-terminal room's
leftover difficulty budget on enemies. -/
def EnemiesLayer.process_dungeon (enemyTypes : List EnemyType)
    (d : Dungeon) (t : Oracle) : Except Err (Dungeon × Oracle) :=
  let fuel := (enemyTypes.map (fun e => e.maxCount)).sum + 1
  let r := (List.range d.rooms.length).foldl
    (fun (a : List DungeonRoom × Oracle) i =>
      let (rooms, t) := a
      let room := rooms.getD i DungeonRoom.new
      match room.rtype with
      | none => (rooms, t)
      | some rt =>
        if rt.isEntrance || rt.isExit then (rooms, t)
        else
          let diff := room.difficulty - rt.difficulty
          let (room, t) := enemiesRoomLoop enemyTypes d fuel i room diff t
          (listModify rooms i (fun _ => room), t))
    (d.rooms, t)
  .ok ({ d with rooms := r.1 }, r.2)

/-- The closed set of pipeline layers (`config.layers`). -/
inductive GenLayer where
  | branching (cfg : BPLayer)
  | regions
  | difficulties (cfg : ADLayer)
  | roomTypesL (roomTypes : List RoomType)
  | enemiesL (enemyTypes : List EnemyType)

/-- The attempt budget used when the branching layer runs inside the
driver. -/
def genAttempts : Nat := 256

/-- Dispatch one layer's `process_dungeon`. -/
def runLayer : GenLayer → Dungeon → Oracle → Except Err (Dungeon × Oracle)
  | .branching cfg, d, t => cfg.process_dungeon genAttempts d t
  | .regions, d, t => do
    let d ← AssignRegionsLayer.process_dungeon d
    pure (d, t)
  | .difficulties cfg, d, t => cfg.process_dungeon d t
  | .roomTypesL types, d, t => AssignRoomTypes.process_dungeon types d t
  | .enemiesL types, d, t => EnemiesLayer.process_dungeon types d t

/-- `gen_map`: run the configured layers in order over a fresh dungeon. -/
def gen_map (layers : List GenLayer) (t : Oracle) :
    Except Err (Dungeon × Oracle) :=
  layers.foldlM (fun (a : Dungeon × Oracle) l => runLayer l a.1 a.2)
    (Dungeon.empty, t)

/-! ## Derived structure: cells, door targets, parents, walks

These definitions are not part of the embedded program; they name the
graph structure of a room list so that the program's invariants can be
stated and proved. -/

/-- The cell one step in direction `d` from `(x, y)` (0 = west,
1 = north, 2 = east, 3 = south). -/
def neighborCell (x y : Int) (d : Nat) : Int × Int :=
  if d = 0 then (x - 1, y)
  else if d = 1 then (x, y - 1)
  else if d = 2 then (x + 1, y)
  else (x, y + 1)

/-- The room at index `i` (defaulted out of range). -/
def roomAt (rooms : List DungeonRoom) (i : Nat) : DungeonRoom :=
  rooms.getD i DungeonRoom.new

/-- The index of the room behind door `d` of room `i`: defined when that
door is open and some room occupies the adjacent cell. -/
def doorTargetIdx (rooms : List DungeonRoom) (i : Nat) (d : Nat) :
    Option Nat :=
  if (roomAt rooms i).door d then
    (getRoomAt rooms (neighborCell (roomAt rooms i).x (roomAt rooms i).y d).1
      (neighborCell (roomAt rooms i).x (roomAt rooms i).y d).2).map
      (fun r => r.index)
  else none

/-- The parent of room `i` in the creation tree: the first direction
whose open door leads to a room of smaller index, with that direction. -/
def parentD (rooms : List DungeonRoom) (i : Nat) : Option (Nat × Nat) :=
  (List.range 4).findSome? (fun d =>
    match doorTargetIdx rooms i d with
    | some j => if j < i then some (j, d) else none
    | none => none)

/-- Does a recorded key lock the door of room `i` in direction `d`? -/
def lockBit (keys : List DungeonKey) (i d : Nat) : Nat :=
  if keys.any (fun k => k.lockLocation = i && k.lockedDoor = d) then 1 else 0

/-- Locked-door crossings accumulated along the parent chain of room
`i`, computed with explicit fuel (fuel `i` suffices since parents have
smaller indices). -/
def treeCostF (keys : List DungeonKey) (rooms : List DungeonRoom) :
    Nat → Nat → Nat
  | 0, _ => 0
  | fuel + 1, i =>
    match parentD rooms i with
    | some (j, d) => treeCostF keys rooms fuel j + lockBit keys j ((d + 2) % 4)
    | none => 0

/-- The number of locked doors on the creation-tree path from the
entrance to room `i`. -/
def treeCost (keys : List DungeonKey) (rooms : List DungeonRoom)
    (i : Nat) : Nat :=
  treeCostF keys rooms i i

/-- Rooms `i` and `j` are joined by an open door of `i` pointing at
`j`'s cell. -/
def OpenEdge (rooms : List DungeonRoom) (i j : Nat) : Prop :=
  i < rooms.length ∧ j < rooms.length ∧
    ∃ d, d < 4 ∧ doorTargetIdx rooms i d = some j

/-- A walk through open doors: a nonempty chain of `OpenEdge` steps. -/
def IsWalk (rooms : List DungeonRoom) (w : List Nat) : Prop :=
  w ≠ [] ∧ w.Chain' (OpenEdge rooms)

/-- The cost of crossing from room `u` into room `v`: `1` exactly when a
recorded key locks a door of `u` that leads to `v` (crossing from the
lock side toward the far side), else `0`. -/
def crossCost (keys : List DungeonKey) (rooms : List DungeonRoom)
    (u v : Nat) : Nat :=
  if (List.range 4).any (fun d =>
      decide (doorTargetIdx rooms u d = some v) &&
        keys.any (fun k => k.lockLocation = u && k.lockedDoor = d)) then 1
  else 0

/-- The number of locked doors crossed (lock side toward far side) along
a walk. -/
def walkCost (keys : List DungeonKey) (rooms : List DungeonRoom) :
    List Nat → Nat
  | [] => 0
  | [_] => 0
  | u :: v :: rest => crossCost keys rooms u v + walkCost keys rooms (v :: rest)

/-- The set of costs of walks from the entrance room (index 0) to room
`i`. -/
def walkCostSet (keys : List DungeonKey) (rooms : List DungeonRoom)
    (i : Nat) : Set Nat :=
  { c | ∃ w, IsWalk rooms w ∧ w.head? = some 0 ∧ w.getLast? = some i ∧
      walkCost keys rooms w = c }

/-- A freshly created room as the walk makes it: default fields, the
next free index, the walk's depth. -/
def newRoomAt (n depth : Nat) : DungeonRoom :=
  { DungeonRoom.new with index := n, depth := depth }

/-! ## The structural invariant of generated room lists -/

/-- Every room's `index` attribute equals its list position. -/
def IndexOk (rooms : List DungeonRoom) : Prop :=
  ∀ i, i < rooms.length → (roomAt rooms i).index = i

/-- No two rooms share grid coordinates. -/
def CoordsOk (rooms : List DungeonRoom) : Prop :=
  ∀ i j, i < rooms.length → j < rooms.length → i ≠ j →
    (roomAt rooms i).x ≠ (roomAt rooms j).x ∨
      (roomAt rooms i).y ≠ (roomAt rooms j).y

/-- Every open door leads to an existing room in the adjacent cell whose
opposite door is open. -/
def DoorsOk (rooms : List DungeonRoom) : Prop :=
  ∀ i d, i < rooms.length → d < 4 → (roomAt rooms i).door d = true →
    ∃ j, j < rooms.length ∧
      (roomAt rooms j).x =
        (neighborCell (roomAt rooms i).x (roomAt rooms i).y d).1 ∧
      (roomAt rooms j).y =
        (neighborCell (roomAt rooms i).x (roomAt rooms i).y d).2 ∧
      (roomAt rooms j).door ((d + 2) % 4) = true

/-- The number of directions whose open door leads to a room of smaller
index. -/
def parentCount (rooms : List DungeonRoom) (j : Nat) : Nat :=
  ((List.range 4).filter (fun d =>
    match doorTargetIdx rooms j d with
    | some i => decide (i < j)
    | none => false)).length

/-- The open-door graph is the creation tree: the entrance has no edge
toward a smaller index, every other room exactly one (its parent). -/
def TreeOk (rooms : List DungeonRoom) : Prop :=
  ∀ j, j < rooms.length → parentCount rooms j = if j = 0 then 0 else 1

/-- A recorded key locks a parent-to-child door, and its key room was
created before the child behind the lock. -/
def KeyOk (rooms : List DungeonRoom) (k : DungeonKey) : Prop :=
  k.lockLocation < rooms.length ∧ k.keyLocation < rooms.length ∧
  k.lockedDoor < 4 ∧
  ∃ c, doorTargetIdx rooms k.lockLocation k.lockedDoor = some c ∧
    c < rooms.length ∧ k.lockLocation < c ∧ k.keyLocation < c

/-- Locked-door counts along the creation tree are non-decreasing in
creation order. -/
def CostMono (st : GenSt) : Prop :=
  ∀ i j, i ≤ j → j < st.rooms.length →
    treeCost st.keys st.rooms i ≤ treeCost st.keys st.rooms j

/-- The full invariant of the path builder's states. -/
def GenInv (st : GenSt) : Prop :=
  IndexOk st.rooms ∧ CoordsOk st.rooms ∧ DoorsOk st.rooms ∧
  TreeOk st.rooms ∧ (∀ k ∈ st.keys, KeyOk st.rooms k) ∧ CostMono st

/-- Room `i` has the maximal tree cost in the state. -/
def curMax (st : GenSt) (i : Nat) : Prop :=
  ∀ j, j < st.rooms.length →
    treeCost st.keys st.rooms j ≤ treeCost st.keys st.rooms i

/-- How a recursive walk extends a state: rooms are only appended, old
rooms keep their coordinates and index, old doors stay open, doors newly
opened on old rooms lead to new rooms, and keys are only appended with
their locked side pointing at a new room. -/
def GenExt (st st' : GenSt) : Prop :=
  st.rooms.length ≤ st'.rooms.length ∧
  (∀ i, i < st.rooms.length →
    (roomAt st'.rooms i).x = (roomAt st.rooms i).x ∧
    (roomAt st'.rooms i).y = (roomAt st.rooms i).y ∧
    (roomAt st'.rooms i).index = (roomAt st.rooms i).index ∧
    ∀ d, d < 4 →
      ((roomAt st.rooms i).door d = true → (roomAt st'.rooms i).door d = true) ∧
      ((roomAt st'.rooms i).door d = true → (roomAt st.rooms i).door d = true ∨
        (∀ j, doorTargetIdx st'.rooms i d = some j → st.rooms.length ≤ j))) ∧
  ∃ newKeys, st'.keys = st.keys ++ newKeys ∧
    ∀ k ∈ newKeys, ∀ c,
      doorTargetIdx st'.rooms k.lockLocation k.lockedDoor = some c →
      st.rooms.length ≤ c

/-! ## Concrete configurations and runs used in the theorems below -/

/-- The layer configuration of the spec's scenario: `mainPathLength =
(5,5)`, no side paths, no optional branches. -/
def bpCfg55 : BPLayer := ⟨(5, 5), (1, 2), 0, 0⟩

/-- Like `bpCfg55` but with the non-degenerate range `(4,5)` (the drawn
length is always 4). -/
def bpCfg45 : BPLayer := ⟨(4, 5), (1, 2), 0, 0⟩

/-- A configuration whose drawn main-path length is always 0. -/
def bpCfg01 : BPLayer := ⟨(0, 1), (1, 2), 0, 0⟩

/-- A configuration with `sidePathChance = 2`, used to generate a
dungeon with one locked side path. -/
def bpCfgKey : BPLayer := ⟨(3, 4), (1, 2), 2, 0⟩

/-- The tape steering `bpCfgKey` into a five-room dungeon whose second
room carries the locked door of its single key. -/
def tapeKey : Oracle := [0, 0, 0, 0, 0, 0, 1, 0]

/-- An entrance-eligible room type. -/
def entranceType : RoomType := { RoomType.new with
  name := "entr", isEntrance := true }

/-- An exit-eligible room type. -/
def exitType : RoomType := { RoomType.new with
  name := "exit", isExit := true }

/-- A generic zero-difficulty room type. -/
def genericType : RoomType := { RoomType.new with name := "gen" }

/-- An `endOfRegion` enemy with zero difficulty cost and `maxCount`
one. -/
def bossEnemy : EnemyType := { EnemyType.new with
  name := "boss", endOfRegion := true, maxCount := 1 }

/-- Difficulty-layer parameters: `dropoff = 1/2`, `noise = 0`,
`startingPoints = 1/2`. -/
def adCfgHalf : ADLayer := ⟨1/2, 0, 1/2⟩

/-- Extract the dungeon from a pipeline result. -/
def resultDungeon (r : Except Err (Dungeon × Oracle)) : Option Dungeon :=
  match r with
  | .ok (d, _) => some d
  | .error _ => none

/-- The full pipeline over `bpCfgKey` with the catalog above. -/
def keyPipeline : Except Err (Dungeon × Oracle) :=
  gen_map [.branching bpCfgKey, .regions, .difficulties adCfgHalf,
    .roomTypesL [entranceType, exitType, genericType],
    .enemiesL [bossEnemy]] tapeKey

/-- The dungeon `keyPipeline` produces. -/
def keyDungeon : Dungeon := (resultDungeon keyPipeline).getD Dungeon.empty

/-- The path and region layers over `bpCfg01` (a one-room dungeon). -/
def oneRoomPrefix : Except Err Dungeon := do
  let (d, _) ← BPLayer.process_dungeon bpCfg01 1 Dungeon.empty []
  AssignRegionsLayer.process_dungeon d

/-- The path, region and difficulty layers over `bpCfg01`. -/
def oneRoomPipeline : Except Err (Dungeon × Oracle) := do
  let (d, t) ← BPLayer.process_dungeon bpCfg01 1 Dungeon.empty []
  let d ← AssignRegionsLayer.process_dungeon d
  ADLayer.process_dungeon adCfgHalf d t

/-- A state holding a single room at the origin. -/
def singleRoomSt : GenSt := ⟨[DungeonRoom.new], []⟩

/-- A room at given coordinates with a given index. -/
def roomAtXY (x y : Int) (i : Nat) : DungeonRoom :=
  { DungeonRoom.new with x := x, y := y, index := i }

/-- A state in which the origin room's four neighbour cells are all
occupied. -/
def blockedSt : GenSt :=
  ⟨[roomAtXY 0 0 0, roomAtXY (-1) 0 1, roomAtXY 0 (-1) 2,
    roomAtXY 1 0 3, roomAtXY 0 1 4], []⟩

/-- A one-room dungeon with a main path, for exercising the room-type
layer directly. -/
def trivialDungeon : Dungeon :=
  { rooms := [DungeonRoom.new], keys := [], mainPath := .mk [0] [] false }

/-- `regionStart` as the spec words it: the sequence index of the first
room whose region is `r`. -/
def specRegionStart (rooms : List DungeonRoom) (r : Int) : Nat :=
  rooms.findIdx (fun room => room.region = r)

/-- The dungeon generated by `bpCfg45` on the empty tape. -/
def walk45Dungeon : Dungeon :=
  (resultDungeon (BPLayer.process_dungeon bpCfg45 1 Dungeon.empty [])).getD
    Dungeon.empty

/-- A minimal walk configuration (no side paths, no optional rooms). -/
def walkCfg : BPLayer := ⟨(1, 2), (1, 2), 0, 0⟩

/-- The number of keys recorded by one `placeRoom` step. -/
def kBit (pl : Bool) (kl : Option Nat) : Nat :=
  if pl then match kl with | some _ => 1 | none => 0 else 0

/-- The conclusion bundle of the walk-loop invariant: the invariant
holds after the loop, rooms only accumulate, old tree costs are
untouched, a returned room is a maximal-cost room, and a recursive
branch run (`branchCase`) adds no keys and only rooms that cost as much
as the branch root. -/
def loopConc (st : GenSt) (v : Nat) (st' : GenSt) (res : Option Nat)
    (branchCase : Prop) : Prop :=
  GenInv st' ∧ st.rooms.length ≤ st'.rooms.length ∧
  (∀ i, i < st.rooms.length →
    treeCost st'.keys st'.rooms i = treeCost st.keys st.rooms i) ∧
  (∀ r, res = some r → r < st'.rooms.length ∧ curMax st' r) ∧
  (branchCase →
    st'.keys = st.keys ∧
    (∀ i, st.rooms.length ≤ i → i < st'.rooms.length →
      treeCost st'.keys st'.rooms i = treeCost st.keys st.rooms v))

def branchConc (st : GenSt) (v : Nat) (st' : GenSt) : Prop :=
  GenInv st' ∧ st.rooms.length ≤ st'.rooms.length ∧
  (∀ i, i < st.rooms.length →
    treeCost st'.keys st'.rooms i = treeCost st.keys st.rooms i) ∧
  st'.keys = st.keys ∧
  (∀ i, st.rooms.length ≤ i → i < st'.rooms.length →
    treeCost st'.keys st'.rooms i = treeCost st.keys st.rooms v)

/-- The creation-tree chain from the entrance to room `i`, listed
entrance first (fuel `i` suffices since parents have smaller indices). -/
def rootPath (rooms : List DungeonRoom) : Nat → Nat → List Nat
  | 0, i => [i]
  | fuel + 1, i =>
    match parentD rooms i with
    | some (j, _) => rootPath rooms fuel j ++ [i]
    | none => [i]

/-- Two room lists agree on every geometric field (coordinates,
index attribute and doors); later layers only touch the other fields. -/
def SameShape (base cur : List DungeonRoom) : Prop :=
  cur.length = base.length ∧
  ∀ i, i < base.length →
    (roomAt cur i).x = (roomAt base i).x ∧
    (roomAt cur i).y = (roomAt base i).y ∧
    (roomAt cur i).index = (roomAt base i).index ∧
    (roomAt cur i).doors = (roomAt base i).doors

/-- The region assignment after the relaxation has processed rooms
`0..i-1`: resolved rooms carry their tree cost, the rest `-1`. -/
def regF (keys : List DungeonKey) (base : List DungeonRoom) (i j : Nat) :
    Int :=
  if j = 0 ∨ j < i then (treeCost keys base j : Int) else -1

/-- `cur` is `base` with every room's `region` replaced according to
`r`. -/
def RegionsView (base cur : List DungeonRoom) (r : Nat → Int) : Prop :=
  cur.length = base.length ∧
  ∀ i, i < base.length →
    roomAt cur i = { roomAt base i with region := r i }

/-- The `k`-th entry of `directionsOf`. -/
def dirE (x y : Int) (k : Nat) : Int × Int × Nat :=
  ((neighborCell x y k).1, (neighborCell x y k).2, k)

/-- A concrete branching-path run over `bpCfg45` and the all-zero
tape. -/
def bp45 : Except Err (Dungeon × Oracle) :=
  BPLayer.process_dungeon bpCfg45 genAttempts Dungeon.empty
    [0, 0, 0, 0, 0, 0, 0, 0]

/-- The dungeon `bp45` produces. -/
def bp45Dungeon : Dungeon := (resultDungeon bp45).getD Dungeon.empty

/-- The leftover oracle tape of `bp45`. -/
def bp45Tail : Oracle :=
  match bp45 with
  | .ok (_, t) => t
  | .error _ => []

/-- Two rooms agreeing on the geometric fields: position, index and
doors. -/
def shapeEqR (a b : DungeonRoom) : Prop :=
  a.x = b.x ∧ a.y = b.y ∧ a.index = b.index ∧ a.doors = b.doors

/-- The spec's difficulty formula for a room with sequence index `n` in
a region spanning `[x1, x2]`: quadratic ramp, normalisation by `diff`,
rescale into `[startingPoints, 1]`, additive noise from the draw `r`,
clamp to `[0, 1]`. -/
def specDifficulty (cfg : ADLayer) (diff x1 x2 n r : ℚ) : ℚ :=
  max 0 (min 1 ((((n - x1) / (x2 - x1)) ^ 2 * (x2 - cfg.dropoff * x1)
    + cfg.dropoff * x1) / diff * (1 - cfg.startingPoints)
    + cfg.startingPoints + r * 2 * cfg.noise - cfg.noise))

/-- The region labels the difficulty layer relies on: a nonempty room
list whose regions start at `0`, never decrease in room order, and grow
by at most `1` from one room to the next. -/
def RegionLadder (rooms : List DungeonRoom) : Prop :=
  0 < rooms.length ∧ (roomAt rooms 0).region = 0 ∧
  (∀ i j, i ≤ j → j < rooms.length →
    (roomAt rooms i).region ≤ (roomAt rooms j).region) ∧
  (∀ i, i + 1 < rooms.length →
    (roomAt rooms (i + 1)).region ≤ (roomAt rooms i).region + 1)

/-- The loop body of the first pass of
`AssignDifficultiesLayer.process_dungeon`, as a named function. -/
def adFP1Step (a : ℚ × Int × List ℚ × List DungeonRoom)
    (room : DungeonRoom) :
    Except Err (ℚ × Int × List ℚ × List DungeonRoom) := do
  let (diff, currentRegion, regionValues, done) := a
  let (currentRegion, regionValues) ←
    if room.region ≠ currentRegion then do
      let rv ← pyListSet regionValues room.region diff
      pure (room.region, rv)
    else pure (currentRegion, regionValues)
  pure (diff + 1, currentRegion, regionValues,
    done ++ [{ room with difficulty := diff }])

/-- The loop body of the second pass of
`AssignDifficultiesLayer.process_dungeon`, as a named function. -/
def adFP2Step (cfg : ADLayer) (diff : ℚ) (regionValues : List ℚ)
    (a : List DungeonRoom × Oracle) (room : DungeonRoom) :
    Except Err (List DungeonRoom × Oracle) := do
  let (done, t) := a
  let x1 ← pyListGet regionValues room.region
  let x2 ← pyListGet regionValues (room.region + 1)
  let n := room.difficulty
  if x2 - x1 = 0 then throw .zeroDivisionError
  else
    let d := ((n - x1) / (x2 - x1)) ^ 2 * (x2 - cfg.dropoff * x1)
      + cfg.dropoff * x1
    if diff = 0 then throw .zeroDivisionError
    else
      let d := d / diff * (1 - cfg.startingPoints) + cfg.startingPoints
      let (r, t) := randFloat t
      let d := d + r * 2 * cfg.noise - cfg.noise
      let d := max 0 (min 1 d)
      pure (done ++ [{ room with difficulty := d }], t)

/-- The leftover tape of the path layer over `bpCfgKey` and
`tapeKey`. -/
def keyBPTail : Oracle :=
  match BPLayer.process_dungeon bpCfgKey genAttempts Dungeon.empty
      tapeKey with
  | .ok (_, t) => t
  | .error _ => []

/-- The dungeon the path layer builds over `bpCfgKey` and `tapeKey`. -/
def keyBPDungeon : Dungeon :=
  match BPLayer.process_dungeon bpCfgKey genAttempts Dungeon.empty
      tapeKey with
  | .ok (d, _) => d
  | .error _ => Dungeon.empty

/-- `keyBPDungeon` after the regions layer. -/
def keyRegDungeon : Dungeon :=
  match AssignRegionsLayer.process_dungeon keyBPDungeon with
  | .ok d => d
  | .error _ => Dungeon.empty

/-- The leftover oracle tape of `keyPipeline`. -/
def keyPipeTail : Oracle :=
  match keyPipeline with
  | .ok (_, t) => t
  | .error _ => []

/-! ## Infrastructure lemmas -/

theorem listModify_length {α : Type} (l : List α) (i : Nat) (f : α → α) :
    (listModify l i f).length = l.length := by
  induction l generalizing i with
  | nil => rfl
  | cons a r ih =>
    cases i with
    | zero => rfl
    | succ n => simp [listModify, ih]

theorem listModify_getD_ne {α : Type} (l : List α) (i j : Nat) (f : α → α)
    (dflt : α) (h : j ≠ i) :
    (listModify l i f).getD j dflt = l.getD j dflt := by
  induction l generalizing i j with
  | nil => rfl
  | cons a r ih =>
    cases i with
    | zero =>
      cases j with
      | zero => exact absurd rfl h
      | succ m => simp [listModify]
    | succ n =>
      cases j with
      | zero => simp [listModify]
      | succ m =>
        simp only [listModify, List.getD_cons_succ]
        exact ih n m (fun hh => h (by rw [hh]))

theorem listModify_getD_eq {α : Type} (l : List α) (i : Nat) (f : α → α)
    (dflt : α) (h : i < l.length) :
    (listModify l i f).getD i dflt = f (l.getD i dflt) := by
  induction l generalizing i with
  | nil => simp at h
  | cons a r ih =>
    cases i with
    | zero => rfl
    | succ n =>
      simp only [listModify, List.getD_cons_succ]
      exact ih n (by simpa using h)

theorem shuffleL_perm {α : Type} (l : List α) (t : Oracle) :
    (shuffleL l t).1.Perm l := by
  have h1 : (shuffleL l t).1 =
      l.permutations.getD ((takeNat t).1 % l.permutations.length) l := by
    unfold shuffleL
    rcases takeNat t with ⟨k, t'⟩
    rfl
  rw [h1]
  by_cases hlt : (takeNat t).1 % l.permutations.length < l.permutations.length
  · have hmem : l.permutations.getD ((takeNat t).1 % l.permutations.length) l ∈
        l.permutations := by
      rw [List.getD_eq_getElem l.permutations l hlt]
      exact List.getElem_mem hlt
    exact List.mem_permutations.mp hmem
  · rw [List.getD_eq_default]
    omega

theorem shuffleL_mem {α : Type} (l : List α) (t : Oracle) (a : α)
    (h : a ∈ (shuffleL l t).1) : a ∈ l :=
  (shuffleL_perm l t).mem_iff.mp h

theorem pickNext_eq_find_aux (rooms : List DungeonRoom)
    (dirs : List (Int × Int × Nat)) (acc : Option (Int × Int × Nat)) :
    dirs.foldl
      (fun acc p => if getRoomAt rooms p.1 p.2.1 = none then some p else acc)
      acc =
    match dirs.reverse.find?
        (fun p => (getRoomAt rooms p.1 p.2.1).isNone) with
    | some q => some q
    | none => acc := by
  induction dirs generalizing acc with
  | nil => rfl
  | cons p rest ih =>
    rw [List.foldl_cons, ih, List.reverse_cons, List.find?_append]
    by_cases hp : getRoomAt rooms p.1 p.2.1 = none
    · have hp' : (getRoomAt rooms p.1 p.2.1).isNone = true := by
        rw [hp]; rfl
      rcases hrest : rest.reverse.find?
          (fun p => (getRoomAt rooms p.1 p.2.1).isNone) with _ | q
      · simp [hrest, List.find?, hp', if_pos hp]
      · simp [hrest]
    · have hp' : (getRoomAt rooms p.1 p.2.1).isNone = false := by
        rcases h : getRoomAt rooms p.1 p.2.1 with _ | r
        · exact absurd h hp
        · rfl
      rcases hrest : rest.reverse.find?
          (fun p => (getRoomAt rooms p.1 p.2.1).isNone) with _ | q
      · simp [hrest, List.find?, hp', if_neg hp]
      · simp [hrest]

theorem pickNext_eq_find (rooms : List DungeonRoom)
    (dirs : List (Int × Int × Nat)) :
    pickNext rooms dirs =
      dirs.reverse.find? (fun p => (getRoomAt rooms p.1 p.2.1).isNone) := by
  unfold pickNext
  rw [pickNext_eq_find_aux]
  rcases h : dirs.reverse.find?
      (fun p => (getRoomAt rooms p.1 p.2.1).isNone) with _ | q
  · rw [h]
  · rw [h]

/-! ## C1: the spec's `(5,5)` scenario -/

/-- C1 counterexample: with `mainPathLength = (5,5)` the layer does not
succeed at all — `randrange(5, 5)` raises `ValueError` before any path
is walked, for the concrete empty tape (the tape is irrelevant: the
range is empty).  The dungeon therefore never has 5 rooms. -/
theorem C1_counterexample_rand55 :
    BPLayer.process_dungeon bpCfg55 5 Dungeon.empty [] =
      .error .valueError := by
  with_unfolding_all rfl

/-! ## C3 counterexample: a one-room dungeon divides by zero -/

/-- C3 counterexample: the path and region layers produce a one-room
dungeon (main-path length range `(0,1)`), on which
`AssignDifficultiesLayer.process_dungeon` divides by zero (both
`x2 - x1 = 0` and `N - 1 = 0`): the layer is not total on the outputs
of the preceding layers. -/
theorem C3_counterexample_divzero :
    (oneRoomPrefix.map (fun d =>
        (d.rooms.length, d.rooms.map (fun r => r.region)))) = .ok (1, [0]) ∧
    oneRoomPipeline = .error .zeroDivisionError := by
  constructor
  · with_unfolding_all rfl
  · with_unfolding_all rfl

/-! ## C6: `endOfRegion` enemies land in the lock room, not the key room -/

/-- C6: evaluating the full pipeline at the failing input: the produced
dungeon has exactly one key, whose key sits in room 2 and whose locked
door is in room 1; the `endOfRegion` enemy is appended to room 1 — a
room that holds no key and is not the final room (room 4) — because
`Dungeon.is_end_of_region` tests `key.lockLocation` where its own
docstring ("True if this room has a key in it") and the `EnemyType`
docstring demand the key room; indeed it answers `true` for the lock
room 1 and `false` for the key room 2. -/
theorem C6_endOfRegion_lock_room :
    (resultDungeon keyPipeline).isSome = true ∧
    keyDungeon.keys = [⟨2, 1, 2⟩] ∧
    (roomAt keyDungeon.rooms 1).enemies = [bossEnemy] ∧
    bossEnemy.endOfRegion = true ∧
    keyDungeon.mainPath.rooms.getLast? = some 4 ∧
    keyDungeon.is_end_of_region 1 = true ∧
    keyDungeon.is_end_of_region 2 = false := by
  refine ⟨?_, ?_, ?_, rfl, ?_, ?_, ?_⟩ <;> with_unfolding_all rfl

/-! ## C7: the missing-entrance error is not raised before generation -/

/-- C7 counterexample: with an empty room-type catalog the pipeline
`[BranchingPathLayer, AssignRoomTypes]` does fail with `GeneratorError`,
but only when the room-type layer runs: the path builder has already
run — it creates 5 rooms on the same prefix, and if the path
configuration itself is broken (`mainPathLength = (5,5)`) the run dies
with the path builder's `ValueError` instead of the configuration
error.  Hence the error is not raised before any generation attempt
begins. -/
theorem C7_counterexample_not_fail_fast :
    gen_map [.branching bpCfg45, .roomTypesL []] [] =
      .error .generatorError ∧
    (resultDungeon (gen_map [.branching bpCfg45] [])).map
      (fun d => d.rooms.length) = some 5 ∧
    gen_map [.branching bpCfg55, .roomTypesL []] [] =
      .error .valueError := by
  refine ⟨?_, ?_, ?_⟩ <;> with_unfolding_all rfl

/-- C7 (amended): if the catalog lacks any entrance-eligible or any
exit-eligible room type, then `AssignRoomTypes.process_dungeon` — the
layer that runs after the path builder has already created the rooms —
fails with `GeneratorError`, for every dungeon whose main path is
nonempty and every tape. -/
theorem C7_missing_entrance_or_exit_generatorError
    (roomTypes : List RoomType) (d : Dungeon) (t : Oracle)
    (hne : d.mainPath.rooms ≠ [])
    (h : roomTypes.filter (fun x => x.isEntrance) = [] ∨
      roomTypes.filter (fun x => x.isExit) = []) :
    AssignRoomTypes.process_dungeon roomTypes d t =
      .error .generatorError := by
  rcases hm : d.mainPath.rooms with _ | ⟨i0, rest⟩
  · exact absurd hm hne
  · rcases h with h | h
    · unfold AssignRoomTypes.process_dungeon
      rw [hm]
      unfold random_room
      rw [h]
      rfl
    · unfold AssignRoomTypes.process_dungeon
      rw [hm]
      rcases hr : random_room roomTypes (fun x => x.isEntrance) t
        with e | ⟨rt, t'⟩
      · have : e = Err.generatorError := by
          unfold random_room at hr
          by_cases hw : ((roomTypes.filter (fun x => x.isEntrance)).flatMap
              (fun r => List.replicate r.priority r)).length > 0
          · rw [if_pos hw] at hr
            unfold randrange1 at hr
            rw [if_neg (by omega)] at hr
            simp only [bind, Except.bind] at hr
            simp [pure, Except.pure] at hr
          · rw [if_neg hw] at hr
            exact ((Except.error.injEq _ _).mp hr).symm
        rw [this]
        rfl
      · simp only [bind, Except.bind]
        unfold random_room
        rw [h]
        rfl

/-- C7 witness: the amended theorem at the trivial one-room dungeon and
the empty catalog. -/
theorem C7_missing_entrance_witness :
    AssignRoomTypes.process_dungeon [] trivialDungeon [] =
      .error .generatorError :=
  C7_missing_entrance_or_exit_generatorError [] trivialDungeon []
    (by with_unfolding_all decide) (Or.inl rfl)

/-! ## C9: the walk keeps the last free neighbour, not the first -/

/-- C9 counterexample: from a single room at the origin with the
identity shuffle, all four candidate cells are free; the first
unoccupied cell in the shuffled enumeration is `(-1, 0)` (west), but
the step picks `(0, 1)` (south, the last one): the created room lands
at `(0, 1)`, not at the first unoccupied candidate. -/
theorem C9_counterexample_picks_last :
    (shuffleL (directionsOf 0 0) [0]).1 =
      [(-1, 0, 0), (0, -1, 1), (1, 0, 2), (0, 1, 3)] ∧
    (shuffleL (directionsOf 0 0) [0]).1.find?
      (fun p => (getRoomAt singleRoomSt.rooms p.1 p.2.1).isNone) =
        some (-1, 0, 0) ∧
    pickNext singleRoomSt.rooms (shuffleL (directionsOf 0 0) [0]).1 =
      some (0, 1, 3) ∧
    (match create_path walkCfg 3 singleRoomSt 1 0 false 0 [0] with
      | .ok (st, _, _, _) => ((roomAt st.rooms 1).x, (roomAt st.rooms 1).y)
      | .error _ => (9, 9)) = (0, 1) ∧
    (some ((0 : Int), (1 : Int), (3 : Nat)) :
      Option (Int × Int × Nat)) ≠ some (-1, 0, 0) := by
  refine ⟨?_, ?_, ?_, ?_, ?_⟩ <;> first
  | with_unfolding_all rfl
  | decide

/-- C9 (amended): at each step the walk enumerates the four
grid-adjacent candidates in tape-shuffled order and picks the LAST cell
in that order whose cell is unoccupied (the source's scan overwrites
`nextPos` without breaking, so the last match wins); and if none of the
four is free the loop immediately returns no result with the state
unchanged. -/
theorem C9_picks_last_unoccupied :
    (∀ (rooms : List DungeonRoom) (dirs : List (Int × Int × Nat)),
      pickNext rooms dirs =
        dirs.reverse.find? (fun p => (getRoomAt rooms p.1 p.2.1).isNone)) ∧
    (∀ (cfg : BPLayer) (fuel : Nat) (st : GenSt) (len roomIdx : Nat)
      (pr : List Nat) (sp : List DungeonPath) (pl : Bool)
      (kl : Option Nat) (depth : Nat) (t : Oracle),
      (∀ p ∈ directionsOf (roomAt st.rooms roomIdx).x
          (roomAt st.rooms roomIdx).y,
        (getRoomAt st.rooms p.1 p.2.1).isSome) →
      cpLoop cfg (fuel + 1) st (len + 1) roomIdx pr sp pl kl depth t =
        .ok (st, pr, sp, none, (takeNat t).2)) := by
  constructor
  · exact pickNext_eq_find
  · intro cfg fuel st len roomIdx pr sp pl kl depth t hall
    have ht2 : (shuffleL (directionsOf (roomAt st.rooms roomIdx).x
        (roomAt st.rooms roomIdx).y) t).2 = (takeNat t).2 := by
      unfold shuffleL
      rcases takeNat t with ⟨k, t'⟩
      rfl
    have hpick : pickNext st.rooms
        (shuffleL (directionsOf (roomAt st.rooms roomIdx).x
          (roomAt st.rooms roomIdx).y) t).1 = none := by
      rw [pickNext_eq_find]
      apply List.find?_eq_none.mpr
      intro p hp
      have hmem : p ∈ directionsOf (roomAt st.rooms roomIdx).x
          (roomAt st.rooms roomIdx).y :=
        shuffleL_mem _ _ _ (List.mem_reverse.mp hp)
      have hs := hall p hmem
      rcases h : getRoomAt st.rooms p.1 p.2.1 with _ | r
      · rw [h] at hs; simp at hs
      · simp
    simp only [cpLoop]
    rcases hsh : shuffleL (directionsOf (roomAt st.rooms roomIdx).x
        (roomAt st.rooms roomIdx).y) t with ⟨dirs, t2⟩
    have hd : dirs = (shuffleL (directionsOf (roomAt st.rooms roomIdx).x
        (roomAt st.rooms roomIdx).y) t).1 := by rw [hsh]
    have ht : t2 = (takeNat t).2 := by rw [← ht2, hsh]
    rw [show st.rooms.getD roomIdx DungeonRoom.new = roomAt st.rooms roomIdx
      from rfl, hsh]
    rw [hd] at *
    rw [hpick, ht]

/-- C9 witness: the amended theorem's dead-end case at a concrete
blocked state: the origin room's four neighbours are occupied, so one
loop step returns no result. -/
theorem C9_picks_last_unoccupied_witness :
    cpLoop walkCfg 1 blockedSt 1 0 [0] [] false none 0 [] =
      .ok (blockedSt, [0], [], none, []) :=
  C9_picks_last_unoccupied.2 walkCfg 0 blockedSt 0 0 [0] [] false none 0 []
    (by decide)

/-! ## Path growth of the walk loop -/


theorem optionalBranch_pathRooms (cfg : BPLayer) (fuel : Nat) (st : GenSt)
    (newIdx : Nat) (pr : List Nat) (sp : List DungeonPath) (depth : Nat)
    (t : Oracle) (st' : GenSt) (pr' : List Nat) (sp' : List DungeonPath)
    (res : Option Nat) (t' : Oracle)
    (h : optionalBranch cfg fuel st newIdx pr sp depth t =
      .ok (st', pr', sp', res, t')) : pr' = pr := by
  unfold optionalBranch at h
  split at h
  · split at h
    · exact Except.noConfusion h
    · next k t2 =>
      split at h
      · split at h
        · exact Except.noConfusion h
        · next st3 bR bS bRes t3 =>
          split at h
          · simp only [Except.ok.injEq, Prod.mk.injEq] at h
            exact h.2.1.symm
          · simp only [Except.ok.injEq, Prod.mk.injEq] at h
            exact h.2.1.symm
      · simp only [Except.ok.injEq, Prod.mk.injEq] at h
        exact h.2.1.symm
  · simp only [Except.ok.injEq, Prod.mk.injEq] at h
    exact h.2.1.symm

theorem sideBranch_path (cfg : BPLayer) (fuel : Nat)
    (ihA : ∀ (st : GenSt) (len roomIdx : Nat) (pr : List Nat)
      (sp : List DungeonPath) (pl : Bool) (kl : Option Nat) (depth : Nat)
      (t : Oracle) (st' : GenSt) (pr' : List Nat) (sp' : List DungeonPath)
      (r : Nat) (t' : Oracle),
      cpLoop cfg fuel st len roomIdx pr sp pl kl depth t =
        .ok (st', pr', sp', some r, t') →
      ∃ suffix : List Nat, pr' = pr ++ suffix ∧ suffix.length = len)
    (st : GenSt) (len' newIdx : Nat) (pr : List Nat)
    (sp : List DungeonPath) (kl : Option Nat) (depth : Nat) (t : Oracle)
    (st' : GenSt) (pr' : List Nat) (sp' : List DungeonPath) (r : Nat)
    (t' : Oracle)
    (h : sideBranch cfg fuel st len' newIdx pr sp kl depth t =
      .ok (st', pr', sp', some r, t')) :
    ∃ suffix : List Nat, pr' = pr ++ suffix ∧ suffix.length = len' := by
  unfold sideBranch at h
  split at h
  · split at h
    · exact Except.noConfusion h
    · next k t2 =>
      split at h
      · split at h
        · exact Except.noConfusion h
        · next l t3 =>
          split at h
          · exact Except.noConfusion h
          · next st3 bR bS bRes t4 =>
            split at h
            · simp at h
            · exact ihA _ _ _ _ _ _ _ _ _ _ _ _ _ _ h
      · exact ihA _ _ _ _ _ _ _ _ _ _ _ _ _ _ h
  · exact ihA _ _ _ _ _ _ _ _ _ _ _ _ _ _ h

theorem cpLoop_ok_path (fuel : Nat) :
    ∀ (cfg : BPLayer) (st : GenSt) (len roomIdx : Nat) (pr : List Nat)
      (sp : List DungeonPath) (pl : Bool) (kl : Option Nat) (depth : Nat)
      (t : Oracle) (st' : GenSt) (pr' : List Nat) (sp' : List DungeonPath)
      (r : Nat) (t' : Oracle),
    cpLoop cfg fuel st len roomIdx pr sp pl kl depth t =
      .ok (st', pr', sp', some r, t') →
    ∃ suffix : List Nat, pr' = pr ++ suffix ∧ suffix.length = len := by
  induction fuel with
  | zero =>
    intro cfg st len roomIdx pr sp pl kl depth t st' pr' sp' r t' h
    simp only [cpLoop] at h
    exact Except.noConfusion h
  | succ fuel ih =>
    intro cfg st len roomIdx pr sp pl kl depth t st' pr' sp' r t' h
    match len with
    | 0 =>
      simp only [cpLoop, Except.ok.injEq, Prod.mk.injEq] at h
      exact ⟨[], by simp [h.2.1.symm], rfl⟩
    | len' + 1 =>
      simp only [cpLoop] at h
      split at h
      · simp at h
      · next np hnp =>
        split at h
        case isTrue hlen =>
          split at h
          · exact Except.noConfusion h
          · simp at h
          · next st3 pr3 sp3 v t3 hopt =>
            have hpr3 := optionalBranch_pathRooms _ _ _ _ _ _ _ _ _ _ _ _ _ hopt
            obtain ⟨suffix, hs, hl⟩ :=
              sideBranch_path cfg fuel (fun st len => ih cfg st len) st3 len'
                _ pr3 sp3 kl depth t3 st' pr' sp' r t' h
            refine ⟨(placeRoom st roomIdx np depth pl kl).2 :: suffix,
              ?_, by simp [hl]⟩
            rw [hs, hpr3]
            simp
        case isFalse hlen =>
          obtain ⟨suffix, hs, hl⟩ := ih cfg _ len' _ _
            sp false kl depth _ st' pr' sp' r t' h
          refine ⟨(placeRoom st roomIdx np depth pl kl).2 :: suffix,
            ?_, by simp [hl]⟩
          rw [hs]
          simp

/-! ## Free neighbours and the branch-free walk -/


theorem getRoomAt_some_spec (rooms : List DungeonRoom) (x y : Int)
    (w : DungeonRoom) (h : getRoomAt rooms x y = some w) :
    w ∈ rooms ∧ w.x = x ∧ w.y = y := by
  unfold getRoomAt at h
  refine ⟨List.mem_of_find?_eq_some h, ?_⟩
  have := List.find?_some h
  simpa using this

theorem roomAt_mem (rooms : List DungeonRoom) (i : Nat)
    (h : i < rooms.length) : roomAt rooms i ∈ rooms := by
  unfold roomAt
  rw [List.getD_eq_getElem rooms DungeonRoom.new h]
  exact List.getElem_mem h

theorem exists_free_neighbor (rooms : List DungeonRoom) (roomIdx : Nat)
    (hlt : roomIdx < rooms.length) (hle : rooms.length ≤ 4) :
    ∃ p ∈ directionsOf (roomAt rooms roomIdx).x (roomAt rooms roomIdx).y,
      getRoomAt rooms p.1 p.2.1 = none := by
  by_contra hcon
  push_neg at hcon
  have h0 : getRoomAt rooms ((roomAt rooms roomIdx).x - 1)
      (roomAt rooms roomIdx).y ≠ none :=
    hcon ((roomAt rooms roomIdx).x - 1, (roomAt rooms roomIdx).y, 0)
      (by simp [directionsOf])
  have h1 : getRoomAt rooms (roomAt rooms roomIdx).x
      ((roomAt rooms roomIdx).y - 1) ≠ none :=
    hcon ((roomAt rooms roomIdx).x, (roomAt rooms roomIdx).y - 1, 1)
      (by simp [directionsOf])
  have h2 : getRoomAt rooms ((roomAt rooms roomIdx).x + 1)
      (roomAt rooms roomIdx).y ≠ none :=
    hcon ((roomAt rooms roomIdx).x + 1, (roomAt rooms roomIdx).y, 2)
      (by simp [directionsOf])
  have h3 : getRoomAt rooms (roomAt rooms roomIdx).x
      ((roomAt rooms roomIdx).y + 1) ≠ none :=
    hcon ((roomAt rooms roomIdx).x, (roomAt rooms roomIdx).y + 1, 3)
      (by simp [directionsOf])
  obtain ⟨w0, hw0⟩ := Option.ne_none_iff_exists'.mp h0
  obtain ⟨w1, hw1⟩ := Option.ne_none_iff_exists'.mp h1
  obtain ⟨w2, hw2⟩ := Option.ne_none_iff_exists'.mp h2
  obtain ⟨w3, hw3⟩ := Option.ne_none_iff_exists'.mp h3
  obtain ⟨hm0, hx0, hy0⟩ := getRoomAt_some_spec _ _ _ _ hw0
  obtain ⟨hm1, hx1, hy1⟩ := getRoomAt_some_spec _ _ _ _ hw1
  obtain ⟨hm2, hx2, hy2⟩ := getRoomAt_some_spec _ _ _ _ hw2
  obtain ⟨hm3, hx3, hy3⟩ := getRoomAt_some_spec _ _ _ _ hw3
  have hmc : roomAt rooms roomIdx ∈ rooms := roomAt_mem rooms roomIdx hlt
  have neq : ∀ a b : DungeonRoom, a.x ≠ b.x ∨ a.y ≠ b.y → a ≠ b := by
    intro a b hab heq
    rcases hab with hab | hab <;> exact hab (by rw [heq])
  have d01 : w0 ≠ w1 := neq _ _ (Or.inl (by rw [hx0, hx1]; omega))
  have d02 : w0 ≠ w2 := neq _ _ (Or.inl (by rw [hx0, hx2]; omega))
  have d03 : w0 ≠ w3 := neq _ _ (Or.inl (by rw [hx0, hx3]; omega))
  have d0c : w0 ≠ roomAt rooms roomIdx :=
    neq _ _ (Or.inl (by rw [hx0]; omega))
  have d12 : w1 ≠ w2 := neq _ _ (Or.inl (by rw [hx1, hx2]; omega))
  have d13 : w1 ≠ w3 := neq _ _ (Or.inr (by rw [hy1, hy3]; omega))
  have d1c : w1 ≠ roomAt rooms roomIdx :=
    neq _ _ (Or.inr (by rw [hy1]; omega))
  have d23 : w2 ≠ w3 := neq _ _ (Or.inl (by rw [hx2, hx3]; omega))
  have d2c : w2 ≠ roomAt rooms roomIdx :=
    neq _ _ (Or.inl (by rw [hx2]; omega))
  have d3c : w3 ≠ roomAt rooms roomIdx :=
    neq _ _ (Or.inr (by rw [hy3]; omega))
  have hnodup : List.Nodup [w0, w1, w2, w3, roomAt rooms roomIdx] := by
    simp [List.nodup_cons, List.mem_cons, d01, d02, d03, d0c, d12, d13,
      d1c, d23, d2c, d3c]
  have hsub : [w0, w1, w2, w3, roomAt rooms roomIdx] ⊆ rooms := by
    intro a ha
    simp only [List.mem_cons, List.not_mem_nil, or_false] at ha
    rcases ha with rfl | rfl | rfl | rfl | rfl
    exacts [hm0, hm1, hm2, hm3, hmc]
  have := (hnodup.subperm hsub).length_le
  simp at this
  omega

theorem placeRoom_fst_rooms_length (st : GenSt) (roomIdx : Nat)
    (np : Int × Int × Nat) (depth : Nat) (pl : Bool) (kl : Option Nat) :
    ((placeRoom st roomIdx np depth pl kl).1).rooms.length =
      st.rooms.length + 1 := by
  unfold placeRoom
  rcases pl with _ | _
  · simp [listModify_length]
  · rcases kl with _ | kIdx
    · simp [listModify_length]
    · simp [listModify_length]

theorem placeRoom_keys_of_not_locked (st : GenSt) (roomIdx : Nat)
    (np : Int × Int × Nat) (depth : Nat) (kl : Option Nat) :
    ((placeRoom st roomIdx np depth false kl).1).keys = st.keys := by
  unfold placeRoom
  simp

theorem placeRoom_snd (st : GenSt) (roomIdx : Nat) (np : Int × Int × Nat)
    (depth : Nat) (pl : Bool) (kl : Option Nat) :
    (placeRoom st roomIdx np depth pl kl).2 = st.rooms.length := by
  unfold placeRoom
  rcases pl with _ | _
  · simp
  · rcases kl with _ | kIdx
    · simp
    · simp

theorem cpLoop_noBranch_ok (cfg : BPLayer)
    (hopt : cfg.optionalRoomChance = 0) (hside : cfg.sidePathChance = 0) :
    ∀ (len fuel : Nat) (st : GenSt) (roomIdx : Nat) (pr : List Nat)
      (sp : List DungeonPath) (kl : Option Nat) (depth : Nat) (t : Oracle),
    len + 1 ≤ fuel → roomIdx < st.rooms.length →
    st.rooms.length + len ≤ 5 →
    ∃ (st' : GenSt) (r : Nat) (t' : Oracle),
      cpLoop cfg fuel st len roomIdx pr sp false kl depth t =
        .ok (st', pr ++ List.range' st.rooms.length len, sp, some r, t') ∧
      st'.rooms.length = st.rooms.length + len ∧ st'.keys = st.keys := by
  intro len
  induction len with
  | zero =>
    intro fuel st roomIdx pr sp kl depth t hfuel hidx hle
    match fuel, hfuel with
    | fuel + 1, _ =>
      exact ⟨st, roomIdx, t, by simp [cpLoop], rfl, rfl⟩
  | succ len' ih =>
    intro fuel st roomIdx pr sp kl depth t hfuel hidx hle
    match fuel, hfuel with
    | fuel + 1, _ =>
      obtain ⟨p, hpmem, hpfree⟩ := exists_free_neighbor st.rooms roomIdx hidx
        (by omega)
      have hpick : ∃ np, pickNext st.rooms
          (shuffleL (directionsOf (roomAt st.rooms roomIdx).x
            (roomAt st.rooms roomIdx).y) t).1 = some np := by
        rw [pickNext_eq_find, ← Option.isSome_iff_exists]
        rw [List.find?_isSome]
        refine ⟨p, ?_, by simp [hpfree]⟩
        rw [List.mem_reverse]
        exact ((shuffleL_perm _ t).mem_iff).mpr hpmem
      obtain ⟨np, hnp⟩ := hpick
      simp only [cpLoop]
      rw [show st.rooms.getD roomIdx DungeonRoom.new = roomAt st.rooms roomIdx
        from rfl]
      rw [hnp]
      dsimp only
      have hlen2 : ((placeRoom st roomIdx np depth false kl).1).rooms.length =
        st.rooms.length + 1 := placeRoom_fst_rooms_length _ _ _ _ _ _
      have hkeys2 : ((placeRoom st roomIdx np depth false kl).1).keys =
        st.keys := placeRoom_keys_of_not_locked _ _ _ _ _
      have hsnd : (placeRoom st roomIdx np depth false kl).2 =
        st.rooms.length := placeRoom_snd _ _ _ _ _ _
      obtain ⟨st', r, t', hrun, hlen', hkeys'⟩ := ih fuel
        (placeRoom st roomIdx np depth false kl).1
        (placeRoom st roomIdx np depth false kl).2
        (pr ++ [(placeRoom st roomIdx np depth false kl).2]) sp kl depth
        (shuffleL (directionsOf (roomAt st.rooms roomIdx).x
          (roomAt st.rooms roomIdx).y) t).2
        (by omega) (by omega) (by omega)
      rcases Nat.eq_zero_or_pos len' with hz | hpos
      · subst hz
        refine ⟨st', r, t', ?_, by omega, by rw [hkeys', hkeys2]⟩
        simp only [if_neg (by omega : ¬ (0 : Nat) > 0)]
        rw [hrun, hsnd]
        simp [List.range'_succ, hlen2]
      · refine ⟨st', r, t', ?_, by omega, by rw [hkeys', hkeys2]⟩
        rw [if_pos hpos]
        unfold optionalBranch
        rw [hopt]
        simp only [gt_iff_lt, lt_irrefl, if_false]
        unfold sideBranch
        rw [hside]
        simp only [gt_iff_lt, lt_irrefl, and_false, if_false]
        rw [hrun, hsnd]
        simp [List.range'_succ, hlen2]

/-! ## C1: drawn length and the first-attempt scenario -/


theorem bpl_ok_mainPath_length :
    ∀ (att : Nat) (cfg : BPLayer) (d0 : Dungeon) (t : Oracle) (d : Dungeon)
      (t' : Oracle),
    BPLayer.process_dungeon cfg att d0 t = .ok (d, t') →
    ∃ L, cfg.mainPathLength.1 ≤ L ∧ L < cfg.mainPathLength.2 ∧
      d.mainPath.rooms.length = L + 1 := by
  intro att
  induction att with
  | zero =>
    intro cfg d0 t d t' h
    simp only [BPLayer.process_dungeon] at h
    exact Except.noConfusion h
  | succ a ih =>
    intro cfg d0 t d t' h
    simp only [BPLayer.process_dungeon] at h
    split at h
    · exact Except.noConfusion h
    · next L t2 hr =>
      have hL : cfg.mainPathLength.1 ≤ L ∧ L < cfg.mainPathLength.2 := by
        unfold randrange2 at hr
        split at hr
        · exact Except.noConfusion hr
        · next hba =>
          simp only [Except.ok.injEq, Prod.mk.injEq] at hr
          have hlt : (takeNat t).1 % (cfg.mainPathLength.2 -
              cfg.mainPathLength.1) < cfg.mainPathLength.2 -
              cfg.mainPathLength.1 := Nat.mod_lt _ (by omega)
          omega
      split at h
      · exact Except.noConfusion h
      · next st path res t3 hc =>
        split at h
        · next r =>
          simp only [Except.ok.injEq, Prod.mk.injEq] at h
          unfold create_path at hc
          split at hc
          · exact Except.noConfusion hc
          · next st2 pr sp res2 t4 hloop =>
            simp only [Except.ok.injEq, Prod.mk.injEq] at hc
            obtain ⟨hst2, hpath, hres2, ht4⟩ := hc
            rw [hres2] at hloop
            obtain ⟨suffix, hs, hlen⟩ :=
              cpLoop_ok_path _ _ _ _ _ _ _ _ _ _ _ _ _ _ _ _ hloop
            obtain ⟨hd, ht⟩ := h
            subst hd
            refine ⟨L, hL.1, hL.2, ?_⟩
            simp only [← hpath, DungeonPath.rooms]
            rw [hs]
            simp [hlen]
        · exact ih cfg Dungeon.empty t3 d t' h

theorem bpl_cfg45_always_ok (t : Oracle) :
    ∃ (d : Dungeon) (t' : Oracle),
      BPLayer.process_dungeon bpCfg45 1 Dungeon.empty t = .ok (d, t') ∧
      d.rooms.length = 5 ∧ d.keys = [] ∧
      d.mainPath.rooms = [0, 1, 2, 3, 4] := by
  have hr : randrange2 bpCfg45.mainPathLength.1 bpCfg45.mainPathLength.2 t =
      .ok (4, (takeNat t).2) := by
    unfold bpCfg45 randrange2
    simp [Nat.mod_one]
  obtain ⟨st', r, t', hrun, hlen, hkeys⟩ :=
    cpLoop_noBranch_ok bpCfg45 rfl rfl 4 (bpFuel bpCfg45 4)
      ⟨Dungeon.empty.rooms ++ [{ DungeonRoom.new with index := Dungeon.empty.rooms.length, depth := 0 }], Dungeon.empty.keys⟩
      ((Dungeon.empty.rooms ++ [{ DungeonRoom.new with index := Dungeon.empty.rooms.length, depth := 0 }]).length - 1)
      [(Dungeon.empty.rooms ++ [{ DungeonRoom.new with index := Dungeon.empty.rooms.length, depth := 0 }]).length - 1]
      [] none 0 ((takeNat t).2)
      (by unfold bpFuel bpCfg45; omega)
      (by simp [Dungeon.empty])
      (by simp [Dungeon.empty])
  refine ⟨Dungeon.mk st'.rooms st'.keys (.mk [0, 1, 2, 3, 4] [] false),
    t', ?_, ?_, ?_, ?_⟩
  · simp only [BPLayer.process_dungeon]
    rw [hr]
    dsimp only
    unfold create_path
    rw [hrun]
    rfl
  · simpa [Dungeon.empty] using hlen
  · simpa [Dungeon.empty] using hkeys
  · rfl

/-- C1 (amended): whenever `BranchingPathLayer.process_dungeon`
succeeds, its main path holds `L + 1` rooms where `L` is the drawn
`randrange(a, b)` value (so `a ≤ L < b`; a degenerate range `a = b`
cannot succeed at all, it raises `ValueError`); and for the spec's
scenario corrected to the equivalent non-degenerate range `(4, 5)` with
`sidePathChance = 0` and `optionalRoomChance = 0`, every run succeeds
on its first attempt with exactly 5 rooms, zero keys, and main path
`[0, 1, 2, 3, 4]` — a single entrance room (index 0, the head) and
a single exit room (index 4, the last), distinct. -/
theorem C1_main_path_has_drawn_length_plus_one :
    (∀ (att : Nat) (cfg : BPLayer) (d0 : Dungeon) (t : Oracle) (d : Dungeon)
      (t' : Oracle),
      BPLayer.process_dungeon cfg att d0 t = .ok (d, t') →
      ∃ L, cfg.mainPathLength.1 ≤ L ∧ L < cfg.mainPathLength.2 ∧
        d.mainPath.rooms.length = L + 1) ∧
    (∀ t : Oracle, ∃ (d : Dungeon) (t' : Oracle),
      BPLayer.process_dungeon bpCfg45 1 Dungeon.empty t = .ok (d, t') ∧
      d.rooms.length = 5 ∧ d.keys = [] ∧
      d.mainPath.rooms = [0, 1, 2, 3, 4] ∧
      d.mainPath.rooms.head? = some 0 ∧
      d.mainPath.rooms.getLast? = some 4) :=
  ⟨bpl_ok_mainPath_length, fun t => by
    obtain ⟨d, t', h1, h2, h3, h4⟩ := bpl_cfg45_always_ok t
    exact ⟨d, t', h1, h2, h3, h4, by rw [h4]; rfl, by rw [h4]; rfl⟩⟩

/-- C1 witness: the amended theorem at the empty tape. -/
theorem C1_main_path_witness :
    (∃ L, bpCfg45.mainPathLength.1 ≤ L ∧ L < bpCfg45.mainPathLength.2 ∧
      walk45Dungeon.mainPath.rooms.length = L + 1) ∧
    (∃ (d : Dungeon) (t' : Oracle),
      BPLayer.process_dungeon bpCfg45 1 Dungeon.empty [] = .ok (d, t') ∧
      d.rooms.length = 5 ∧ d.keys = [] ∧
      d.mainPath.rooms = [0, 1, 2, 3, 4] ∧
      d.mainPath.rooms.head? = some 0 ∧
      d.mainPath.rooms.getLast? = some 4) :=
  ⟨C1_main_path_has_drawn_length_plus_one.1 1 bpCfg45 Dungeon.empty []
      walk45Dungeon [] (by with_unfolding_all rfl),
    C1_main_path_has_drawn_length_plus_one.2 []⟩

/-! ## Doors, cells and unique lookup -/


theorem set_door_door (r : DungeonRoom) (dd : Nat) (b : Bool) (hdd : dd < 4)
    (d : Nat) :
    (r.set_door dd b).door d = if d = dd then b else r.door d := by
  unfold DungeonRoom.set_door DungeonRoom.door
  interval_cases dd <;>
    (by_cases h0 : d = 0 <;> by_cases h1 : d = 1 <;> by_cases h2 : d = 2 <;>
      by_cases h3 : d = 3 <;> simp_all)

theorem door_ge_four (r : DungeonRoom) (d : Nat) (hd : 4 ≤ d) :
    r.door d = false := by
  unfold DungeonRoom.door
  rw [if_neg (by omega), if_neg (by omega), if_neg (by omega),
    if_neg (by omega)]

theorem mem_directionsOf (x y : Int) (p : Int × Int × Nat)
    (h : p ∈ directionsOf x y) :
    p.2.2 < 4 ∧ (p.1, p.2.1) = neighborCell x y p.2.2 := by
  simp only [directionsOf, List.mem_cons, List.not_mem_nil, or_false] at h
  rcases h with rfl | rfl | rfl | rfl <;> simp [neighborCell]

theorem neighborCell_symm (x y : Int) (d : Nat) (hd : d < 4) :
    neighborCell (neighborCell x y d).1 (neighborCell x y d).2 ((d + 2) % 4) =
      (x, y) := by
  interval_cases d <;> simp [neighborCell]

theorem opp_opp (d : Nat) (hd : d < 4) : ((d + 2) % 4 + 2) % 4 = d := by
  omega

theorem opp_lt_four (d : Nat) : (d + 2) % 4 < 4 := Nat.mod_lt _ (by omega)

theorem neighborCell_ne (x y : Int) (d : Nat) (hd : d < 4) :
    neighborCell x y d ≠ (x, y) := by
  interval_cases d <;> simp [neighborCell]

theorem find?_unique {α : Type} (l : List α) (p : α → Bool) (a : α)
    (ha : a ∈ l) (hpa : p a = true)
    (huniq : ∀ b ∈ l, p b = true → b = a) : l.find? p = some a := by
  induction l with
  | nil => simp at ha
  | cons hd tl ih =>
    by_cases hphd : p hd = true
    · have : hd = a := huniq hd (List.mem_cons_self _ _) hphd
      rw [List.find?_cons_of_pos _ hphd, this]
    · have hne : hd ≠ a := fun he => hphd (he ▸ hpa)
      rw [List.find?_cons_of_neg _ (by simp [hphd])]
      rcases List.mem_cons.mp ha with rfl | hmem
      · exact absurd rfl hne
      · exact ih hmem (fun b hb hpb => huniq b (List.mem_cons_of_mem _ hb) hpb)

/-! ## Parents and tree costs -/


theorem mem_iff_roomAt (rooms : List DungeonRoom) (w : DungeonRoom)
    (hw : w ∈ rooms) : ∃ m, m < rooms.length ∧ roomAt rooms m = w := by
  obtain ⟨m, hm⟩ := List.get_of_mem hw
  refine ⟨m.1, m.2, ?_⟩
  unfold roomAt
  rw [List.getD_eq_getElem rooms DungeonRoom.new m.2]
  simpa using hm

/-- Under coordinate uniqueness, looking up a room's own coordinates
finds that room. -/
theorem getRoomAt_roomAt (rooms : List DungeonRoom) (hco : CoordsOk rooms)
    (j : Nat) (hj : j < rooms.length) :
    getRoomAt rooms (roomAt rooms j).x (roomAt rooms j).y =
      some (roomAt rooms j) := by
  unfold getRoomAt
  apply find?_unique
  · exact roomAt_mem rooms j hj
  · simp
  · intro b hb hpb
    simp only [Bool.and_eq_true, decide_eq_true_eq] at hpb
    obtain ⟨m, hm, hmb⟩ := mem_iff_roomAt rooms b hb
    by_cases hmj : m = j
    · rw [← hmb, hmj]
    · rcases hco m j hm hj hmj with hx | hy
      · exact absurd (by rw [hmb, hpb.1]) hx
      · exact absurd (by rw [hmb, hpb.2]) hy

/-- `doorTargetIdx` under the invariant: if room `i`'s door `d` is open
and some room `j` sits in the adjacent cell, the target is exactly `j`. -/
theorem doorTargetIdx_eq (rooms : List DungeonRoom) (hidx : IndexOk rooms)
    (hco : CoordsOk rooms) (i d j : Nat) (hi : i < rooms.length)
    (hj : j < rooms.length) (hd : d < 4)
    (hdoor : (roomAt rooms i).door d = true)
    (hx : (roomAt rooms j).x =
      (neighborCell (roomAt rooms i).x (roomAt rooms i).y d).1)
    (hy : (roomAt rooms j).y =
      (neighborCell (roomAt rooms i).x (roomAt rooms i).y d).2) :
    doorTargetIdx rooms i d = some j := by
  unfold doorTargetIdx
  rw [if_pos hdoor]
  rw [show (neighborCell (roomAt rooms i).x (roomAt rooms i).y d).1 =
    (roomAt rooms j).x from hx.symm]
  rw [show (neighborCell (roomAt rooms i).x (roomAt rooms i).y d).2 =
    (roomAt rooms j).y from hy.symm]
  rw [getRoomAt_roomAt rooms hco j hj]
  simp [hidx j hj]

theorem parentD_lt (rooms : List DungeonRoom) (i : Nat) (p d : Nat)
    (h : parentD rooms i = some (p, d)) :
    p < i ∧ d < 4 ∧ doorTargetIdx rooms i d = some p := by
  unfold parentD at h
  obtain ⟨l1, a, l2, hsplit, hfn, hprev⟩ := List.findSome?_eq_some_iff.mp h
  have hmem : a ∈ List.range 4 := by
    rw [hsplit]
    exact List.mem_append_right _ (List.mem_cons_self _ _)
  have ha4 : a < 4 := List.mem_range.mp hmem
  split at hfn
  · next j hdt =>
    split at hfn
    · next hj =>
      have hpd := Option.some.inj hfn
      have hp : j = p := congrArg Prod.fst hpd
      have hd : a = d := congrArg Prod.snd hpd
      subst hp
      subst hd
      exact ⟨hj, ha4, hdt⟩
    · exact Option.noConfusion hfn
  · exact Option.noConfusion hfn

theorem findSome?_unique {α β : Type} (l : List α) (f : α → Option β)
    (a : α) (b : β) (ha : a ∈ l) (hfa : f a = some b)
    (huniq : ∀ x ∈ l, x ≠ a → f x = none) : l.findSome? f = some b := by
  induction l with
  | nil => simp at ha
  | cons hd tl ih =>
    rw [List.findSome?_cons]
    by_cases hha : hd = a
    · rw [hha, hfa]
    · rw [huniq hd (List.mem_cons_self _ _) hha]
      rcases List.mem_cons.mp ha with rfl | hmem
      · exact absurd rfl hha
      · exact ih hmem
          (fun x hx hxa => huniq x (List.mem_cons_of_mem _ hx) hxa)

/-- The direction predicate underlying `parentCount`. -/
theorem qualifies_spec (rooms : List DungeonRoom) (j d : Nat) :
    (match doorTargetIdx rooms j d with
      | some i => decide (i < j)
      | none => false) = true ↔
    ∃ p, doorTargetIdx rooms j d = some p ∧ p < j := by
  rcases h : doorTargetIdx rooms j d with _ | p
  · simp
  · simp [h]

theorem parentD_eq_of_unique (rooms : List DungeonRoom) (j d0 p0 : Nat)
    (hd0 : d0 < 4) (htgt : doorTargetIdx rooms j d0 = some p0)
    (hp0 : p0 < j)
    (huniq : ∀ d, d < 4 → d ≠ d0 →
      (match doorTargetIdx rooms j d with
        | some i => decide (i < j)
        | none => false) = false) :
    parentD rooms j = some (p0, d0) := by
  unfold parentD
  apply findSome?_unique _ _ d0
  · exact List.mem_range.mpr hd0
  · rw [htgt]
    simp [hp0]
  · intro x hx hxd
    have hx4 := List.mem_range.mp hx
    have := huniq x hx4 hxd
    rcases h : doorTargetIdx rooms j x with _ | p
    · rfl
    · rw [h] at this
      simp only [decide_eq_false_iff_not] at this
      dsimp only
      rw [if_neg this]

theorem filter_length_one_unique (q : Nat → Bool) (d0 : Nat)
    (hlen : ((List.range 4).filter q).length = 1) (hd0 : d0 < 4)
    (hq0 : q d0 = true) :
    ∀ d, d < 4 → q d = true → d = d0 := by
  intro d hd hq
  obtain ⟨x, hx⟩ := List.length_eq_one.mp hlen
  have hmem0 : d0 ∈ (List.range 4).filter q :=
    List.mem_filter.mpr ⟨List.mem_range.mpr hd0, hq0⟩
  have hmemd : d ∈ (List.range 4).filter q :=
    List.mem_filter.mpr ⟨List.mem_range.mpr hd, hq⟩
  rw [hx] at hmem0 hmemd
  simp at hmem0 hmemd
  rw [hmemd, hmem0]

theorem treeCostF_congr (keys : List DungeonKey) (rooms : List DungeonRoom) :
    ∀ (i fuel fuel' : Nat), i ≤ fuel → i ≤ fuel' →
    treeCostF keys rooms fuel i = treeCostF keys rooms fuel' i := by
  intro i
  induction i using Nat.strong_induction_on with
  | _ i ih =>
    intro fuel fuel' hf hf'
    rcases fuel with _ | f
    · rcases fuel' with _ | f'
      · rfl
      · have hi : i = 0 := by omega
        subst hi
        simp only [treeCostF]
        rcases hp : parentD rooms 0 with _ | ⟨p, d⟩
        · rfl
        · exact absurd (parentD_lt rooms 0 p d hp).1 (by omega)
    · rcases fuel' with _ | f'
      · have hi : i = 0 := by omega
        subst hi
        simp only [treeCostF]
        rcases hp : parentD rooms 0 with _ | ⟨p, d⟩
        · rfl
        · exact absurd (parentD_lt rooms 0 p d hp).1 (by omega)
      · simp only [treeCostF]
        rcases hp : parentD rooms i with _ | ⟨p, d⟩
        · rfl
        · dsimp only
          have hlt := (parentD_lt rooms i p d hp).1
          rw [ih p hlt f f' (by omega) (by omega)]

theorem treeCost_parent (keys : List DungeonKey) (rooms : List DungeonRoom)
    (i p d : Nat) (hp : parentD rooms i = some (p, d)) :
    treeCost keys rooms i =
      treeCost keys rooms p + lockBit keys p ((d + 2) % 4) := by
  have hlt := (parentD_lt rooms i p d hp).1
  unfold treeCost
  rcases hi : i with _ | m
  · omega
  · simp only [treeCostF, ← hi, hp]
    rw [treeCostF_congr keys rooms p m p (by omega) (by omega)]

theorem treeCost_root (keys : List DungeonKey) (rooms : List DungeonRoom)
    (i : Nat) (hp : parentD rooms i = none) :
    treeCost keys rooms i = 0 := by
  unfold treeCost
  rcases i with _ | m
  · rfl
  · simp only [treeCostF, hp]

theorem roomAt_append_lt (l : List DungeonRoom) (a : DungeonRoom) (i : Nat)
    (h : i < l.length) : roomAt (l ++ [a]) i = roomAt l i := by
  unfold roomAt
  rw [List.getD_append _ _ _ _ h]

theorem roomAt_append_self (l : List DungeonRoom) (a : DungeonRoom) :
    roomAt (l ++ [a]) l.length = a := by
  unfold roomAt
  rw [List.getD_eq_getElem _ _ (by simp)]
  simp

theorem roomAt_listModify_ne (l : List DungeonRoom) (i j : Nat)
    (f : DungeonRoom → DungeonRoom) (h : j ≠ i) :
    roomAt (listModify l i f) j = roomAt l j :=
  listModify_getD_ne l i j f DungeonRoom.new h

theorem roomAt_listModify_eq (l : List DungeonRoom) (i : Nat)
    (f : DungeonRoom → DungeonRoom) (h : i < l.length) :
    roomAt (listModify l i f) i = f (roomAt l i) :=
  listModify_getD_eq l i f DungeonRoom.new h


theorem set_door_x (r : DungeonRoom) (dd : Nat) (b : Bool) :
    (r.set_door dd b).x = r.x := by
  unfold DungeonRoom.set_door
  dsimp only
  split_ifs <;> rfl

theorem set_door_y (r : DungeonRoom) (dd : Nat) (b : Bool) :
    (r.set_door dd b).y = r.y := by
  unfold DungeonRoom.set_door
  dsimp only
  split_ifs <;> rfl

theorem set_door_index (r : DungeonRoom) (dd : Nat) (b : Bool) :
    (r.set_door dd b).index = r.index := by
  unfold DungeonRoom.set_door
  dsimp only
  split_ifs <;> rfl


theorem listModify_oob {α : Type} (l : List α) (i : Nat) (f : α → α)
    (h : l.length ≤ i) : listModify l i f = l := by
  induction l generalizing i with
  | nil => rfl
  | cons a r ih =>
    cases i with
    | zero => simp at h
    | succ n =>
      simp only [listModify]
      rw [ih n (by simpa using h)]

theorem door_congr (r s : DungeonRoom) (h : r.doors = s.doors) (d : Nat) :
    r.door d = s.door d := by
  unfold DungeonRoom.door
  rw [h]

theorem roomAt_modify_preserving (l : List DungeonRoom) (i j : Nat)
    (f : DungeonRoom → DungeonRoom)
    (hf : ∀ r, (f r).x = r.x ∧ (f r).y = r.y ∧ (f r).index = r.index ∧
      (f r).doors = r.doors) :
    (roomAt (listModify l i f) j).x = (roomAt l j).x ∧
    (roomAt (listModify l i f) j).y = (roomAt l j).y ∧
    (roomAt (listModify l i f) j).index = (roomAt l j).index ∧
    ∀ d, (roomAt (listModify l i f) j).door d = (roomAt l j).door d := by
  by_cases hij : j = i
  · subst hij
    by_cases hjl : j < l.length
    · rw [roomAt_listModify_eq _ _ _ hjl]
      exact ⟨(hf _).1, (hf _).2.1, (hf _).2.2.1,
        fun d => door_congr _ _ (hf _).2.2.2 d⟩
    · rw [listModify_oob l j f (by omega)]
      exact ⟨rfl, rfl, rfl, fun d => rfl⟩
  · rw [roomAt_listModify_ne _ _ _ _ hij]
    exact ⟨rfl, rfl, rfl, fun d => rfl⟩

theorem roomAt_modify_pres_x (l : List DungeonRoom) (i j : Nat)
    (f : DungeonRoom → DungeonRoom)
    (hf : ∀ r, (f r).x = r.x ∧ (f r).y = r.y ∧ (f r).index = r.index ∧
      (f r).doors = r.doors) :
    (roomAt (listModify l i f) j).x = (roomAt l j).x :=
  (roomAt_modify_preserving l i j f hf).1

theorem roomAt_modify_pres_y (l : List DungeonRoom) (i j : Nat)
    (f : DungeonRoom → DungeonRoom)
    (hf : ∀ r, (f r).x = r.x ∧ (f r).y = r.y ∧ (f r).index = r.index ∧
      (f r).doors = r.doors) :
    (roomAt (listModify l i f) j).y = (roomAt l j).y :=
  (roomAt_modify_preserving l i j f hf).2.1

theorem roomAt_modify_pres_index (l : List DungeonRoom) (i j : Nat)
    (f : DungeonRoom → DungeonRoom)
    (hf : ∀ r, (f r).x = r.x ∧ (f r).y = r.y ∧ (f r).index = r.index ∧
      (f r).doors = r.doors) :
    (roomAt (listModify l i f) j).index = (roomAt l j).index :=
  (roomAt_modify_preserving l i j f hf).2.2.1

theorem roomAt_modify_pres_door (l : List DungeonRoom) (i j : Nat)
    (f : DungeonRoom → DungeonRoom)
    (hf : ∀ r, (f r).x = r.x ∧ (f r).y = r.y ∧ (f r).index = r.index ∧
      (f r).doors = r.doors) (d : Nat) :
    (roomAt (listModify l i f) j).door d = (roomAt l j).door d :=
  (roomAt_modify_preserving l i j f hf).2.2.2 d

theorem roomAt_pn_x (l : List DungeonRoom) (i j v : Nat) :
    (roomAt (listModify l i (fun r => { r with pathNext := some v })) j).x =
    (roomAt l j).x :=
  roomAt_modify_pres_x l i j (fun r => { r with pathNext := some v }) (fun r => ⟨rfl, rfl, rfl, rfl⟩)

theorem roomAt_pn_y (l : List DungeonRoom) (i j v : Nat) :
    (roomAt (listModify l i (fun r => { r with pathNext := some v })) j).y =
    (roomAt l j).y :=
  roomAt_modify_pres_y l i j (fun r => { r with pathNext := some v }) (fun r => ⟨rfl, rfl, rfl, rfl⟩)

theorem roomAt_pn_index (l : List DungeonRoom) (i j v : Nat) :
    (roomAt (listModify l i (fun r => { r with pathNext := some v })) j).index =
    (roomAt l j).index :=
  roomAt_modify_pres_index l i j (fun r => { r with pathNext := some v }) (fun r => ⟨rfl, rfl, rfl, rfl⟩)

theorem roomAt_pn_door (l : List DungeonRoom) (i j v d : Nat) :
    (roomAt (listModify l i (fun r => { r with pathNext := some v })) j).door d =
    (roomAt l j).door d :=
  roomAt_modify_pres_door l i j (fun r => { r with pathNext := some v }) (fun r => ⟨rfl, rfl, rfl, rfl⟩) d

theorem roomAt_pl_x (l : List DungeonRoom) (i j v : Nat) :
    (roomAt (listModify l i (fun r => { r with pathLast := some v })) j).x =
    (roomAt l j).x :=
  roomAt_modify_pres_x l i j (fun r => { r with pathLast := some v }) (fun r => ⟨rfl, rfl, rfl, rfl⟩)

theorem roomAt_pl_y (l : List DungeonRoom) (i j v : Nat) :
    (roomAt (listModify l i (fun r => { r with pathLast := some v })) j).y =
    (roomAt l j).y :=
  roomAt_modify_pres_y l i j (fun r => { r with pathLast := some v }) (fun r => ⟨rfl, rfl, rfl, rfl⟩)

theorem roomAt_pl_index (l : List DungeonRoom) (i j v : Nat) :
    (roomAt (listModify l i (fun r => { r with pathLast := some v })) j).index =
    (roomAt l j).index :=
  roomAt_modify_pres_index l i j (fun r => { r with pathLast := some v }) (fun r => ⟨rfl, rfl, rfl, rfl⟩)

theorem roomAt_pl_door (l : List DungeonRoom) (i j v d : Nat) :
    (roomAt (listModify l i (fun r => { r with pathLast := some v })) j).door d =
    (roomAt l j).door d :=
  roomAt_modify_pres_door l i j (fun r => { r with pathLast := some v }) (fun r => ⟨rfl, rfl, rfl, rfl⟩) d

theorem placeRoom_spec (st : GenSt) (roomIdx : Nat) (np : Int × Int × Nat)
    (depth : Nat) (pl : Bool) (kl : Option Nat)
    (hidx : roomIdx < st.rooms.length) (hdir : np.2.2 < 4)
    (hkl : ∀ kv, kl = some kv → kv < st.rooms.length) :
    (placeRoom st roomIdx np depth pl kl).1.rooms.length =
      st.rooms.length + 1 ∧
    (∀ i, i < st.rooms.length →
      (roomAt (placeRoom st roomIdx np depth pl kl).1.rooms i).x =
        (roomAt st.rooms i).x ∧
      (roomAt (placeRoom st roomIdx np depth pl kl).1.rooms i).y =
        (roomAt st.rooms i).y ∧
      (roomAt (placeRoom st roomIdx np depth pl kl).1.rooms i).index =
        (roomAt st.rooms i).index) ∧
    (∀ i, i < st.rooms.length → i ≠ roomIdx → ∀ d,
      (roomAt (placeRoom st roomIdx np depth pl kl).1.rooms i).door d =
        (roomAt st.rooms i).door d) ∧
    (∀ d, (roomAt (placeRoom st roomIdx np depth pl kl).1.rooms roomIdx).door d =
      if d = np.2.2 then true else (roomAt st.rooms roomIdx).door d) ∧
    (roomAt (placeRoom st roomIdx np depth pl kl).1.rooms st.rooms.length).x =
      np.1 ∧
    (roomAt (placeRoom st roomIdx np depth pl kl).1.rooms st.rooms.length).y =
      np.2.1 ∧
    (roomAt (placeRoom st roomIdx np depth pl kl).1.rooms
      st.rooms.length).index = st.rooms.length ∧
    (∀ d, (roomAt (placeRoom st roomIdx np depth pl kl).1.rooms
        st.rooms.length).door d =
      if d = (np.2.2 + 2) % 4 then true else false) ∧
    (placeRoom st roomIdx np depth pl kl).1.keys =
      st.keys ++ (if pl then
        match kl with
        | some kv => [⟨kv, roomIdx, np.2.2⟩]
        | none => []
        else []) := by
  have hnewdoor : ∀ d, (newRoomAt st.rooms.length depth).door d = false := by
    intro d
    simp only [DungeonRoom.door, newRoomAt, DungeonRoom.new]
    split_ifs <;> rfl
  rcases pl with _ | _
  · have hred : placeRoom st roomIdx np depth false kl =
      (⟨listModify (listModify (listModify (st.rooms ++ [newRoomAt st.rooms.length depth])
          roomIdx (fun r => r.set_door np.2.2 true)) st.rooms.length
          (fun r => r.set_door ((np.2.2 + 2) % 4) true)) st.rooms.length
          (fun r => { r with x := np.1, y := np.2.1 }), st.keys⟩,
       st.rooms.length) := rfl
    rw [hred]
    have hlen1 : (st.rooms ++ [newRoomAt st.rooms.length depth]).length =
        st.rooms.length + 1 := by simp
    refine ⟨by simp [listModify_length], ?_, ?_, ?_, ?_, ?_, ?_, ?_, by simp⟩
    · intro i hi
      rw [roomAt_listModify_ne _ _ _ _ (by omega),
        roomAt_listModify_ne _ _ _ _ (by omega)]
      by_cases hir : i = roomIdx
      · subst hir
        rw [roomAt_listModify_eq _ _ _ (by rw [hlen1]; omega),
          set_door_x, set_door_y, set_door_index, roomAt_append_lt _ _ _ hi]
        exact ⟨rfl, rfl, rfl⟩
      · rw [roomAt_listModify_ne _ _ _ _ hir, roomAt_append_lt _ _ _ hi]
        exact ⟨rfl, rfl, rfl⟩
    · intro i hi hir d
      rw [roomAt_listModify_ne _ _ _ _ (by omega),
        roomAt_listModify_ne _ _ _ _ (by omega),
        roomAt_listModify_ne _ _ _ _ hir, roomAt_append_lt _ _ _ hi]
    · intro d
      rw [roomAt_listModify_ne _ _ _ _ (by omega),
        roomAt_listModify_ne _ _ _ _ (by omega),
        roomAt_listModify_eq _ _ _ (by rw [hlen1]; omega),
        set_door_door _ _ _ hdir, roomAt_append_lt _ _ _ hidx]
    · rw [roomAt_listModify_eq _ _ _ (by simp [listModify_length])]
    · rw [roomAt_listModify_eq _ _ _ (by simp [listModify_length])]
    · rw [roomAt_listModify_eq _ _ _ (by simp [listModify_length])]
      show (roomAt (listModify (listModify _ roomIdx _) st.rooms.length _)
        st.rooms.length).index = st.rooms.length
      rw [roomAt_listModify_eq _ _ _ (by simp [listModify_length, hlen1]),
        set_door_index, roomAt_listModify_ne _ _ _ _ (by omega),
        roomAt_append_self]
      rfl
    · intro d
      have : (roomAt (listModify (listModify (listModify (st.rooms ++ [newRoomAt st.rooms.length depth])
          roomIdx (fun r => r.set_door np.2.2 true)) st.rooms.length
          (fun r => r.set_door ((np.2.2 + 2) % 4) true)) st.rooms.length
          (fun r => { r with x := np.1, y := np.2.1 })) st.rooms.length).door d =
          ((roomAt (listModify (st.rooms ++ [newRoomAt st.rooms.length depth])
          roomIdx (fun r => r.set_door np.2.2 true)) st.rooms.length).set_door
            ((np.2.2 + 2) % 4) true).door d := by
        rw [roomAt_listModify_eq _ _ _ (by simp [listModify_length]),
          roomAt_listModify_eq _ _ _ (by simp [listModify_length, hlen1])]
        rfl
      rw [this, set_door_door _ _ _ (opp_lt_four _),
        roomAt_listModify_ne _ _ _ _ (by omega), roomAt_append_self]
      by_cases hd : d = (np.2.2 + 2) % 4
      · simp [hd]
      · simp [hd, hnewdoor]
  · -- pl = true
    rcases kl with _ | kv
    · have hred : placeRoom st roomIdx np depth true none =
        (⟨listModify (listModify (listModify (st.rooms ++ [newRoomAt st.rooms.length depth])
            roomIdx (fun r => r.set_door np.2.2 true)) st.rooms.length
            (fun r => r.set_door ((np.2.2 + 2) % 4) true)) st.rooms.length
            (fun r => { r with x := np.1, y := np.2.1 }), st.keys⟩,
         st.rooms.length) := rfl
      rw [hred]
      have hlen1 : (st.rooms ++ [newRoomAt st.rooms.length depth]).length =
          st.rooms.length + 1 := by simp
      refine ⟨by simp [listModify_length], ?_, ?_, ?_, ?_, ?_, ?_, ?_, by simp⟩
      · intro i hi
        rw [roomAt_listModify_ne _ _ _ _ (by omega),
          roomAt_listModify_ne _ _ _ _ (by omega)]
        by_cases hir : i = roomIdx
        · subst hir
          rw [roomAt_listModify_eq _ _ _ (by rw [hlen1]; omega),
            set_door_x, set_door_y, set_door_index, roomAt_append_lt _ _ _ hi]
          exact ⟨rfl, rfl, rfl⟩
        · rw [roomAt_listModify_ne _ _ _ _ hir, roomAt_append_lt _ _ _ hi]
          exact ⟨rfl, rfl, rfl⟩
      · intro i hi hir d
        rw [roomAt_listModify_ne _ _ _ _ (by omega),
          roomAt_listModify_ne _ _ _ _ (by omega),
          roomAt_listModify_ne _ _ _ _ hir, roomAt_append_lt _ _ _ hi]
      · intro d
        rw [roomAt_listModify_ne _ _ _ _ (by omega),
          roomAt_listModify_ne _ _ _ _ (by omega),
          roomAt_listModify_eq _ _ _ (by rw [hlen1]; omega),
          set_door_door _ _ _ hdir, roomAt_append_lt _ _ _ hidx]
      · rw [roomAt_listModify_eq _ _ _ (by simp [listModify_length])]
      · rw [roomAt_listModify_eq _ _ _ (by simp [listModify_length])]
      · rw [roomAt_listModify_eq _ _ _ (by simp [listModify_length])]
        show (roomAt (listModify (listModify _ roomIdx _) st.rooms.length _)
          st.rooms.length).index = st.rooms.length
        rw [roomAt_listModify_eq _ _ _ (by simp [listModify_length, hlen1]),
          set_door_index, roomAt_listModify_ne _ _ _ _ (by omega),
          roomAt_append_self]
        rfl
      · intro d
        have : (roomAt (listModify (listModify (listModify (st.rooms ++ [newRoomAt st.rooms.length depth])
            roomIdx (fun r => r.set_door np.2.2 true)) st.rooms.length
            (fun r => r.set_door ((np.2.2 + 2) % 4) true)) st.rooms.length
            (fun r => { r with x := np.1, y := np.2.1 })) st.rooms.length).door d =
            ((roomAt (listModify (st.rooms ++ [newRoomAt st.rooms.length depth])
            roomIdx (fun r => r.set_door np.2.2 true)) st.rooms.length).set_door
              ((np.2.2 + 2) % 4) true).door d := by
          rw [roomAt_listModify_eq _ _ _ (by simp [listModify_length]),
            roomAt_listModify_eq _ _ _ (by simp [listModify_length, hlen1])]
          rfl
        rw [this, set_door_door _ _ _ (opp_lt_four _),
          roomAt_listModify_ne _ _ _ _ (by omega), roomAt_append_self]
        by_cases hd : d = (np.2.2 + 2) % 4
        · simp [hd]
        · simp [hd, hnewdoor]
    · have hkv : kv < st.rooms.length := hkl kv rfl
      have hred : placeRoom st roomIdx np depth true (some kv) =
        (⟨listModify (listModify (listModify (listModify (listModify
            (st.rooms ++ [newRoomAt st.rooms.length depth])
            roomIdx (fun r => r.set_door np.2.2 true)) st.rooms.length
            (fun r => r.set_door ((np.2.2 + 2) % 4) true)) kv
            (fun r => { r with pathNext := some st.rooms.length }))
            st.rooms.length (fun r => { r with pathLast := some roomIdx }))
            st.rooms.length (fun r => { r with x := np.1, y := np.2.1 }),
          st.keys ++ [⟨kv, roomIdx, np.2.2⟩]⟩, st.rooms.length) := rfl
      rw [hred]
      have hlen1 : (st.rooms ++ [newRoomAt st.rooms.length depth]).length =
          st.rooms.length + 1 := by simp
      refine ⟨by simp [listModify_length], ?_, ?_, ?_, ?_, ?_, ?_, ?_, by simp⟩
      · intro i hi
        refine ⟨?_, ?_, ?_⟩
        · rw [roomAt_listModify_ne _ _ _ _ (by omega),
            roomAt_pl_x, roomAt_pn_x]
          by_cases hir : i = roomIdx
          · subst hir
            rw [roomAt_listModify_ne _ _ _ _ (by omega),
              roomAt_listModify_eq _ _ _ (by rw [hlen1]; omega), set_door_x,
              roomAt_append_lt _ _ _ hi]
          · rw [roomAt_listModify_ne _ _ _ _ (by omega),
              roomAt_listModify_ne _ _ _ _ hir, roomAt_append_lt _ _ _ hi]
        · rw [roomAt_listModify_ne _ _ _ _ (by omega),
            roomAt_pl_y, roomAt_pn_y]
          by_cases hir : i = roomIdx
          · subst hir
            rw [roomAt_listModify_ne _ _ _ _ (by omega),
              roomAt_listModify_eq _ _ _ (by rw [hlen1]; omega), set_door_y,
              roomAt_append_lt _ _ _ hi]
          · rw [roomAt_listModify_ne _ _ _ _ (by omega),
              roomAt_listModify_ne _ _ _ _ hir, roomAt_append_lt _ _ _ hi]
        · rw [roomAt_listModify_ne _ _ _ _ (by omega),
            roomAt_pl_index, roomAt_pn_index]
          by_cases hir : i = roomIdx
          · subst hir
            rw [roomAt_listModify_ne _ _ _ _ (by omega),
              roomAt_listModify_eq _ _ _ (by rw [hlen1]; omega),
              set_door_index, roomAt_append_lt _ _ _ hi]
          · rw [roomAt_listModify_ne _ _ _ _ (by omega),
              roomAt_listModify_ne _ _ _ _ hir, roomAt_append_lt _ _ _ hi]
      · intro i hi hir d
        rw [roomAt_listModify_ne _ _ _ _ (by omega),
          roomAt_pl_door, roomAt_pn_door,
          roomAt_listModify_ne _ _ _ _ (by omega),
          roomAt_listModify_ne _ _ _ _ hir, roomAt_append_lt _ _ _ hi]
      · intro d
        rw [roomAt_listModify_ne _ _ _ _ (by omega),
          roomAt_pl_door, roomAt_pn_door,
          roomAt_listModify_ne _ _ _ _ (by omega),
          roomAt_listModify_eq _ _ _ (by rw [hlen1]; omega),
          set_door_door _ _ _ hdir, roomAt_append_lt _ _ _ hidx]
      · rw [roomAt_listModify_eq _ _ _ (by simp [listModify_length])]
      · rw [roomAt_listModify_eq _ _ _ (by simp [listModify_length])]
      · rw [roomAt_listModify_eq _ _ _ (by simp [listModify_length])]
        show (roomAt (listModify (listModify (listModify (listModify _
          roomIdx _) st.rooms.length _) kv _) st.rooms.length _)
          st.rooms.length).index = st.rooms.length
        rw [roomAt_pl_index, roomAt_pn_index,
          roomAt_listModify_eq _ _ _ (by simp [listModify_length, hlen1]),
          set_door_index, roomAt_listModify_ne _ _ _ _ (by omega),
          roomAt_append_self]
        rfl
      · intro d
        rw [roomAt_listModify_eq _ _ _ (by simp [listModify_length])]
        show (roomAt (listModify (listModify (listModify (listModify _
          roomIdx _) st.rooms.length _) kv _) st.rooms.length _)
          st.rooms.length).door d = _
        rw [roomAt_pl_door, roomAt_pn_door,
          roomAt_listModify_eq _ _ _ (by simp [listModify_length, hlen1]),
          set_door_door _ _ _ (opp_lt_four _),
          roomAt_listModify_ne _ _ _ _ (by omega), roomAt_append_self]
        by_cases hd : d = (np.2.2 + 2) % 4
        · simp [hd]
        · simp [hd, hnewdoor]

/-! Phase 1: characterizations of getRoomAt/doorTargetIdx and the
placeRoom step-stability lemmas. -/

theorem findSome?_congr {α β : Type} (l : List α) (f g : α → Option β)
    (h : ∀ x ∈ l, f x = g x) : l.findSome? f = l.findSome? g := by
  induction l with
  | nil => rfl
  | cons a t ih =>
    rw [List.findSome?_cons, List.findSome?_cons, h a (by simp)]
    rcases g a with _ | b
    · exact ih (fun x hx => h x (by simp [hx]))
    · rfl

theorem getRoomAt_none_iff (rooms : List DungeonRoom) (cx cy : Int) :
    getRoomAt rooms cx cy = none ↔
    ∀ j, j < rooms.length →
      ¬((roomAt rooms j).x = cx ∧ (roomAt rooms j).y = cy) := by
  unfold getRoomAt
  rw [List.find?_eq_none]
  constructor
  · intro h j hj hc
    have := h (roomAt rooms j) (roomAt_mem rooms j hj)
    simp [hc.1, hc.2] at this
  · intro h w hw
    obtain ⟨m, hm, hmw⟩ := mem_iff_roomAt rooms w hw
    have := h m hm
    rw [hmw] at this
    simp only [Bool.and_eq_true, decide_eq_true_eq, not_and] at this ⊢
    intro hx
    simp [this hx]

theorem getRoomAt_index_some_iff (rooms : List DungeonRoom)
    (hidx : IndexOk rooms) (hco : CoordsOk rooms) (cx cy : Int) (j : Nat) :
    (getRoomAt rooms cx cy).map (fun r => r.index) = some j ↔
    j < rooms.length ∧ (roomAt rooms j).x = cx ∧ (roomAt rooms j).y = cy := by
  constructor
  · intro h
    rcases hg : getRoomAt rooms cx cy with _ | w
    · rw [hg] at h; exact absurd h (by simp)
    · rw [hg] at h
      have h : w.index = j := by simpa using h
      obtain ⟨hwmem, hwx, hwy⟩ := getRoomAt_some_spec rooms cx cy w hg
      obtain ⟨m, hm, hmw⟩ := mem_iff_roomAt rooms w hwmem
      have hmi : w.index = m := by rw [← hmw]; exact hidx m hm
      have hjm : j = m := by rw [← h, hmi]
      subst hjm
      rw [hmw]
      exact ⟨hm, hwx, hwy⟩
  · rintro ⟨hj, hx, hy⟩
    have := getRoomAt_roomAt rooms hco j hj
    rw [hx, hy] at this
    rw [this]
    simp [hidx j hj]

theorem doorTargetIdx_some_iff (rooms : List DungeonRoom)
    (hidx : IndexOk rooms) (hco : CoordsOk rooms) (i d j : Nat) :
    doorTargetIdx rooms i d = some j ↔
    (roomAt rooms i).door d = true ∧ j < rooms.length ∧
    (roomAt rooms j).x =
      (neighborCell (roomAt rooms i).x (roomAt rooms i).y d).1 ∧
    (roomAt rooms j).y =
      (neighborCell (roomAt rooms i).x (roomAt rooms i).y d).2 := by
  unfold doorTargetIdx
  by_cases hdoor : (roomAt rooms i).door d = true
  · rw [if_pos hdoor, ← getRoomAt_index_some_iff rooms hidx hco]
    simp [hdoor]
  · rw [if_neg hdoor]
    simp only [Bool.not_eq_true] at hdoor
    simp [hdoor]

theorem doorTargetIdx_closed (rooms : List DungeonRoom) (i d : Nat)
    (h : (roomAt rooms i).door d = false) :
    doorTargetIdx rooms i d = none := by
  unfold doorTargetIdx
  rw [h]
  rfl

theorem doorTarget_symm (rooms : List DungeonRoom) (hidx : IndexOk rooms)
    (hco : CoordsOk rooms) (hdo : DoorsOk rooms) (i d j : Nat)
    (hi : i < rooms.length) (hd : d < 4)
    (h : doorTargetIdx rooms i d = some j) :
    doorTargetIdx rooms j ((d + 2) % 4) = some i := by
  rw [doorTargetIdx_some_iff rooms hidx hco] at h
  obtain ⟨hdoor, hj, hx, hy⟩ := h
  obtain ⟨j2, hj2, hx2, hy2, hdoor2⟩ := hdo i d hi hd hdoor
  have hjj : j2 = j := by
    by_contra hne
    rcases hco j2 j hj2 hj hne with hne' | hne'
    · exact hne' (by rw [hx2, hx])
    · exact hne' (by rw [hy2, hy])
  subst hjj
  rw [doorTargetIdx_some_iff rooms hidx hco]
  refine ⟨hdoor2, hi, ?_, ?_⟩
  · rw [hx, hy, neighborCell_symm _ _ _ hd]
  · rw [hx, hy, neighborCell_symm _ _ _ hd]

/-! The step-stability lemmas for a single `placeRoom`.  Throughout,
`st'` is the post-state and the free-cell and adjacency side conditions
mirror the facts available at the call site in `cpLoop`. -/

theorem pr_door_closed (st : GenSt) (roomIdx : Nat) (np : Int × Int × Nat)
    (hdo : DoorsOk st.rooms) (hidx : roomIdx < st.rooms.length)
    (hdir : np.2.2 < 4)
    (hfree : getRoomAt st.rooms np.1 np.2.1 = none)
    (hcell : (np.1, np.2.1) =
      neighborCell (roomAt st.rooms roomIdx).x (roomAt st.rooms roomIdx).y
        np.2.2) :
    (roomAt st.rooms roomIdx).door np.2.2 = false := by
  by_contra hopen
  simp only [Bool.not_eq_false] at hopen
  obtain ⟨j, hj, hx, hy, _⟩ := hdo roomIdx np.2.2 hidx hdir hopen
  have := (getRoomAt_none_iff st.rooms np.1 np.2.1).mp hfree j hj
  exact this ⟨by rw [hx, ← hcell], by rw [hy, ← hcell]⟩

theorem pr_doorTargetIdx_closed (st : GenSt) (roomIdx : Nat)
    (np : Int × Int × Nat)
    (hdo : DoorsOk st.rooms) (hidx : roomIdx < st.rooms.length)
    (hdir : np.2.2 < 4)
    (hfree : getRoomAt st.rooms np.1 np.2.1 = none)
    (hcell : (np.1, np.2.1) =
      neighborCell (roomAt st.rooms roomIdx).x (roomAt st.rooms roomIdx).y
        np.2.2) :
    doorTargetIdx st.rooms roomIdx np.2.2 = none :=
  doorTargetIdx_closed _ _ _
    (pr_door_closed st roomIdx np hdo hidx hdir hfree hcell)

theorem pr_IndexOk (st : GenSt) (roomIdx : Nat) (np : Int × Int × Nat)
    (depth : Nat) (pl : Bool) (kl : Option Nat)
    (hI : IndexOk st.rooms) (hidx : roomIdx < st.rooms.length)
    (hdir : np.2.2 < 4)
    (hkl : ∀ kv, kl = some kv → kv < st.rooms.length) :
    IndexOk (placeRoom st roomIdx np depth pl kl).1.rooms := by
  obtain ⟨hL, hOld, _, _, _, _, hNI, _, _⟩ :=
    placeRoom_spec st roomIdx np depth pl kl hidx hdir hkl
  intro i hi
  rw [hL] at hi
  by_cases hlt : i < st.rooms.length
  · rw [(hOld i hlt).2.2]
    exact hI i hlt
  · have : i = st.rooms.length := by omega
    subst this
    exact hNI

theorem pr_CoordsOk (st : GenSt) (roomIdx : Nat) (np : Int × Int × Nat)
    (depth : Nat) (pl : Bool) (kl : Option Nat)
    (hC : CoordsOk st.rooms) (hidx : roomIdx < st.rooms.length)
    (hdir : np.2.2 < 4)
    (hkl : ∀ kv, kl = some kv → kv < st.rooms.length)
    (hfree : getRoomAt st.rooms np.1 np.2.1 = none) :
    CoordsOk (placeRoom st roomIdx np depth pl kl).1.rooms := by
  obtain ⟨hL, hOld, _, _, hNX, hNY, _, _, _⟩ :=
    placeRoom_spec st roomIdx np depth pl kl hidx hdir hkl
  have hnew : ∀ j, j < st.rooms.length →
      (roomAt st.rooms j).x ≠ np.1 ∨ (roomAt st.rooms j).y ≠ np.2.1 := by
    intro j hj
    have := (getRoomAt_none_iff st.rooms np.1 np.2.1).mp hfree j hj
    by_contra hcon
    push_neg at hcon
    exact this ⟨hcon.1, hcon.2⟩
  intro i j hi hj hne
  rw [hL] at hi hj
  by_cases hilt : i < st.rooms.length
  · by_cases hjlt : j < st.rooms.length
    · rw [(hOld i hilt).1, (hOld i hilt).2.1, (hOld j hjlt).1,
        (hOld j hjlt).2.1]
      exact hC i j hilt hjlt hne
    · have : j = st.rooms.length := by omega
      subst this
      rw [(hOld i hilt).1, (hOld i hilt).2.1, hNX, hNY]
      exact hnew i hilt
  · have : i = st.rooms.length := by omega
    subst this
    have hjlt : j < st.rooms.length := by omega
    rw [(hOld j hjlt).1, (hOld j hjlt).2.1, hNX, hNY]
    rcases hnew j hjlt with h | h
    · exact Or.inl (fun hc => h hc.symm)
    · exact Or.inr (fun hc => h hc.symm)

theorem pr_doorTarget_old (st : GenSt) (roomIdx : Nat) (np : Int × Int × Nat)
    (depth : Nat) (pl : Bool) (kl : Option Nat)
    (hI : IndexOk st.rooms) (hC : CoordsOk st.rooms) (hD : DoorsOk st.rooms)
    (hidx : roomIdx < st.rooms.length) (hdir : np.2.2 < 4)
    (hkl : ∀ kv, kl = some kv → kv < st.rooms.length)
    (hfree : getRoomAt st.rooms np.1 np.2.1 = none)
    (i d : Nat) (hi : i < st.rooms.length) (hd : d < 4)
    (hnot : ¬(i = roomIdx ∧ d = np.2.2)) :
    doorTargetIdx (placeRoom st roomIdx np depth pl kl).1.rooms i d =
      doorTargetIdx st.rooms i d := by
  obtain ⟨hL, hOld, hOldD, hLockD, hNX, hNY, hNI, hND, hK⟩ :=
    placeRoom_spec st roomIdx np depth pl kl hidx hdir hkl
  have hI' := pr_IndexOk st roomIdx np depth pl kl hI hidx hdir hkl
  have hC' := pr_CoordsOk st roomIdx np depth pl kl hC hidx hdir hkl hfree
  have hdoorsame :
      (roomAt (placeRoom st roomIdx np depth pl kl).1.rooms i).door d =
      (roomAt st.rooms i).door d := by
    by_cases hir : i = roomIdx
    · subst hir
      rw [hLockD d, if_neg (fun hc => hnot ⟨rfl, hc⟩)]
    · exact hOldD i hi hir d
  by_cases hdoor : (roomAt st.rooms i).door d = true
  · obtain ⟨j, hj, hx, hy, _⟩ := hD i d hi hd hdoor
    have hold : doorTargetIdx st.rooms i d = some j := by
      rw [doorTargetIdx_some_iff st.rooms hI hC]
      exact ⟨hdoor, hj, hx, hy⟩
    rw [hold, doorTargetIdx_some_iff _ hI' hC']
    refine ⟨by rw [hdoorsame]; exact hdoor, by rw [hL]; omega, ?_, ?_⟩
    · rw [(hOld j hj).1, (hOld i hi).1, (hOld i hi).2.1, hx]
    · rw [(hOld j hj).2.1, (hOld i hi).1, (hOld i hi).2.1, hy]
  · simp only [Bool.not_eq_true] at hdoor
    rw [doorTargetIdx_closed _ _ _ hdoor,
      doorTargetIdx_closed _ _ _ (by rw [hdoorsame]; exact hdoor)]

theorem pr_doorTarget_lock (st : GenSt) (roomIdx : Nat)
    (np : Int × Int × Nat) (depth : Nat) (pl : Bool) (kl : Option Nat)
    (hI : IndexOk st.rooms) (hC : CoordsOk st.rooms)
    (hidx : roomIdx < st.rooms.length) (hdir : np.2.2 < 4)
    (hkl : ∀ kv, kl = some kv → kv < st.rooms.length)
    (hfree : getRoomAt st.rooms np.1 np.2.1 = none)
    (hcell : (np.1, np.2.1) =
      neighborCell (roomAt st.rooms roomIdx).x (roomAt st.rooms roomIdx).y
        np.2.2) :
    doorTargetIdx (placeRoom st roomIdx np depth pl kl).1.rooms roomIdx
      np.2.2 = some st.rooms.length := by
  obtain ⟨hL, hOld, hOldD, hLockD, hNX, hNY, hNI, hND, hK⟩ :=
    placeRoom_spec st roomIdx np depth pl kl hidx hdir hkl
  have hI' := pr_IndexOk st roomIdx np depth pl kl hI hidx hdir hkl
  have hC' := pr_CoordsOk st roomIdx np depth pl kl hC hidx hdir hkl hfree
  rw [doorTargetIdx_some_iff _ hI' hC']
  refine ⟨by rw [hLockD np.2.2]; simp, by rw [hL]; omega, ?_, ?_⟩
  · rw [hNX, (hOld roomIdx hidx).1, (hOld roomIdx hidx).2.1]
    have := congrArg Prod.fst hcell
    simpa using this
  · rw [hNY, (hOld roomIdx hidx).1, (hOld roomIdx hidx).2.1]
    have := congrArg Prod.snd hcell
    simpa using this

theorem pr_doorTarget_new (st : GenSt) (roomIdx : Nat)
    (np : Int × Int × Nat) (depth : Nat) (pl : Bool) (kl : Option Nat)
    (hI : IndexOk st.rooms) (hC : CoordsOk st.rooms)
    (hidx : roomIdx < st.rooms.length) (hdir : np.2.2 < 4)
    (hkl : ∀ kv, kl = some kv → kv < st.rooms.length)
    (hfree : getRoomAt st.rooms np.1 np.2.1 = none)
    (hcell : (np.1, np.2.1) =
      neighborCell (roomAt st.rooms roomIdx).x (roomAt st.rooms roomIdx).y
        np.2.2)
    (d : Nat) :
    doorTargetIdx (placeRoom st roomIdx np depth pl kl).1.rooms
      st.rooms.length d =
      if d = (np.2.2 + 2) % 4 then some roomIdx else none := by
  obtain ⟨hL, hOld, hOldD, hLockD, hNX, hNY, hNI, hND, hK⟩ :=
    placeRoom_spec st roomIdx np depth pl kl hidx hdir hkl
  have hI' := pr_IndexOk st roomIdx np depth pl kl hI hidx hdir hkl
  have hC' := pr_CoordsOk st roomIdx np depth pl kl hC hidx hdir hkl hfree
  by_cases hd : d = (np.2.2 + 2) % 4
  · subst hd
    rw [if_pos rfl, doorTargetIdx_some_iff _ hI' hC']
    refine ⟨by rw [hND]; simp, by rw [hL]; omega, ?_, ?_⟩
    · rw [(hOld roomIdx hidx).1, hNX, hNY]
      have hsym := neighborCell_symm (roomAt st.rooms roomIdx).x
        (roomAt st.rooms roomIdx).y np.2.2 hdir
      have hx1 : np.1 = (neighborCell (roomAt st.rooms roomIdx).x
          (roomAt st.rooms roomIdx).y np.2.2).1 := by
        have := congrArg Prod.fst hcell; simpa using this
      have hy1 : np.2.1 = (neighborCell (roomAt st.rooms roomIdx).x
          (roomAt st.rooms roomIdx).y np.2.2).2 := by
        have := congrArg Prod.snd hcell; simpa using this
      rw [hx1, hy1, hsym]
    · rw [(hOld roomIdx hidx).2.1, hNX, hNY]
      have hsym := neighborCell_symm (roomAt st.rooms roomIdx).x
        (roomAt st.rooms roomIdx).y np.2.2 hdir
      have hx1 : np.1 = (neighborCell (roomAt st.rooms roomIdx).x
          (roomAt st.rooms roomIdx).y np.2.2).1 := by
        have := congrArg Prod.fst hcell; simpa using this
      have hy1 : np.2.1 = (neighborCell (roomAt st.rooms roomIdx).x
          (roomAt st.rooms roomIdx).y np.2.2).2 := by
        have := congrArg Prod.snd hcell; simpa using this
      rw [hx1, hy1, hsym]
  · rw [if_neg hd]
    apply doorTargetIdx_closed
    rw [hND d, if_neg hd]


theorem pickNext_some_spec (rooms : List DungeonRoom)
    (dirs : List (Int × Int × Nat)) (np : Int × Int × Nat)
    (h : pickNext rooms dirs = some np) :
    np ∈ dirs ∧ getRoomAt rooms np.1 np.2.1 = none := by
  rw [pickNext_eq_find] at h
  constructor
  · exact List.mem_reverse.mp (List.mem_of_find?_eq_some h)
  · have := List.find?_some h
    simpa [Option.isNone_iff_eq_none] using this

theorem filter_range4_eq_single (c : Nat) (hc : c < 4) :
    ((List.range 4).filter (fun d => decide (d = c))).length = 1 := by
  interval_cases c <;> rfl

theorem pr_parentD_old (st : GenSt) (roomIdx : Nat) (np : Int × Int × Nat)
    (depth : Nat) (pl : Bool) (kl : Option Nat)
    (hI : IndexOk st.rooms) (hC : CoordsOk st.rooms) (hD : DoorsOk st.rooms)
    (hidx : roomIdx < st.rooms.length) (hdir : np.2.2 < 4)
    (hkl : ∀ kv, kl = some kv → kv < st.rooms.length)
    (hfree : getRoomAt st.rooms np.1 np.2.1 = none)
    (hcell : (np.1, np.2.1) =
      neighborCell (roomAt st.rooms roomIdx).x (roomAt st.rooms roomIdx).y
        np.2.2)
    (i : Nat) (hi : i < st.rooms.length) :
    parentD (placeRoom st roomIdx np depth pl kl).1.rooms i =
      parentD st.rooms i := by
  unfold parentD
  apply findSome?_congr
  intro d hd
  have hd4 : d < 4 := List.mem_range.mp hd
  by_cases hpair : i = roomIdx ∧ d = np.2.2
  · rw [hpair.1, hpair.2]
    rw [pr_doorTarget_lock st roomIdx np depth pl kl hI hC hidx hdir hkl
      hfree hcell]
    rw [pr_doorTargetIdx_closed st roomIdx np hD hidx hdir hfree hcell]
    dsimp only
    rw [if_neg (by omega : ¬st.rooms.length < roomIdx)]
  · rw [pr_doorTarget_old st roomIdx np depth pl kl hI hC hD hidx hdir hkl
      hfree i d hi hd4 hpair]

theorem pr_parentD_new (st : GenSt) (roomIdx : Nat) (np : Int × Int × Nat)
    (depth : Nat) (pl : Bool) (kl : Option Nat)
    (hI : IndexOk st.rooms) (hC : CoordsOk st.rooms)
    (hidx : roomIdx < st.rooms.length) (hdir : np.2.2 < 4)
    (hkl : ∀ kv, kl = some kv → kv < st.rooms.length)
    (hfree : getRoomAt st.rooms np.1 np.2.1 = none)
    (hcell : (np.1, np.2.1) =
      neighborCell (roomAt st.rooms roomIdx).x (roomAt st.rooms roomIdx).y
        np.2.2) :
    parentD (placeRoom st roomIdx np depth pl kl).1.rooms st.rooms.length =
      some (roomIdx, (np.2.2 + 2) % 4) := by
  apply parentD_eq_of_unique _ _ _ _ (opp_lt_four _)
  · rw [pr_doorTarget_new st roomIdx np depth pl kl hI hC hidx hdir hkl
      hfree hcell, if_pos rfl]
  · exact hidx
  · intro d hd4 hne
    rw [pr_doorTarget_new st roomIdx np depth pl kl hI hC hidx hdir hkl
      hfree hcell, if_neg hne]

theorem pr_lockBit_old (st : GenSt) (roomIdx : Nat) (np : Int × Int × Nat)
    (depth : Nat) (pl : Bool) (kl : Option Nat)
    (hidx : roomIdx < st.rooms.length) (hdir : np.2.2 < 4)
    (hkl : ∀ kv, kl = some kv → kv < st.rooms.length)
    (j dd : Nat) (hnot : ¬(j = roomIdx ∧ dd = np.2.2)) :
    lockBit (placeRoom st roomIdx np depth pl kl).1.keys j dd =
      lockBit st.keys j dd := by
  obtain ⟨_, _, _, _, _, _, _, _, hK⟩ :=
    placeRoom_spec st roomIdx np depth pl kl hidx hdir hkl
  unfold lockBit
  rw [hK]
  rcases pl with _ | _
  · simp
  · rcases kl with _ | kv
    · simp
    · by_cases hj : roomIdx = j
      · have hdd : np.2.2 ≠ dd := fun hc => hnot ⟨hj.symm, hc.symm⟩
        simp [hdd]
      · simp [hj]

theorem pr_lockBit_new (st : GenSt) (roomIdx : Nat) (np : Int × Int × Nat)
    (depth : Nat) (pl : Bool) (kl : Option Nat)
    (hD : DoorsOk st.rooms)
    (hkeys : ∀ k ∈ st.keys, KeyOk st.rooms k)
    (hidx : roomIdx < st.rooms.length) (hdir : np.2.2 < 4)
    (hkl : ∀ kv, kl = some kv → kv < st.rooms.length)
    (hfree : getRoomAt st.rooms np.1 np.2.1 = none)
    (hcell : (np.1, np.2.1) =
      neighborCell (roomAt st.rooms roomIdx).x (roomAt st.rooms roomIdx).y
        np.2.2) :
    lockBit (placeRoom st roomIdx np depth pl kl).1.keys roomIdx np.2.2 =
      kBit pl kl := by
  obtain ⟨_, _, _, _, _, _, _, _, hK⟩ :=
    placeRoom_spec st roomIdx np depth pl kl hidx hdir hkl
  have hclosed := pr_doorTargetIdx_closed st roomIdx np hD hidx hdir hfree
    hcell
  have hold : st.keys.any (fun k =>
      k.lockLocation = roomIdx && k.lockedDoor = np.2.2) = false := by
    rw [List.any_eq_false]
    intro k hk hp
    simp only [Bool.and_eq_true, decide_eq_true_eq] at hp
    obtain ⟨_, _, _, c, hc, _⟩ := hkeys k hk
    rw [hp.1, hp.2, hclosed] at hc
    exact Option.noConfusion hc
  unfold lockBit
  rw [hK, List.any_append, hold, Bool.false_or]
  unfold kBit
  rcases pl with _ | _
  · rfl
  · rcases kl with _ | kv
    · rfl
    · simp

theorem pr_treeCostF_old (st : GenSt) (roomIdx : Nat) (np : Int × Int × Nat)
    (depth : Nat) (pl : Bool) (kl : Option Nat)
    (hI : IndexOk st.rooms) (hC : CoordsOk st.rooms) (hD : DoorsOk st.rooms)
    (hidx : roomIdx < st.rooms.length) (hdir : np.2.2 < 4)
    (hkl : ∀ kv, kl = some kv → kv < st.rooms.length)
    (hfree : getRoomAt st.rooms np.1 np.2.1 = none)
    (hcell : (np.1, np.2.1) =
      neighborCell (roomAt st.rooms roomIdx).x (roomAt st.rooms roomIdx).y
        np.2.2) :
    ∀ fuel i, i < st.rooms.length →
      treeCostF (placeRoom st roomIdx np depth pl kl).1.keys
        (placeRoom st roomIdx np depth pl kl).1.rooms fuel i =
      treeCostF st.keys st.rooms fuel i := by
  intro fuel
  induction fuel with
  | zero => intro i _; rfl
  | succ f ih =>
    intro i hi
    simp only [treeCostF]
    rw [pr_parentD_old st roomIdx np depth pl kl hI hC hD hidx hdir hkl
      hfree hcell i hi]
    rcases hp : parentD st.rooms i with _ | jd
    · rfl
    · obtain ⟨j, d⟩ := jd
      dsimp only
      obtain ⟨hji, hd4, htgt⟩ := parentD_lt st.rooms i j d hp
      have hnot : ¬(j = roomIdx ∧ (d + 2) % 4 = np.2.2) := by
        rintro ⟨rfl, hdd⟩
        have hsymm := doorTarget_symm st.rooms hI hC hD i d j hi hd4 htgt
        rw [hdd, pr_doorTargetIdx_closed st j np hD hidx hdir hfree hcell]
          at hsymm
        exact Option.noConfusion hsymm
      rw [pr_lockBit_old st roomIdx np depth pl kl hidx hdir hkl _ _ hnot,
        ih j (lt_trans hji hi)]

theorem pr_treeCost_old (st : GenSt) (roomIdx : Nat) (np : Int × Int × Nat)
    (depth : Nat) (pl : Bool) (kl : Option Nat)
    (hI : IndexOk st.rooms) (hC : CoordsOk st.rooms) (hD : DoorsOk st.rooms)
    (hidx : roomIdx < st.rooms.length) (hdir : np.2.2 < 4)
    (hkl : ∀ kv, kl = some kv → kv < st.rooms.length)
    (hfree : getRoomAt st.rooms np.1 np.2.1 = none)
    (hcell : (np.1, np.2.1) =
      neighborCell (roomAt st.rooms roomIdx).x (roomAt st.rooms roomIdx).y
        np.2.2)
    (i : Nat) (hi : i < st.rooms.length) :
    treeCost (placeRoom st roomIdx np depth pl kl).1.keys
      (placeRoom st roomIdx np depth pl kl).1.rooms i =
    treeCost st.keys st.rooms i :=
  pr_treeCostF_old st roomIdx np depth pl kl hI hC hD hidx hdir hkl hfree
    hcell i i hi

theorem pr_treeCost_new (st : GenSt) (roomIdx : Nat) (np : Int × Int × Nat)
    (depth : Nat) (pl : Bool) (kl : Option Nat)
    (hI : IndexOk st.rooms) (hC : CoordsOk st.rooms) (hD : DoorsOk st.rooms)
    (hkeys : ∀ k ∈ st.keys, KeyOk st.rooms k)
    (hidx : roomIdx < st.rooms.length) (hdir : np.2.2 < 4)
    (hkl : ∀ kv, kl = some kv → kv < st.rooms.length)
    (hfree : getRoomAt st.rooms np.1 np.2.1 = none)
    (hcell : (np.1, np.2.1) =
      neighborCell (roomAt st.rooms roomIdx).x (roomAt st.rooms roomIdx).y
        np.2.2) :
    treeCost (placeRoom st roomIdx np depth pl kl).1.keys
      (placeRoom st roomIdx np depth pl kl).1.rooms st.rooms.length =
    treeCost st.keys st.rooms roomIdx + kBit pl kl := by
  rw [treeCost_parent _ _ _ _ _
    (pr_parentD_new st roomIdx np depth pl kl hI hC hidx hdir hkl hfree
      hcell)]
  rw [opp_opp _ hdir]
  rw [pr_treeCost_old st roomIdx np depth pl kl hI hC hD hidx hdir hkl
    hfree hcell roomIdx hidx]
  rw [pr_lockBit_new st roomIdx np depth pl kl hD hkeys hidx hdir hkl
    hfree hcell]

theorem pr_DoorsOk (st : GenSt) (roomIdx : Nat) (np : Int × Int × Nat)
    (depth : Nat) (pl : Bool) (kl : Option Nat)
    (hD : DoorsOk st.rooms)
    (hidx : roomIdx < st.rooms.length) (hdir : np.2.2 < 4)
    (hkl : ∀ kv, kl = some kv → kv < st.rooms.length)
    (hfree : getRoomAt st.rooms np.1 np.2.1 = none)
    (hcell : (np.1, np.2.1) =
      neighborCell (roomAt st.rooms roomIdx).x (roomAt st.rooms roomIdx).y
        np.2.2) :
    DoorsOk (placeRoom st roomIdx np depth pl kl).1.rooms := by
  obtain ⟨hL, hOld, hOldD, hLockD, hNX, hNY, hNI, hND, hK⟩ :=
    placeRoom_spec st roomIdx np depth pl kl hidx hdir hkl
  have hx1 : np.1 = (neighborCell (roomAt st.rooms roomIdx).x
      (roomAt st.rooms roomIdx).y np.2.2).1 := by
    have := congrArg Prod.fst hcell; simpa using this
  have hy1 : np.2.1 = (neighborCell (roomAt st.rooms roomIdx).x
      (roomAt st.rooms roomIdx).y np.2.2).2 := by
    have := congrArg Prod.snd hcell; simpa using this
  intro i d hi hd hdoor
  rw [hL] at hi
  by_cases hilt : i < st.rooms.length
  · by_cases hpair : i = roomIdx ∧ d = np.2.2
    · obtain ⟨rfl2, rfl3⟩ := hpair
      refine ⟨st.rooms.length, by omega, ?_, ?_, ?_⟩
      · rw [hNX, (hOld i hilt).1, (hOld i hilt).2.1, rfl2, hx1, rfl3]
      · rw [hNY, (hOld i hilt).1, (hOld i hilt).2.1, rfl2, hy1, rfl3]
      · rw [hND, rfl3, if_pos rfl]
    · have holddoor : (roomAt st.rooms i).door d = true := by
        by_cases hir : i = roomIdx
        · subst hir
          rw [hLockD d] at hdoor
          rcases hdn : decide (d = np.2.2) with _ | _
          · simp only [decide_eq_false_iff_not] at hdn
            rwa [if_neg hdn] at hdoor
          · simp only [decide_eq_true_eq] at hdn
            exact absurd ⟨rfl, hdn⟩ hpair
        · rwa [hOldD i hilt hir d] at hdoor
      obtain ⟨j, hj, hx, hy, hdoor2⟩ := hD i d hilt hd holddoor
      refine ⟨j, by omega, ?_, ?_, ?_⟩
      · rw [(hOld j hj).1, (hOld i hilt).1, (hOld i hilt).2.1, hx]
      · rw [(hOld j hj).2.1, (hOld i hilt).1, (hOld i hilt).2.1, hy]
      · by_cases hjr : j = roomIdx
        · subst hjr
          rw [hLockD ((d + 2) % 4)]
          split_ifs with hsp
          · rfl
          · exact hdoor2
        · rw [hOldD j hj hjr ((d + 2) % 4)]
          exact hdoor2
  · have hieq : i = st.rooms.length := by omega
    subst hieq
    have hdopp : d = (np.2.2 + 2) % 4 := by
      by_contra hne
      rw [hND d, if_neg hne] at hdoor
      exact Bool.noConfusion hdoor
    subst hdopp
    refine ⟨roomIdx, by omega, ?_, ?_, ?_⟩
    · rw [(hOld roomIdx hidx).1, hNX, hNY, hx1, hy1,
        neighborCell_symm _ _ _ hdir]
    · rw [(hOld roomIdx hidx).2.1, hNX, hNY, hx1, hy1,
        neighborCell_symm _ _ _ hdir]
    · rw [opp_opp _ hdir, hLockD np.2.2, if_pos rfl]

theorem pr_TreeOk (st : GenSt) (roomIdx : Nat) (np : Int × Int × Nat)
    (depth : Nat) (pl : Bool) (kl : Option Nat)
    (hI : IndexOk st.rooms) (hC : CoordsOk st.rooms) (hD : DoorsOk st.rooms)
    (hT : TreeOk st.rooms)
    (hidx : roomIdx < st.rooms.length) (hdir : np.2.2 < 4)
    (hkl : ∀ kv, kl = some kv → kv < st.rooms.length)
    (hfree : getRoomAt st.rooms np.1 np.2.1 = none)
    (hcell : (np.1, np.2.1) =
      neighborCell (roomAt st.rooms roomIdx).x (roomAt st.rooms roomIdx).y
        np.2.2) :
    TreeOk (placeRoom st roomIdx np depth pl kl).1.rooms := by
  obtain ⟨hL, _, _, _, _, _, _, _, _⟩ :=
    placeRoom_spec st roomIdx np depth pl kl hidx hdir hkl
  intro j hj
  rw [hL] at hj
  by_cases hjlt : j < st.rooms.length
  · have hsame : parentCount (placeRoom st roomIdx np depth pl kl).1.rooms j
        = parentCount st.rooms j := by
      unfold parentCount
      congr 1
      apply List.filter_congr
      intro d hd
      have hd4 : d < 4 := List.mem_range.mp hd
      by_cases hpair : j = roomIdx ∧ d = np.2.2
      · rw [hpair.1, hpair.2]
        rw [pr_doorTarget_lock st roomIdx np depth pl kl hI hC hidx hdir
          hkl hfree hcell]
        rw [pr_doorTargetIdx_closed st roomIdx np hD hidx hdir hfree hcell]
        dsimp only
        exact decide_eq_false (by omega)
      · rw [pr_doorTarget_old st roomIdx np depth pl kl hI hC hD hidx hdir
          hkl hfree j d hjlt hd4 hpair]
    rw [hsame]
    exact hT j hjlt
  · have hjeq : j = st.rooms.length := by omega
    subst hjeq
    rw [if_neg (by omega : ¬st.rooms.length = 0)]
    unfold parentCount
    refine Eq.trans (congrArg List.length (List.filter_congr ?_))
      (filter_range4_eq_single ((np.2.2 + 2) % 4) (opp_lt_four _))
    intro d hd
    rw [pr_doorTarget_new st roomIdx np depth pl kl hI hC hidx hdir hkl
      hfree hcell d]
    by_cases hd2 : d = (np.2.2 + 2) % 4
    · rw [if_pos hd2]
      dsimp only
      simp [hd2, hidx]
    · rw [if_neg hd2]
      dsimp only
      simp [hd2]

theorem pr_KeysOk (st : GenSt) (roomIdx : Nat) (np : Int × Int × Nat)
    (depth : Nat) (pl : Bool) (kl : Option Nat)
    (hI : IndexOk st.rooms) (hC : CoordsOk st.rooms) (hD : DoorsOk st.rooms)
    (hkeys : ∀ k ∈ st.keys, KeyOk st.rooms k)
    (hidx : roomIdx < st.rooms.length) (hdir : np.2.2 < 4)
    (hkl : ∀ kv, kl = some kv → kv < st.rooms.length)
    (hfree : getRoomAt st.rooms np.1 np.2.1 = none)
    (hcell : (np.1, np.2.1) =
      neighborCell (roomAt st.rooms roomIdx).x (roomAt st.rooms roomIdx).y
        np.2.2) :
    ∀ k ∈ (placeRoom st roomIdx np depth pl kl).1.keys,
      KeyOk (placeRoom st roomIdx np depth pl kl).1.rooms k := by
  obtain ⟨hL, _, _, _, _, _, _, _, hK⟩ :=
    placeRoom_spec st roomIdx np depth pl kl hidx hdir hkl
  have hGoalOld : ∀ k ∈ st.keys,
      KeyOk (placeRoom st roomIdx np depth pl kl).1.rooms k := by
    intro k hk
    obtain ⟨h1, h2, h3, c, hc, hclen, h4, h5⟩ := hkeys k hk
    have hpair : ¬(k.lockLocation = roomIdx ∧ k.lockedDoor = np.2.2) := by
      rintro ⟨hl1, hl2⟩
      rw [hl1, hl2,
        pr_doorTargetIdx_closed st roomIdx np hD hidx hdir hfree hcell]
        at hc
      exact Option.noConfusion hc
    refine ⟨by omega, by omega, h3, c, ?_, by omega, h4, h5⟩
    rw [pr_doorTarget_old st roomIdx np depth pl kl hI hC hD hidx hdir hkl
      hfree k.lockLocation k.lockedDoor h1 h3 hpair]
    exact hc
  have hGoalNew : pl = true → ∀ kv, kl = some kv →
      KeyOk (placeRoom st roomIdx np depth pl kl).1.rooms
        ⟨kv, roomIdx, np.2.2⟩ := by
    intro hpl kv hkv
    have hkvlt := hkl kv hkv
    refine ⟨?_, ?_, hdir, st.rooms.length, ?_, ?_, ?_, ?_⟩
    · show roomIdx < _
      rw [hL]; omega
    · show kv < _
      rw [hL]; omega
    · exact pr_doorTarget_lock st roomIdx np depth pl kl hI hC hidx hdir
        hkl hfree hcell
    · rw [hL]; omega
    · show roomIdx < st.rooms.length
      exact hidx
    · show kv < st.rooms.length
      exact hkvlt
  intro k hk
  rw [hK] at hk
  rcases List.mem_append.mp hk with hk' | hk'
  · exact hGoalOld k hk'
  · rcases pl with _ | _
    · simp at hk'
    · rcases hkv : kl with _ | kv
      · rw [hkv] at hk'
        simp at hk'
      · rw [hkv] at hk'
        simp at hk'
        subst hk'
        rw [hkv] at hGoalNew
        exact hGoalNew rfl kv rfl

theorem placeRoom_inv (st : GenSt) (roomIdx : Nat) (np : Int × Int × Nat)
    (depth : Nat) (pl : Bool) (kl : Option Nat)
    (hInv : GenInv st) (hmax : curMax st roomIdx)
    (hidx : roomIdx < st.rooms.length) (hdir : np.2.2 < 4)
    (hkl : ∀ kv, kl = some kv → kv < st.rooms.length)
    (hfree : getRoomAt st.rooms np.1 np.2.1 = none)
    (hcell : (np.1, np.2.1) =
      neighborCell (roomAt st.rooms roomIdx).x (roomAt st.rooms roomIdx).y
        np.2.2) :
    GenInv (placeRoom st roomIdx np depth pl kl).1 ∧
    (placeRoom st roomIdx np depth pl kl).1.rooms.length =
      st.rooms.length + 1 ∧
    (∀ i, i < st.rooms.length →
      treeCost (placeRoom st roomIdx np depth pl kl).1.keys
        (placeRoom st roomIdx np depth pl kl).1.rooms i =
      treeCost st.keys st.rooms i) ∧
    treeCost (placeRoom st roomIdx np depth pl kl).1.keys
      (placeRoom st roomIdx np depth pl kl).1.rooms st.rooms.length =
      treeCost st.keys st.rooms roomIdx + kBit pl kl ∧
    curMax (placeRoom st roomIdx np depth pl kl).1 st.rooms.length ∧
    (placeRoom st roomIdx np depth pl kl).1.keys =
      st.keys ++ (if pl then
        match kl with
        | some kv => [⟨kv, roomIdx, np.2.2⟩]
        | none => []
        else []) := by
  obtain ⟨hI, hC, hD, hT, hKs, hM⟩ := hInv
  have hL := (placeRoom_spec st roomIdx np depth pl kl hidx hdir hkl).1
  have hK := (placeRoom_spec st roomIdx np depth pl kl hidx hdir
    hkl).2.2.2.2.2.2.2.2
  have hOldCost := pr_treeCost_old st roomIdx np depth pl kl hI hC hD hidx
    hdir hkl hfree hcell
  have hNewCost := pr_treeCost_new st roomIdx np depth pl kl hI hC hD hKs
    hidx hdir hkl hfree hcell
  have hmax' : curMax (placeRoom st roomIdx np depth pl kl).1
      st.rooms.length := by
    intro j hj
    rw [hL] at hj
    rw [hNewCost]
    by_cases hjlt : j < st.rooms.length
    · rw [hOldCost j hjlt]
      exact le_trans (hmax j hjlt) (Nat.le_add_right _ _)
    · have : j = st.rooms.length := by omega
      subst this
      rw [hNewCost]
  refine ⟨⟨pr_IndexOk st roomIdx np depth pl kl hI hidx hdir hkl,
    pr_CoordsOk st roomIdx np depth pl kl hC hidx hdir hkl hfree,
    pr_DoorsOk st roomIdx np depth pl kl hD hidx hdir hkl hfree hcell,
    pr_TreeOk st roomIdx np depth pl kl hI hC hD hT hidx hdir hkl hfree
      hcell,
    pr_KeysOk st roomIdx np depth pl kl hI hC hD hKs hidx hdir hkl hfree
      hcell, ?_⟩, hL, hOldCost, hNewCost, hmax', hK⟩
  intro i j hij hj
  rw [hL] at hj
  by_cases hjlt : j < st.rooms.length
  · rw [hOldCost i (by omega), hOldCost j hjlt]
    exact hM i j hij hjlt
  · have : j = st.rooms.length := by omega
    subst this
    by_cases hilt : i < st.rooms.length
    · rw [hOldCost i hilt, hNewCost]
      exact le_trans (hmax i hilt) (Nat.le_add_right _ _)
    · have : i = st.rooms.length := by omega
      subst this
      exact le_refl _

/-! Phase 2: the walk-loop invariant. -/

theorem curMax_restore (st st' : GenSt) (v : Nat)
    (hv : v < st.rooms.length)
    (hstable : ∀ i, i < st.rooms.length →
      treeCost st'.keys st'.rooms i = treeCost st.keys st.rooms i)
    (hnewc : ∀ i, st.rooms.length ≤ i → i < st'.rooms.length →
      treeCost st'.keys st'.rooms i = treeCost st.keys st.rooms v)
    (hmax : curMax st v) : curMax st' v := by
  intro j hj
  rw [hstable v hv]
  by_cases hjl : j < st.rooms.length
  · rw [hstable j hjl]
    exact hmax j hjl
  · rw [hnewc j (by omega) hj]

theorem loopConc_refl (st : GenSt) (v : Nat) (res : Option Nat) (P : Prop)
    (hInv : GenInv st)
    (hres : ∀ r, res = some r → r < st.rooms.length ∧ curMax st r) :
    loopConc st v st res P :=
  ⟨hInv, le_refl _, fun _ _ => rfl, hres,
    fun _ => ⟨rfl, fun i h1 h2 => absurd (lt_of_le_of_lt h1 h2)
      (lt_irrefl _)⟩⟩

theorem optionalBranch_inv (cfg : BPLayer) (fuel : Nat)
    (ihC : ∀ (st : GenSt) (len roomIdx : Nat) (pr : List Nat)
      (sp : List DungeonPath) (pl : Bool) (kl : Option Nat) (depth : Nat)
      (t : Oracle) (st' : GenSt) (pr' : List Nat) (sp' : List DungeonPath)
      (res : Option Nat) (t' : Oracle),
      GenInv st → roomIdx < st.rooms.length → curMax st roomIdx →
      (∀ kv, kl = some kv → kv < st.rooms.length) →
      cpLoop cfg fuel st len roomIdx pr sp pl kl depth t =
        .ok (st', pr', sp', res, t') →
      loopConc st roomIdx st' res (depth ≠ 0 ∧ pl = false))
    (st : GenSt) (newIdx : Nat) (pr : List Nat) (sp : List DungeonPath)
    (depth : Nat) (t : Oracle) (st' : GenSt) (pr' : List Nat)
    (sp' : List DungeonPath) (res : Option Nat) (t' : Oracle)
    (hInv : GenInv st) (hv : newIdx < st.rooms.length)
    (hmax : curMax st newIdx)
    (h : optionalBranch cfg fuel st newIdx pr sp depth t =
      .ok (st', pr', sp', res, t')) :
    branchConc st newIdx st' ∧ (res = none ∨ res = some newIdx) := by
  have htriv : branchConc st newIdx st := by
    exact ⟨hInv, le_refl _, fun _ _ => rfl, rfl,
      fun i h1 h2 => absurd (lt_of_le_of_lt h1 h2) (lt_irrefl _)⟩
  unfold optionalBranch at h
  split at h
  · split at h
    · exact Except.noConfusion h
    · next k t2 hrand =>
      split at h
      · split at h
        · exact Except.noConfusion h
        · next st3 bR bS bRes t3 hcp =>
          have hrec := ihC st 1 newIdx [newIdx] [] false none (depth + 1)
            t2 st3 bR bS bRes t3 hInv hv hmax
            (fun kv hkv => Option.noConfusion hkv) hcp
          obtain ⟨hInv3, hle3, hst3, hres3, hbr3⟩ := hrec
          obtain ⟨hk3, hnc3⟩ := hbr3 ⟨Nat.succ_ne_zero depth, rfl⟩
          split at h
          · simp only [Except.ok.injEq, Prod.mk.injEq] at h
            obtain ⟨rfl, _, _, hres, _⟩ := h
            exact ⟨⟨hInv3, hle3, hst3, hk3, hnc3⟩, Or.inl hres.symm⟩
          · simp only [Except.ok.injEq, Prod.mk.injEq] at h
            obtain ⟨rfl, _, _, hres, _⟩ := h
            exact ⟨⟨hInv3, hle3, hst3, hk3, hnc3⟩, Or.inr hres.symm⟩
      · simp only [Except.ok.injEq, Prod.mk.injEq] at h
        obtain ⟨rfl, _, _, hres, _⟩ := h
        exact ⟨htriv, Or.inr hres.symm⟩
  · simp only [Except.ok.injEq, Prod.mk.injEq] at h
    obtain ⟨rfl, _, _, hres, _⟩ := h
    exact ⟨htriv, Or.inr hres.symm⟩

theorem sideBranch_inv (cfg : BPLayer) (fuel : Nat)
    (ihC : ∀ (st : GenSt) (len roomIdx : Nat) (pr : List Nat)
      (sp : List DungeonPath) (pl : Bool) (kl : Option Nat) (depth : Nat)
      (t : Oracle) (st' : GenSt) (pr' : List Nat) (sp' : List DungeonPath)
      (res : Option Nat) (t' : Oracle),
      GenInv st → roomIdx < st.rooms.length → curMax st roomIdx →
      (∀ kv, kl = some kv → kv < st.rooms.length) →
      cpLoop cfg fuel st len roomIdx pr sp pl kl depth t =
        .ok (st', pr', sp', res, t') →
      loopConc st roomIdx st' res (depth ≠ 0 ∧ pl = false))
    (st : GenSt) (len' newIdx : Nat) (pr : List Nat) (sp : List DungeonPath)
    (kl : Option Nat) (depth : Nat) (t : Oracle) (st' : GenSt)
    (pr' : List Nat) (sp' : List DungeonPath) (res : Option Nat)
    (t' : Oracle)
    (hInv : GenInv st) (hv : newIdx < st.rooms.length)
    (hmax : curMax st newIdx)
    (hkl : ∀ kv, kl = some kv → kv < st.rooms.length)
    (h : sideBranch cfg fuel st len' newIdx pr sp kl depth t =
      .ok (st', pr', sp', res, t')) :
    loopConc st newIdx st' res (depth ≠ 0) := by
  unfold sideBranch at h
  split at h
  · next hcond =>
    split at h
    · exact Except.noConfusion h
    · next k t2 hrand =>
      split at h
      · split at h
        · exact Except.noConfusion h
        · next l t3 hrand2 =>
          split at h
          · exact Except.noConfusion h
          · next st3 bR bS bRes t4 hcp =>
            have hrec := ihC st l newIdx [newIdx] [] false none (depth + 1)
              t3 st3 bR bS bRes t4 hInv hv hmax
              (fun kv hkv => Option.noConfusion hkv) hcp
            obtain ⟨hInv3, hle3, hst3, hres3, hbr3⟩ := hrec
            obtain ⟨hk3, hnc3⟩ := hbr3 ⟨Nat.succ_ne_zero depth, rfl⟩
            split at h
            · simp only [Except.ok.injEq, Prod.mk.injEq] at h
              obtain ⟨rfl, _, _, hres, _⟩ := h
              refine ⟨hInv3, hle3, hst3, ?_, ?_⟩
              · intro r hr
                rw [← hres] at hr
                exact Option.noConfusion hr
              · intro hd
                exact absurd hcond.1 hd
            · next _ bIdx =>
              have hmax3 : curMax st3 newIdx :=
                curMax_restore st st3 newIdx hv hst3 hnc3 hmax
              obtain ⟨hbl, _⟩ := hres3 bIdx rfl
              have hrec2 := ihC st3 len' newIdx pr (sp ++
                  [DungeonPath.mk bR bS false]) true (some bIdx) depth t4
                st' pr' sp' res t' hInv3 (by omega) hmax3
                (fun kv hkv => by
                  have hbk : bIdx = kv := Option.some.inj hkv
                  omega)
                h
              obtain ⟨hInv', hle', hst', hres', _⟩ := hrec2
              refine ⟨hInv', by omega, ?_, hres', ?_⟩
              · intro i hi
                rw [hst' i (by omega), hst3 i hi]
              · intro hd
                exact absurd hcond.1 hd
      · have hrec := ihC st len' newIdx pr sp false kl depth t2 st' pr'
          sp' res t' hInv hv hmax hkl h
        obtain ⟨hInv', hle', hst', hres', hbr'⟩ := hrec
        exact ⟨hInv', hle', hst', hres', fun hd => hbr' ⟨hd, rfl⟩⟩
  · have hrec := ihC st len' newIdx pr sp false kl depth t st' pr'
      sp' res t' hInv hv hmax hkl h
    obtain ⟨hInv', hle', hst', hres', hbr'⟩ := hrec
    exact ⟨hInv', hle', hst', hres', fun hd => hbr' ⟨hd, rfl⟩⟩

theorem cpLoop_inv (cfg : BPLayer) : ∀ (fuel : Nat) (st : GenSt)
    (len roomIdx : Nat) (pr : List Nat) (sp : List DungeonPath) (pl : Bool)
    (kl : Option Nat) (depth : Nat) (t : Oracle) (st' : GenSt)
    (pr' : List Nat) (sp' : List DungeonPath) (res : Option Nat)
    (t' : Oracle),
    GenInv st → roomIdx < st.rooms.length → curMax st roomIdx →
    (∀ kv, kl = some kv → kv < st.rooms.length) →
    cpLoop cfg fuel st len roomIdx pr sp pl kl depth t =
      .ok (st', pr', sp', res, t') →
    loopConc st roomIdx st' res (depth ≠ 0 ∧ pl = false) := by
  intro fuel
  induction fuel with
  | zero =>
    intro st len roomIdx pr sp pl kl depth t st' pr' sp' res t' hInv hidx
      hmax hkl h
    simp only [cpLoop] at h
    exact Except.noConfusion h
  | succ fuel ih =>
    intro st len roomIdx pr sp pl kl depth t st' pr' sp' res t' hInv hidx
      hmax hkl h
    match len with
    | 0 =>
      simp only [cpLoop, Except.ok.injEq, Prod.mk.injEq] at h
      obtain ⟨rfl, _, _, hres, _⟩ := h
      refine loopConc_refl st roomIdx res _ hInv (fun r hr => ?_)
      rw [← hres] at hr
      have : roomIdx = r := Option.some.inj hr
      subst this
      exact ⟨hidx, hmax⟩
    | len' + 1 =>
      simp only [cpLoop] at h
      split at h
      · simp only [Except.ok.injEq, Prod.mk.injEq] at h
        obtain ⟨rfl, _, _, hres, _⟩ := h
        refine loopConc_refl st roomIdx res _ hInv (fun r hr => ?_)
        rw [← hres] at hr
        exact Option.noConfusion hr
      · next np hnp =>
        obtain ⟨hmem, hfree⟩ := pickNext_some_spec _ _ _ hnp
        have hmem2 := shuffleL_mem _ _ _ hmem
        obtain ⟨hdir, hcellraw⟩ := mem_directionsOf _ _ _ hmem2
        have hcell : (np.1, np.2.1) =
            neighborCell (roomAt st.rooms roomIdx).x
              (roomAt st.rooms roomIdx).y np.2.2 := hcellraw
        obtain ⟨hInv2, hL2, hst2, hnewc2, hmax2, hK2⟩ :=
          placeRoom_inv st roomIdx np depth pl kl hInv hmax hidx hdir hkl
            hfree hcell
        have hkeys2false : pl = false →
            (placeRoom st roomIdx np depth pl kl).1.keys = st.keys := by
          rintro rfl
          simpa using hK2
        rw [placeRoom_snd] at h
        split at h
        case isTrue hlen =>
          split at h
          · exact Except.noConfusion h
          · next st3 pr3 sp3 t3 hopt =>
            obtain ⟨⟨hInv3, hle3, hst3, hk3, hnc3⟩, _⟩ :=
              optionalBranch_inv cfg fuel ih
                (placeRoom st roomIdx np depth pl kl).1 st.rooms.length
                (pr ++ [st.rooms.length]) sp depth _ st3 pr3 sp3 none t3
                hInv2 (by omega) hmax2 hopt
            simp only [Except.ok.injEq, Prod.mk.injEq] at h
            obtain ⟨rfl, _, _, hres, _⟩ := h
            refine ⟨hInv3, by omega, ?_, ?_, ?_⟩
            · intro i hi
              rw [hst3 i (by omega), hst2 i hi]
            · intro r hr
              rw [← hres] at hr
              exact Option.noConfusion hr
            · rintro ⟨hd, hplf⟩
              refine ⟨by rw [hk3, hkeys2false hplf], ?_⟩
              intro i h1 h2
              by_cases hi2 : i < (placeRoom st roomIdx np depth pl kl).1.rooms.length
              · have hieq : i = st.rooms.length := by omega
                subst hieq
                rw [hst3 _ hi2, hnewc2, hplf]
                simp [kBit]
              · rw [hnc3 i (by omega) h2, hnewc2, hplf]
                simp [kBit]
          · next st3 pr3 sp3 v t3 hopt =>
            obtain ⟨⟨hInv3, hle3, hst3, hk3, hnc3⟩, _⟩ :=
              optionalBranch_inv cfg fuel ih
                (placeRoom st roomIdx np depth pl kl).1 st.rooms.length
                (pr ++ [st.rooms.length]) sp depth _ st3 pr3 sp3 (some v) t3
                hInv2 (by omega) hmax2 hopt
            have hmax3 : curMax st3 st.rooms.length :=
              curMax_restore _ st3 st.rooms.length (by omega) hst3 hnc3
                hmax2
            obtain ⟨hInv', hle', hst', hres', hbr'⟩ :=
              sideBranch_inv cfg fuel ih st3 len' st.rooms.length pr3 sp3
                kl depth t3 st' pr' sp' res t' hInv3 (by omega) hmax3
                (fun kv hkv => by have := hkl kv hkv; omega) h
            refine ⟨hInv', by omega, ?_, hres', ?_⟩
            · intro i hi
              rw [hst' i (by omega), hst3 i (by omega), hst2 i hi]
            · rintro ⟨hd, hplf⟩
              obtain ⟨hkeq', hnc'⟩ := hbr' hd
              refine ⟨by rw [hkeq', hk3, hkeys2false hplf], ?_⟩
              intro i h1 h2
              by_cases hi2 : i < (placeRoom st roomIdx np depth pl kl).1.rooms.length
              · have hieq : i = st.rooms.length := by omega
                subst hieq
                rw [hst' _ (by omega), hst3 _ hi2, hnewc2, hplf]
                simp [kBit]
              · by_cases hi3 : i < st3.rooms.length
                · rw [hst' i (by omega), hnc3 i (by omega) hi3, hnewc2,
                    hplf]
                  simp [kBit]
                · rw [hnc' i (by omega) h2,
                    hst3 _ (by omega), hnewc2, hplf]
                  simp [kBit]
        case isFalse hlen =>
          obtain ⟨hInv', hle', hst', hres', hbr'⟩ :=
            ih (placeRoom st roomIdx np depth pl kl).1 len'
              st.rooms.length (pr ++ [st.rooms.length]) sp false kl depth
              _ st' pr' sp' res t' hInv2 (by omega) hmax2
              (fun kv hkv => by have := hkl kv hkv; omega) h
          refine ⟨hInv', by omega, ?_, hres', ?_⟩
          · intro i hi
            rw [hst' i (by omega), hst2 i hi]
          · rintro ⟨hd, hplf⟩
            obtain ⟨hkeq', hnc'⟩ := hbr' ⟨hd, rfl⟩
            refine ⟨by rw [hkeq', hkeys2false hplf], ?_⟩
            intro i h1 h2
            by_cases hi2 : i < (placeRoom st roomIdx np depth pl kl).1.rooms.length
            · have hieq : i = st.rooms.length := by omega
              subst hieq
              rw [hst' _ hi2, hnewc2, hplf]
              simp [kBit]
            · rw [hnc' i (by omega) h2, hnewc2, hplf]
              simp [kBit]

theorem newRoomAt_door (n depth d : Nat) :
    (newRoomAt n depth).door d = false := by
  unfold newRoomAt DungeonRoom.door DungeonRoom.new
  dsimp only
  split_ifs <;> rfl

theorem genInv_seed : GenInv ⟨[newRoomAt 0 0], []⟩ := by
  refine ⟨?_, ?_, ?_, ?_, ?_, ?_⟩
  · intro i hi
    have : i = 0 := by simp at hi; omega
    subst this
    rfl
  · intro i j hi hj hne
    simp only [List.length_singleton] at hi hj
    omega
  · intro i d hi hd hdoor
    simp only [List.length_singleton] at hi
    have : i = 0 := by omega
    subst this
    have : (roomAt [newRoomAt 0 0] 0).door d = false := newRoomAt_door 0 0 d
    rw [this] at hdoor
    exact Bool.noConfusion hdoor
  · intro j hj
    simp only [List.length_singleton] at hj
    have : j = 0 := by omega
    subst this
    rw [if_pos rfl]
    unfold parentCount
    refine Eq.trans (congrArg List.length (List.filter_congr ?_))
      (show ((List.range 4).filter (fun _ => false)).length = 0 from rfl)
    intro d hd
    have hdz : (roomAt [newRoomAt 0 0] 0).door d = false :=
      newRoomAt_door 0 0 d
    rw [doorTargetIdx_closed _ _ _ hdz]
  · intro k hk
    exact absurd hk (List.not_mem_nil k)
  · intro i j hij hj
    simp only [List.length_singleton] at hj
    have : i = 0 := by omega
    have hj0 : j = 0 := by omega
    subst this
    subst hj0
    exact le_refl _

theorem bpl_process_inv (cfg : BPLayer) : ∀ (attempts : Nat) (t : Oracle)
    (d' : Dungeon) (t' : Oracle),
    BPLayer.process_dungeon cfg attempts Dungeon.empty t =
      .ok (d', t') →
    GenInv ⟨d'.rooms, d'.keys⟩ ∧ 1 ≤ d'.rooms.length ∧
    (∃ suffix : List Nat, d'.mainPath.rooms = 0 :: suffix) := by
  intro attempts
  induction attempts with
  | zero =>
    intro t d' t' h
    simp only [BPLayer.process_dungeon] at h
    exact Except.noConfusion h
  | succ a ih =>
    intro t d' t' h
    simp only [BPLayer.process_dungeon] at h
    split at h
    · exact Except.noConfusion h
    · next pathLength t2 hrand =>
      split at h
      · exact Except.noConfusion h
      · next st path res t3 hcp =>
        rename_i kIdx
        unfold create_path at hcp
        split at hcp
        · exact Except.noConfusion hcp
        · next st4 pr4 sp4 res4 t4 hloop =>
          simp only [Except.ok.injEq, Prod.mk.injEq] at hcp
          obtain ⟨rfl, rfl, rfl, rfl⟩ := hcp
          split at h
          · next val =>
            simp only [Except.ok.injEq, Prod.mk.injEq] at h
            obtain ⟨rfl, rfl⟩ := h
            have hloop2 : cpLoop cfg (bpFuel cfg pathLength)
                ⟨[newRoomAt 0 0], []⟩ pathLength 0 [0] [] false none 0 t2 =
                Except.ok (st4, pr4, sp4, some val, t4) := hloop
            have hlc := cpLoop_inv cfg (bpFuel cfg pathLength)
              ⟨[newRoomAt 0 0], []⟩ pathLength 0 [0] [] false none 0 t2
              st4 pr4 sp4 (some val) t4 genInv_seed (by simp)
              (fun j hj => by
                simp only [List.length_singleton] at hj
                interval_cases j
                exact le_refl _)
              (fun kv hkv => Option.noConfusion hkv) hloop2
            obtain ⟨hInv4, hle4, _, _, _⟩ := hlc
            obtain ⟨suf, hsuf, _⟩ := cpLoop_ok_path (bpFuel cfg pathLength)
              cfg ⟨[newRoomAt 0 0], []⟩ pathLength 0 [0] [] false none 0 t2
              st4 pr4 sp4 val t4 hloop2
            refine ⟨hInv4, ?_, ⟨suf, ?_⟩⟩
            · simpa using hle4
            · show pr4 = 0 :: suf
              simpa using hsuf
          · exact ih _ d' t' h

/-! Phase 3: tree cost is the minimal walk cost. -/

theorem neighborCell_inj (x y : Int) (d1 d2 : Nat) (h1 : d1 < 4)
    (h2 : d2 < 4) (h : neighborCell x y d1 = neighborCell x y d2) :
    d1 = d2 := by
  unfold neighborCell at h
  interval_cases d1 <;> interval_cases d2 <;> simp_all <;> omega

theorem doorTarget_inj (rooms : List DungeonRoom) (hI : IndexOk rooms)
    (hC : CoordsOk rooms) (j d1 d2 i : Nat) (hd1 : d1 < 4) (hd2 : d2 < 4)
    (h1 : doorTargetIdx rooms j d1 = some i)
    (h2 : doorTargetIdx rooms j d2 = some i) : d1 = d2 := by
  rw [doorTargetIdx_some_iff rooms hI hC] at h1 h2
  apply neighborCell_inj (roomAt rooms j).x (roomAt rooms j).y d1 d2 hd1 hd2
  have hx : (neighborCell (roomAt rooms j).x (roomAt rooms j).y d1).1 =
      (neighborCell (roomAt rooms j).x (roomAt rooms j).y d2).1 := by
    rw [← h1.2.2.1, ← h2.2.2.1]
  have hy : (neighborCell (roomAt rooms j).x (roomAt rooms j).y d1).2 =
      (neighborCell (roomAt rooms j).x (roomAt rooms j).y d2).2 := by
    rw [← h1.2.2.2, ← h2.2.2.2]
  exact Prod.ext hx hy

theorem doorTarget_ne (rooms : List DungeonRoom) (hI : IndexOk rooms)
    (hC : CoordsOk rooms) (u d v : Nat) (hd : d < 4)
    (h : doorTargetIdx rooms u d = some v) : u ≠ v := by
  rw [doorTargetIdx_some_iff rooms hI hC] at h
  intro he
  subst he
  have := neighborCell_ne (roomAt rooms u).x (roomAt rooms u).y d hd
  exact this (Prod.ext h.2.2.1.symm h.2.2.2.symm)

theorem parentD_of_edge_down (rooms : List DungeonRoom)
    (hT : TreeOk rooms) (u d v : Nat) (hd : d < 4) (hu : u < rooms.length)
    (htgt : doorTargetIdx rooms u d = some v) (hvu : v < u) :
    parentD rooms u = some (v, d) := by
  have hq : (match doorTargetIdx rooms u d with
      | some i => decide (i < u)
      | none => false) = true := by
    rw [htgt]
    simpa using hvu
  have hcnt := hT u hu
  rw [if_neg (by omega : ¬u = 0)] at hcnt
  apply parentD_eq_of_unique rooms u d v hd htgt hvu
  intro d' hd4' hne'
  by_contra hcon
  simp only [Bool.not_eq_false] at hcon
  have := filter_length_one_unique _ d hcnt hd hq d' hd4' hcon
  exact hne' this

theorem lockBit_le_crossCost (keys : List DungeonKey)
    (rooms : List DungeonRoom) (u d v : Nat) (hd : d < 4)
    (htgt : doorTargetIdx rooms u d = some v) :
    lockBit keys u d ≤ crossCost keys rooms u v := by
  unfold lockBit crossCost
  split_ifs with h1 h2
  · exact le_refl _
  · exfalso
    apply h2
    rw [List.any_eq_true]
    refine ⟨d, List.mem_range.mpr hd, ?_⟩
    simp [htgt, h1]
  · exact Nat.zero_le _
  · exact le_refl _

theorem edge_cost_le (keys : List DungeonKey) (rooms : List DungeonRoom)
    (hI : IndexOk rooms) (hC : CoordsOk rooms) (hD : DoorsOk rooms)
    (hT : TreeOk rooms) (u v : Nat) (he : OpenEdge rooms u v) :
    treeCost keys rooms v ≤ treeCost keys rooms u +
      crossCost keys rooms u v := by
  obtain ⟨hu, hv, d, hd, htgt⟩ := he
  have hne := doorTarget_ne rooms hI hC u d v hd htgt
  rcases Nat.lt_or_ge v u with hvu | huv
  · have hp := parentD_of_edge_down rooms hT u d v hd hu htgt hvu
    have := treeCost_parent keys rooms u v d hp
    omega
  · have huv' : u < v := by omega
    have hsym := doorTarget_symm rooms hI hC hD u d v hu hd htgt
    have hp := parentD_of_edge_down rooms hT v ((d + 2) % 4) u
      (opp_lt_four _) hv hsym huv'
    have hc := treeCost_parent keys rooms v u ((d + 2) % 4) hp
    rw [opp_opp _ hd] at hc
    have hlb := lockBit_le_crossCost keys rooms u d v hd htgt
    omega

theorem parentD_none_of_entrance (rooms : List DungeonRoom) :
    parentD rooms 0 = none := by
  unfold parentD
  rw [List.findSome?_eq_none_iff]
  intro d hd
  rcases htd : doorTargetIdx rooms 0 d with _ | p
  · simp
  · simp [htd]

theorem treeCost_entrance (keys : List DungeonKey)
    (rooms : List DungeonRoom) : treeCost keys rooms 0 = 0 :=
  treeCost_root keys rooms 0 (parentD_none_of_entrance rooms)

theorem walkCost_cons_cons (keys : List DungeonKey)
    (rooms : List DungeonRoom) (a b : Nat) (rest : List Nat) :
    walkCost keys rooms (a :: b :: rest) =
      crossCost keys rooms a b + walkCost keys rooms (b :: rest) := rfl

theorem walk_cost_lower (keys : List DungeonKey) (rooms : List DungeonRoom)
    (hI : IndexOk rooms) (hC : CoordsOk rooms) (hD : DoorsOk rooms)
    (hT : TreeOk rooms) :
    ∀ (w : List Nat) (u v : Nat), w.Chain' (OpenEdge rooms) →
    w.head? = some u → w.getLast? = some v →
    treeCost keys rooms v ≤ treeCost keys rooms u +
      walkCost keys rooms w := by
  intro w
  induction w with
  | nil =>
    intro u v _ hh _
    exact absurd hh (by simp)
  | cons a tl ih =>
    intro u v hch hh hl
    have hau : a = u := by simpa using hh
    subst hau
    rcases tl with _ | ⟨b, rest⟩
    · have hv : a = v := by simpa using hl
      subst hv
      simp [walkCost]
    · obtain ⟨hedge, hch'⟩ := List.chain'_cons.mp hch
      have hl' : (b :: rest).getLast? = some v := by
        rwa [List.getLast?_cons_cons] at hl
      have hih := ih b v hch' rfl hl'
      have he := edge_cost_le keys rooms hI hC hD hT a b hedge
      rw [walkCost_cons_cons]
      omega

theorem walkCost_concat (keys : List DungeonKey)
    (rooms : List DungeonRoom) :
    ∀ (l : List Nat) (b j : Nat), l.getLast? = some j →
    walkCost keys rooms (l ++ [b]) =
      walkCost keys rooms l + crossCost keys rooms j b := by
  intro l
  induction l with
  | nil =>
    intro b j hj
    exact absurd hj (by simp)
  | cons a tl ih =>
    intro b j hj
    rcases tl with _ | ⟨c, rest⟩
    · have : a = j := by simpa using hj
      subst this
      simp [walkCost, crossCost]
    · rw [List.getLast?_cons_cons] at hj
      have hrec := ih b j hj
      have heq : (a :: c :: rest) ++ [b] = a :: c :: (rest ++ [b]) := rfl
      have heq2 : (c :: rest) ++ [b] = c :: (rest ++ [b]) := rfl
      rw [heq2] at hrec
      rw [heq, walkCost_cons_cons, walkCost_cons_cons, hrec]
      omega

theorem crossCost_eq_lockBit (keys : List DungeonKey)
    (rooms : List DungeonRoom) (hI : IndexOk rooms) (hC : CoordsOk rooms)
    (j dd i : Nat) (hdd : dd < 4)
    (htgt : doorTargetIdx rooms j dd = some i) :
    crossCost keys rooms j i = lockBit keys j dd := by
  unfold crossCost lockBit
  have hcond : ((List.range 4).any (fun d =>
      decide (doorTargetIdx rooms j d = some i) &&
        keys.any (fun k => k.lockLocation = j && k.lockedDoor = d))) =
      keys.any (fun k => k.lockLocation = j && k.lockedDoor = dd) := by
    by_cases hk : keys.any (fun k =>
        k.lockLocation = j && k.lockedDoor = dd) = true
    · rw [hk, List.any_eq_true]
      refine ⟨dd, List.mem_range.mpr hdd, ?_⟩
      simp [htgt, hk]
    · rw [Bool.not_eq_true] at hk
      rw [hk, List.any_eq_false]
      intro d' hmem
      by_cases ht : doorTargetIdx rooms j d' = some i
      · have : d' = dd := doorTarget_inj rooms hI hC j d' dd i
          (List.mem_range.mp hmem) hdd ht htgt
        subst this
        simp [hk]
      · simp [ht]
  rw [hcond]

theorem parentD_some_of_ne (rooms : List DungeonRoom) (hT : TreeOk rooms)
    (i : Nat) (hi : i < rooms.length) (hne : i ≠ 0) :
    ∃ p d, parentD rooms i = some (p, d) := by
  have hcnt := hT i hi
  rw [if_neg hne] at hcnt
  obtain ⟨d0, hd0⟩ := List.length_eq_one.mp hcnt
  have hmem : d0 ∈ (List.range 4).filter (fun d =>
      match doorTargetIdx rooms i d with
      | some p => decide (p < i)
      | none => false) := by
    have h1 : d0 ∈ [d0] := List.mem_singleton.mpr rfl
    rw [← hd0] at h1
    exact h1
  obtain ⟨hmem4, hq⟩ := List.mem_filter.mp hmem
  obtain ⟨p, hp, hpi⟩ := (qualifies_spec rooms i d0).mp hq
  rcases hpd : parentD rooms i with _ | pd
  · exfalso
    unfold parentD at hpd
    rw [List.findSome?_eq_none_iff] at hpd
    have := hpd d0 hmem4
    rw [hp] at this
    simp only [hpi, if_pos] at this
    exact Option.noConfusion this
  · obtain ⟨p1, d1⟩ := pd
    exact ⟨p1, d1, rfl⟩

theorem rootPath_spec (keys : List DungeonKey) (rooms : List DungeonRoom)
    (hI : IndexOk rooms) (hC : CoordsOk rooms) (hD : DoorsOk rooms)
    (hT : TreeOk rooms) :
    ∀ (i fuel : Nat), i ≤ fuel → i < rooms.length →
    (rootPath rooms fuel i).head? = some 0 ∧
    (rootPath rooms fuel i).getLast? = some i ∧
    (rootPath rooms fuel i).Chain' (OpenEdge rooms) ∧
    walkCost keys rooms (rootPath rooms fuel i) = treeCost keys rooms i ∧
    (∀ x ∈ rootPath rooms fuel i, x ≤ i) := by
  intro i
  induction i using Nat.strong_induction_on with
  | _ i ih =>
    intro fuel hif hi
    match fuel with
    | 0 =>
      have hi0 : i = 0 := by omega
      subst hi0
      refine ⟨rfl, rfl, List.chain'_singleton _, ?_, ?_⟩
      · rw [treeCost_entrance]
        rfl
      · intro x hx
        simp only [rootPath, List.mem_singleton] at hx
        omega
    | f + 1 =>
      rcases hpd : parentD rooms i with _ | pd
      · have hi0 : i = 0 := by
          by_contra hne
          obtain ⟨p, d, hp⟩ := parentD_some_of_ne rooms hT i hi hne
          rw [hpd] at hp
          exact Option.noConfusion hp
        subst hi0
        simp only [rootPath, hpd]
        refine ⟨rfl, rfl, List.chain'_singleton _, ?_, ?_⟩
        · rw [treeCost_entrance]
          rfl
        · intro x hx
          simp only [List.mem_singleton] at hx
          omega
      · obtain ⟨j, d⟩ := pd
        obtain ⟨hji, hd4, htgt⟩ := parentD_lt rooms i j d hpd
        have hspec := ih j hji f (by omega) (by omega)
        obtain ⟨hh, hl, hch, hwc, hmx⟩ := hspec
        have hne : rootPath rooms f j ≠ [] := by
          intro hnil
          rw [hnil] at hh
          exact Option.noConfusion hh
        have hsym := doorTarget_symm rooms hI hC hD i d j hi hd4 htgt
        simp only [rootPath, hpd]
        refine ⟨?_, ?_, ?_, ?_, ?_⟩
        · rw [List.head?_append_of_ne_nil _ hne]
          exact hh
        · simp
        · rw [List.chain'_append]
          refine ⟨hch, List.chain'_singleton _, ?_⟩
          intro x hx y hy
          have hxj : j = x := by
            rw [hl] at hx
            simpa using hx
          have hyi : i = y := by simpa using hy
          subst hxj
          subst hyi
          exact ⟨by omega, hi, (d + 2) % 4, opp_lt_four _, hsym⟩
        · rw [walkCost_concat keys rooms _ i j hl, hwc,
            crossCost_eq_lockBit keys rooms hI hC j ((d + 2) % 4) i
              (opp_lt_four _) hsym,
            treeCost_parent keys rooms i j d hpd]
        · intro x hx
          rcases List.mem_append.mp hx with hx' | hx'
          · have := hmx x hx'
            omega
          · simp only [List.mem_singleton] at hx'
            omega

theorem treeCost_isLeast (keys : List DungeonKey)
    (rooms : List DungeonRoom) (hI : IndexOk rooms) (hC : CoordsOk rooms)
    (hD : DoorsOk rooms) (hT : TreeOk rooms) (i : Nat)
    (hi : i < rooms.length) :
    IsLeast (walkCostSet keys rooms i) (treeCost keys rooms i) := by
  constructor
  · obtain ⟨hh, hl, hch, hwc, _⟩ :=
      rootPath_spec keys rooms hI hC hD hT i i (le_refl i) hi
    refine ⟨rootPath rooms i i, ⟨?_, hch⟩, hh, hl, hwc⟩
    intro hnil
    rw [hnil] at hh
    exact Option.noConfusion hh
  · intro c hc
    obtain ⟨w, ⟨hne, hch⟩, hh, hl, hwc⟩ := hc
    have := walk_cost_lower keys rooms hI hC hD hT w 0 i hch hh hl
    rw [treeCost_entrance] at this
    omega

/-! Phase 4a: shape-preserving room-list transformations. -/

theorem sameShape_refl (rooms : List DungeonRoom) : SameShape rooms rooms :=
  ⟨rfl, fun i _ => ⟨rfl, rfl, rfl, rfl⟩⟩

theorem sameShape_trans (a b c : List DungeonRoom) (h1 : SameShape a b)
    (h2 : SameShape b c) : SameShape a c := by
  obtain ⟨hl1, hp1⟩ := h1
  obtain ⟨hl2, hp2⟩ := h2
  refine ⟨by omega, fun i hi => ?_⟩
  obtain ⟨x1, y1, i1, d1⟩ := hp1 i hi
  obtain ⟨x2, y2, i2, d2⟩ := hp2 i (by omega)
  exact ⟨x2.trans x1, y2.trans y1, i2.trans i1, d2.trans d1⟩

theorem find?_map_rel {α β γ : Type} (R : α → β → Prop) :
    ∀ (l1 : List α) (l2 : List β) (p : α → Bool) (q : β → Bool)
      (f : α → γ) (g : β → γ),
      (∀ a b, R a b → p a = q b) → (∀ a b, R a b → f a = g b) →
      List.Forall₂ R l1 l2 →
      (l1.find? p).map f = (l2.find? q).map g := by
  intro l1 l2 p q f g hpq hfg hrel
  induction hrel with
  | nil => rfl
  | @cons a b l1' l2' hab htl ih =>
    rw [List.find?_cons, List.find?_cons, ← hpq a b hab]
    rcases hpa : p a with _ | _
    · simp only [hpa, Bool.false_eq_true, if_false]
      exact ih
    · simp only [hpa, if_true]
      simp [hfg a b hab]

theorem forall₂_of_pointwise {α β : Type} (R : α → β → Prop) :
    ∀ (l1 : List α) (l2 : List β), l1.length = l2.length →
    (∀ i h1 h2, R (l1.get ⟨i, h1⟩) (l2.get ⟨i, h2⟩)) →
    List.Forall₂ R l1 l2 := by
  intro l1
  induction l1 with
  | nil =>
    intro l2 hlen _
    rcases l2 with _ | ⟨b, t2⟩
    · exact List.Forall₂.nil
    · simp at hlen
  | cons a t ih =>
    intro l2 hlen h
    rcases l2 with _ | ⟨b, t2⟩
    · simp at hlen
    · refine List.Forall₂.cons (h 0 (by simp) (by simp)) ?_
      refine ih t2 (by simpa using hlen) ?_
      intro i h1 h2
      exact h (i + 1) (by simpa using h1) (by simpa using h2)

theorem roomAt_eq_get (l : List DungeonRoom) (i : Nat) (h : i < l.length) :
    roomAt l i = l.get ⟨i, h⟩ := by
  unfold roomAt
  rw [List.getD_eq_getElem l DungeonRoom.new h]
  rfl

theorem new_door (d : Nat) : DungeonRoom.new.door d = false := by
  unfold DungeonRoom.door DungeonRoom.new
  dsimp only
  split_ifs <;> rfl

theorem roomAt_oob (l : List DungeonRoom) (i : Nat) (h : l.length ≤ i) :
    roomAt l i = DungeonRoom.new := by
  unfold roomAt
  exact List.getD_eq_default _ _ h

theorem sameShape_getRoomAt (base cur : List DungeonRoom)
    (hS : SameShape base cur) (x y : Int) :
    (getRoomAt cur x y).map (fun rm => rm.index) =
    (getRoomAt base x y).map (fun rm => rm.index) := by
  unfold getRoomAt
  apply find?_map_rel
    (fun a b => a.x = b.x ∧ a.y = b.y ∧ a.index = b.index)
  · intro a b hab
    rw [hab.1, hab.2.1]
  · intro a b hab
    exact hab.2.2
  · refine forall₂_of_pointwise _ cur base hS.1 ?_
    intro i h1 h2
    have hib : i < base.length := h2
    obtain ⟨hx, hy, hidx, _⟩ := hS.2 i hib
    rw [← roomAt_eq_get cur i h1, ← roomAt_eq_get base i h2]
    exact ⟨hx, hy, hidx⟩

theorem doorTargetIdx_sameShape (base cur : List DungeonRoom)
    (hS : SameShape base cur) (i d : Nat) :
    doorTargetIdx cur i d = doorTargetIdx base i d := by
  by_cases hi : i < base.length
  · obtain ⟨hx, hy, _, hdoors⟩ := hS.2 i hi
    unfold doorTargetIdx
    rw [door_congr _ _ hdoors, hx, hy]
    split_ifs with hdoor
    · exact sameShape_getRoomAt base cur hS _ _
    · rfl
  · have hlen := hS.1
    have h1 : roomAt cur i = DungeonRoom.new :=
      roomAt_oob cur i (by omega : cur.length ≤ i)
    have h2 : roomAt base i = DungeonRoom.new :=
      roomAt_oob base i (by omega)
    rw [doorTargetIdx_closed cur i d (by rw [h1]; exact new_door d),
      doorTargetIdx_closed base i d (by rw [h2]; exact new_door d)]

theorem parentD_sameShape (base cur : List DungeonRoom)
    (hS : SameShape base cur) (i : Nat) :
    parentD cur i = parentD base i := by
  unfold parentD
  apply findSome?_congr
  intro d hd
  rw [doorTargetIdx_sameShape base cur hS i d]

theorem treeCostF_sameShape (keys : List DungeonKey)
    (base cur : List DungeonRoom) (hS : SameShape base cur) :
    ∀ fuel i, treeCostF keys cur fuel i = treeCostF keys base fuel i := by
  intro fuel
  induction fuel with
  | zero => intro i; rfl
  | succ f ih =>
    intro i
    simp only [treeCostF]
    rw [parentD_sameShape base cur hS i]
    rcases parentD base i with _ | jd
    · rfl
    · obtain ⟨j, d⟩ := jd
      dsimp only
      rw [ih j]

theorem treeCost_sameShape (keys : List DungeonKey)
    (base cur : List DungeonRoom) (hS : SameShape base cur) (i : Nat) :
    treeCost keys cur i = treeCost keys base i :=
  treeCostF_sameShape keys base cur hS i i

theorem crossCost_sameShape (keys : List DungeonKey)
    (base cur : List DungeonRoom) (hS : SameShape base cur) (u v : Nat) :
    crossCost keys cur u v = crossCost keys base u v := by
  unfold crossCost
  have hfun : (fun d => decide (doorTargetIdx cur u d = some v) &&
      keys.any (fun k => k.lockLocation = u && k.lockedDoor = d)) =
      (fun d => decide (doorTargetIdx base u d = some v) &&
      keys.any (fun k => k.lockLocation = u && k.lockedDoor = d)) := by
    funext d
    rw [doorTargetIdx_sameShape base cur hS u d]
  rw [hfun]

theorem walkCost_sameShape (keys : List DungeonKey)
    (base cur : List DungeonRoom) (hS : SameShape base cur) :
    ∀ w, walkCost keys cur w = walkCost keys base w := by
  intro w
  induction w with
  | nil => rfl
  | cons a tl ih =>
    rcases tl with _ | ⟨b, rest⟩
    · rfl
    · rw [walkCost_cons_cons, walkCost_cons_cons,
        crossCost_sameShape keys base cur hS a b, ih]

theorem OpenEdge_sameShape (base cur : List DungeonRoom)
    (hS : SameShape base cur) (u v : Nat) :
    OpenEdge cur u v ↔ OpenEdge base u v := by
  unfold OpenEdge
  rw [hS.1]
  constructor
  · rintro ⟨hu, hv, d, hd, htgt⟩
    exact ⟨hu, hv, d, hd, by
      rw [doorTargetIdx_sameShape base cur hS u d] at htgt
      exact htgt⟩
  · rintro ⟨hu, hv, d, hd, htgt⟩
    exact ⟨hu, hv, d, hd, by
      rw [doorTargetIdx_sameShape base cur hS u d]
      exact htgt⟩

theorem IsWalk_sameShape (base cur : List DungeonRoom)
    (hS : SameShape base cur) (w : List Nat) :
    IsWalk cur w ↔ IsWalk base w := by
  unfold IsWalk
  constructor
  · rintro ⟨hne, hch⟩
    exact ⟨hne, hch.imp (fun a b hab =>
      (OpenEdge_sameShape base cur hS a b).mp hab)⟩
  · rintro ⟨hne, hch⟩
    exact ⟨hne, hch.imp (fun a b hab =>
      (OpenEdge_sameShape base cur hS a b).mpr hab)⟩

theorem walkCostSet_sameShape (keys : List DungeonKey)
    (base cur : List DungeonRoom) (hS : SameShape base cur) (i : Nat) :
    walkCostSet keys cur i = walkCostSet keys base i := by
  unfold walkCostSet
  ext c
  constructor
  · rintro ⟨w, hw, hh, hl, hwc⟩
    exact ⟨w, (IsWalk_sameShape base cur hS w).mp hw, hh, hl,
      by rw [← walkCost_sameShape keys base cur hS w]; exact hwc⟩
  · rintro ⟨w, hw, hh, hl, hwc⟩
    exact ⟨w, (IsWalk_sameShape base cur hS w).mpr hw, hh, hl,
      by rw [walkCost_sameShape keys base cur hS w]; exact hwc⟩

theorem IndexOk_sameShape (base cur : List DungeonRoom)
    (hS : SameShape base cur) (hI : IndexOk base) : IndexOk cur := by
  intro i hi
  have hib : i < base.length := by have := hS.1; omega
  rw [(hS.2 i hib).2.2.1]
  exact hI i hib

theorem CoordsOk_sameShape (base cur : List DungeonRoom)
    (hS : SameShape base cur) (hC : CoordsOk base) : CoordsOk cur := by
  intro i j hi hj hne
  have hlen := hS.1
  obtain ⟨hxi, hyi, _, _⟩ := hS.2 i (by omega)
  obtain ⟨hxj, hyj, _, _⟩ := hS.2 j (by omega)
  rw [hxi, hyi, hxj, hyj]
  exact hC i j (by omega) (by omega) hne

theorem DoorsOk_sameShape (base cur : List DungeonRoom)
    (hS : SameShape base cur) (hD : DoorsOk base) : DoorsOk cur := by
  intro i d hi hd hdoor
  have hlen := hS.1
  obtain ⟨hxi, hyi, _, hdi⟩ := hS.2 i (by omega)
  rw [door_congr _ _ hdi] at hdoor
  obtain ⟨j, hj, hx, hy, hdoor2⟩ := hD i d (by omega) hd hdoor
  obtain ⟨hxj, hyj, _, hdj⟩ := hS.2 j hj
  refine ⟨j, by omega, ?_, ?_, ?_⟩
  · rw [hxj, hxi, hyi, hx]
  · rw [hyj, hxi, hyi, hy]
  · rw [door_congr _ _ hdj]
    exact hdoor2

theorem TreeOk_sameShape (base cur : List DungeonRoom)
    (hS : SameShape base cur) (hT : TreeOk base) : TreeOk cur := by
  intro j hj
  have hlen := hS.1
  have hcnt : parentCount cur j = parentCount base j := by
    unfold parentCount
    congr 1
    apply List.filter_congr
    intro d hd
    rw [doorTargetIdx_sameShape base cur hS j d]
  rw [hcnt]
  exact hT j (by omega)

/-! Phase 4b: the region relaxation computes the tree cost. -/

theorem roomAt_def (l : List DungeonRoom) (i : Nat) :
    l.getD i DungeonRoom.new = roomAt l i := rfl

theorem regionsView_sameShape (base cur : List DungeonRoom) (r : Nat → Int)
    (hR : RegionsView base cur r) : SameShape base cur := by
  refine ⟨hR.1, fun i hi => ?_⟩
  rw [hR.2 i hi]
  exact ⟨rfl, rfl, rfl, rfl⟩

theorem regionsView_congr (base cur : List DungeonRoom) (r r' : Nat → Int)
    (hR : RegionsView base cur r) (h : ∀ j, j < base.length → r j = r' j) :
    RegionsView base cur r' := by
  refine ⟨hR.1, fun i hi => ?_⟩
  rw [hR.2 i hi, h i hi]

theorem regionsView_region (base cur : List DungeonRoom) (r : Nat → Int)
    (hR : RegionsView base cur r) (i : Nat) (hi : i < base.length) :
    (roomAt cur i).region = r i := by
  rw [hR.2 i hi]

theorem regionsView_update (base cur : List DungeonRoom) (r : Nat → Int)
    (hR : RegionsView base cur r) (i : Nat) (hi : i < base.length)
    (v : Int) :
    RegionsView base
      (listModify cur i (fun rm => { rm with region := v }))
      (fun j => if j = i then v else r j) := by
  refine ⟨by rw [listModify_length]; exact hR.1, fun j hj => ?_⟩
  by_cases hji : j = i
  · subst hji
    rw [roomAt_listModify_eq cur j _ (by rw [hR.1]; omega), hR.2 j hj]
    simp
  · rw [roomAt_listModify_ne cur i j _ hji, hR.2 j hj]
    simp [hji]

theorem nearStep_skip_door (keys : List DungeonKey)
    (acc : List DungeonRoom × Bool) (i : Nat) (nr : Int × Int × Nat)
    (hdoor : (roomAt acc.1 i).door nr.2.2 = false) :
    regionNearStep keys acc i nr = acc := by
  unfold regionNearStep
  dsimp only
  rw [roomAt_def, hdoor]
  rfl

theorem nearStep_skip_empty (keys : List DungeonKey)
    (acc : List DungeonRoom × Bool) (i : Nat) (nr : Int × Int × Nat)
    (hempty : getRoomAt acc.1 nr.1 nr.2.1 = none) :
    regionNearStep keys acc i nr = acc := by
  unfold regionNearStep
  dsimp only
  rw [roomAt_def, hempty]
  split_ifs <;> rfl

theorem nearStep_skip_unresolved (keys : List DungeonKey)
    (acc : List DungeonRoom × Bool) (i : Nat) (nr : Int × Int × Nat)
    (n : DungeonRoom) (hsome : getRoomAt acc.1 nr.1 nr.2.1 = some n)
    (hreg : n.region = -1) :
    regionNearStep keys acc i nr = acc := by
  unfold regionNearStep
  dsimp only
  rw [roomAt_def, hsome]
  dsimp only
  split_ifs with h1 h2
  · rfl
  · rfl

theorem nearStep_resolve (keys : List DungeonKey) (cur : List DungeonRoom)
    (ch : Bool) (i : Nat) (nr : Int × Int × Nat) (n : DungeonRoom)
    (hi : i < cur.length)
    (hdoor : (roomAt cur i).door nr.2.2 = true)
    (hsome : getRoomAt cur nr.1 nr.2.1 = some n)
    (hregNN : 0 ≤ n.region)
    (hregI : (roomAt cur i).region = -1) :
    regionNearStep keys (cur, ch) i nr =
      (listModify cur i (fun rm => { rm with
        region := if keys.any (fun k => k.lockLocation = n.index &&
          k.lockedDoor = (nr.2.2 + 2) % 4) then n.region + 1
          else n.region }), true) := by
  have hregne : ¬n.region = -1 := by omega
  unfold regionNearStep
  dsimp only
  rw [roomAt_def, hdoor, hsome]
  simp only [Bool.not_true, Bool.false_eq_true, if_false, if_neg hregne]
  rcases hlk : keys.any (fun k => k.lockLocation = n.index &&
      k.lockedDoor = (nr.2.2 + 2) % 4) with _ | _
  · simp only [Bool.false_eq_true, if_false]
    rw [roomAt_def, hregI]
    simp
  · simp only [if_true]
    rw [roomAt_def, roomAt_listModify_eq cur i _ hi]
    have : ({ roomAt cur i with region := n.region + 1 }).region =
        n.region + 1 := rfl
    rw [this]
    rw [if_neg (by omega)]

theorem directionsOf_eq_dirE (x y : Int) :
    directionsOf x y = [dirE x y 0, dirE x y 1, dirE x y 2, dirE x y 3] :=
  rfl

theorem roomStep_skip (keys : List DungeonKey)
    (acc : List DungeonRoom × Bool) (i : Nat)
    (h : (roomAt acc.1 i).region > -1) :
    regionRoomStep keys acc i = acc := by
  unfold regionRoomStep
  dsimp only
  rw [roomAt_def, if_pos h]

theorem regF_unresolved (keys : List DungeonKey) (base : List DungeonRoom)
    (i j : Nat) (hij : i < j) : regF keys base i j = -1 := by
  unfold regF
  rw [if_neg]
  intro h
  rcases h with h | h <;> omega

theorem roomStep_resolve (keys : List DungeonKey)
    (base cur : List DungeonRoom) (ch : Bool) (i : Nat)
    (hI : IndexOk base) (hC : CoordsOk base) (hD : DoorsOk base)
    (hT : TreeOk base)
    (hR : RegionsView base cur (regF keys base i))
    (hi1 : 1 ≤ i) (hi : i < base.length) :
    regionRoomStep keys (cur, ch) i =
      (listModify cur i
        (fun rm => { rm with region := (treeCost keys base i : Int) }),
       true) := by
  have hlen : cur.length = base.length := hR.1
  obtain ⟨p, dp, hpd⟩ := parentD_some_of_ne base hT i hi (by omega)
  obtain ⟨hpi, hdp4, htgt⟩ := parentD_lt base i p dp hpd
  obtain ⟨hdoorB, hp, hxB, hyB⟩ :=
    (doorTargetIdx_some_iff base hI hC i dp p).mp htgt
  -- facts about room i in `cur`
  have hxI : (roomAt cur i).x = (roomAt base i).x := by rw [hR.2 i hi]
  have hyI : (roomAt cur i).y = (roomAt base i).y := by rw [hR.2 i hi]
  have hregI : (roomAt cur i).region = -1 := by
    rw [regionsView_region base cur _ hR i hi]
    unfold regF
    rw [if_neg]
    intro h
    rcases h with h | h <;> omega
  have hdrsI : (roomAt cur i).doors = (roomAt base i).doors := by
    rw [hR.2 i hi]
  -- locating a room through a neighbour cell, in any region-view state
  have hget : ∀ (cur₀ : List DungeonRoom) (r₀ : Nat → Int),
      RegionsView base cur₀ r₀ → ∀ j k, j < base.length → k < 4 →
      (roomAt base j).x =
        (neighborCell (roomAt base i).x (roomAt base i).y k).1 →
      (roomAt base j).y =
        (neighborCell (roomAt base i).x (roomAt base i).y k).2 →
      getRoomAt cur₀
        (neighborCell (roomAt base i).x (roomAt base i).y k).1
        (neighborCell (roomAt base i).x (roomAt base i).y k).2 =
        some (roomAt cur₀ j) := by
    intro cur₀ r₀ hR₀ j k hj hk4 hjx hjy
    have hSS₀ := regionsView_sameShape base cur₀ r₀ hR₀
    have hC₀ := CoordsOk_sameShape base cur₀ hSS₀ hC
    have hx₀ : (roomAt cur₀ j).x =
        (neighborCell (roomAt base i).x (roomAt base i).y k).1 := by
      rw [hR₀.2 j hj]
      exact hjx
    have hy₀ : (roomAt cur₀ j).y =
        (neighborCell (roomAt base i).x (roomAt base i).y k).2 := by
      rw [hR₀.2 j hj]
      exact hjy
    have := getRoomAt_roomAt cur₀ hC₀ j (by rw [hSS₀.1]; omega)
    rw [hx₀, hy₀] at this
    exact this
  -- every non-parent direction leaves the accumulator unchanged
  have hskip : ∀ (cur₀ : List DungeonRoom) (r₀ : Nat → Int) (ch₀ : Bool),
      RegionsView base cur₀ r₀ →
      (∀ j, i < j → j < base.length → r₀ j = -1) →
      ∀ k, k < 4 → k ≠ dp →
      regionNearStep keys (cur₀, ch₀) i
        (dirE (roomAt base i).x (roomAt base i).y k) = (cur₀, ch₀) := by
    intro cur₀ r₀ ch₀ hR₀ hr₀ k hk4 hkne
    by_cases hdoorB₀ : (roomAt base i).door k = true
    · obtain ⟨j, hjlen, hjx, hjy, _⟩ := hD i k hi hk4 hdoorB₀
      have htgtk : doorTargetIdx base i k = some j :=
        (doorTargetIdx_some_iff base hI hC i k j).mpr
          ⟨hdoorB₀, hjlen, hjx, hjy⟩
      have hij : i ≠ j := doorTarget_ne base hI hC i k j hk4 htgtk
      have hjgt : i < j := by
        rcases Nat.lt_or_ge j i with hji | hji
        · exfalso
          have := parentD_of_edge_down base hT i k j hk4 hi htgtk hji
          rw [hpd] at this
          have hpair : (p, dp) = (j, k) := Option.some.inj this
          exact hkne (congrArg Prod.snd hpair).symm
        · omega
      apply nearStep_skip_unresolved keys (cur₀, ch₀) i _ (roomAt cur₀ j)
      · exact hget cur₀ r₀ hR₀ j k hjlen hk4 hjx hjy
      · rw [regionsView_region base cur₀ r₀ hR₀ j hjlen]
        exact hr₀ j hjgt hjlen
    · apply nearStep_skip_door
      have : (roomAt base i).door k = false := by
        simpa using hdoorB₀
      show (roomAt cur₀ i).door k = false
      rw [door_congr _ _ (by rw [hR₀.2 i hi] : (roomAt cur₀ i).doors =
        (roomAt base i).doors)]
      exact this
  -- the parent direction resolves room i to its tree cost
  have hpidx : (roomAt cur p).index = p := by
    have h := hR.2 p hp
    rw [h]
    exact hI p hp
  have hpreg : (roomAt cur p).region = (treeCost keys base p : Int) := by
    rw [regionsView_region base cur _ hR p hp]
    unfold regF
    rw [if_pos (Or.inr hpi)]
  have hres0 := nearStep_resolve keys cur ch i
    (dirE (roomAt base i).x (roomAt base i).y dp) (roomAt cur p)
    (by omega)
    (by show (roomAt cur i).door dp = true
        rw [door_congr _ _ hdrsI]
        exact hdoorB)
    (hget cur _ hR p dp hp hdp4 hxB hyB)
    (by rw [hpreg]; exact Int.natCast_nonneg _)
    hregI
  dsimp only [dirE] at hres0
  have hval : (if keys.any (fun k => k.lockLocation = (roomAt cur p).index
        && k.lockedDoor = (dp + 2) % 4) then (roomAt cur p).region + 1
        else (roomAt cur p).region) = (treeCost keys base i : Int) := by
    rw [hpidx, hpreg]
    have hcost := treeCost_parent keys base i p dp hpd
    have hsplit : (if keys.any (fun k => k.lockLocation = p &&
          k.lockedDoor = (dp + 2) % 4) then
          ((treeCost keys base p : Nat) : Int) + 1
          else ((treeCost keys base p : Nat) : Int)) =
        ((treeCost keys base p : Nat) : Int) +
          ((lockBit keys p ((dp + 2) % 4) : Nat) : Int) := by
      unfold lockBit
      split_ifs with h
      · simp
      · simp
    rw [hsplit, hcost]
    push_cast
    ring
  rw [hval] at hres0
  have hres : regionNearStep keys (cur, ch) i
      (dirE (roomAt base i).x (roomAt base i).y dp) =
      (listModify cur i
        (fun rm => { rm with region := (treeCost keys base i : Int) }),
       true) := hres0
  -- assemble the four-direction fold
  have hr₀ : ∀ j, i < j → j < base.length → regF keys base i j = -1 :=
    fun j hij _ => regF_unresolved keys base i j hij
  have hR' := regionsView_update base cur _ hR i hi
    (treeCost keys base i : Int)
  have hr₀' : ∀ j, i < j → j < base.length →
      (fun j => if j = i then ((treeCost keys base i : Nat) : Int)
        else regF keys base i j) j = -1 := by
    intro j hij hjlen
    simp only [if_neg (by omega : ¬j = i)]
    exact regF_unresolved keys base i j hij
  unfold regionRoomStep
  dsimp only
  rw [roomAt_def, if_neg (by rw [hregI]; omega)]
  rw [hxI, hyI, directionsOf_eq_dirE]
  simp only [List.foldl_cons, List.foldl_nil]
  interval_cases dp
  · rw [hres, hskip _ _ true hR' hr₀' 1 (by omega) (by omega),
      hskip _ _ true hR' hr₀' 2 (by omega) (by omega),
      hskip _ _ true hR' hr₀' 3 (by omega) (by omega)]
  · rw [hskip cur _ ch hR hr₀ 0 (by omega) (by omega), hres,
      hskip _ _ true hR' hr₀' 2 (by omega) (by omega),
      hskip _ _ true hR' hr₀' 3 (by omega) (by omega)]
  · rw [hskip cur _ ch hR hr₀ 0 (by omega) (by omega),
      hskip cur _ ch hR hr₀ 1 (by omega) (by omega), hres,
      hskip _ _ true hR' hr₀' 3 (by omega) (by omega)]
  · rw [hskip cur _ ch hR hr₀ 0 (by omega) (by omega),
      hskip cur _ ch hR hr₀ 1 (by omega) (by omega),
      hskip cur _ ch hR hr₀ 2 (by omega) (by omega), hres]

theorem pass1_aux (keys : List DungeonKey) (base : List DungeonRoom)
    (cur₀ : List DungeonRoom)
    (hI : IndexOk base) (hC : CoordsOk base) (hD : DoorsOk base)
    (hT : TreeOk base)
    (hR₀ : RegionsView base cur₀ (regF keys base 0)) :
    ∀ i, i ≤ base.length →
    ∃ cur ch, (List.range i).foldl (fun a k => regionRoomStep keys a k)
        (cur₀, false) = (cur, ch) ∧
      RegionsView base cur (regF keys base i) := by
  intro i
  induction i with
  | zero =>
    intro _
    exact ⟨cur₀, false, rfl, hR₀⟩
  | succ i ih =>
    intro hle
    obtain ⟨cur, ch, hfold, hRi⟩ := ih (by omega)
    rw [List.range_succ, List.foldl_append, hfold]
    simp only [List.foldl_cons, List.foldl_nil]
    rcases Nat.eq_zero_or_pos i with hi0 | hipos
    · subst hi0
      have hskip0 : (roomAt cur 0).region > -1 := by
        rw [regionsView_region base cur _ hRi 0 (by omega)]
        unfold regF
        rw [if_pos (Or.inl rfl)]
        omega
      rw [roomStep_skip keys (cur, ch) 0 hskip0]
      refine ⟨cur, ch, rfl, regionsView_congr base cur _ _ hRi ?_⟩
      intro j hj
      unfold regF
      by_cases hj0 : j = 0
      · rw [if_pos (Or.inl hj0), if_pos (Or.inl hj0)]
      · rw [if_neg (by rintro (h | h) <;> omega),
          if_neg (by rintro (h | h) <;> omega)]
    · rw [roomStep_resolve keys base cur ch i hI hC hD hT hRi hipos
        (by omega)]
      refine ⟨_, true, rfl, regionsView_congr base _ _ _
        (regionsView_update base cur _ hRi i (by omega)
          (treeCost keys base i : Int)) ?_⟩
      intro j hj
      by_cases hji : j = i
      · subst hji
        rw [if_pos rfl]
        unfold regF
        rw [if_pos (Or.inr (Nat.lt_succ_self j))]
      · rw [if_neg hji]
        unfold regF
        by_cases hcond : j = 0 ∨ j < i
        · have hcond' : j = 0 ∨ j < i + 1 := by
            rcases hcond with h | h
            · exact Or.inl h
            · exact Or.inr (by omega)
          rw [if_pos hcond, if_pos hcond']
        · have hcond' : ¬(j = 0 ∨ j < i + 1) := by
            rintro (h | h)
            · exact hcond (Or.inl h)
            · exact hcond (Or.inr (by omega))
          rw [if_neg hcond, if_neg hcond']

theorem regionPass_fixed (keys : List DungeonKey) (cur : List DungeonRoom)
    (h : ∀ i, i < cur.length → (roomAt cur i).region > -1) :
    regionPass keys cur = (cur, false) := by
  unfold regionPass
  have haux : ∀ (L : List Nat), (∀ k ∈ L, k < cur.length) →
      L.foldl (fun a i => regionRoomStep keys a i) (cur, false) =
        (cur, false) := by
    intro L
    induction L with
    | nil => intro _; rfl
    | cons k t ihL =>
      intro hmem
      rw [List.foldl_cons,
        roomStep_skip keys (cur, false) k (h k (hmem k (by simp)))]
      exact ihL (fun x hx => hmem x (by simp [hx]))
  exact haux _ (fun k hk => List.mem_range.mp hk)

theorem regionIter_resolved (keys : List DungeonKey) :
    ∀ (fuel : Nat) (cur : List DungeonRoom), 1 ≤ fuel →
    (∀ i, i < cur.length → (roomAt cur i).region > -1) →
    regionIter keys fuel cur = cur := by
  intro fuel cur hfuel h
  match fuel, hfuel with
  | f + 1, _ =>
    unfold regionIter
    rw [regionPass_fixed keys cur h]
    rfl

theorem regionIter_computes (keys : List DungeonKey)
    (base cur₀ : List DungeonRoom)
    (hI : IndexOk base) (hC : CoordsOk base) (hD : DoorsOk base)
    (hT : TreeOk base)
    (hR₀ : RegionsView base cur₀ (regF keys base 0))
    (hblen : 1 ≤ base.length) :
    RegionsView base (regionIter keys (cur₀.length + 1) cur₀)
      (regF keys base base.length) := by
  obtain ⟨curL, chL, hfold, hRL⟩ :=
    pass1_aux keys base cur₀ hI hC hD hT hR₀ base.length (le_refl _)
  have hpass : regionPass keys cur₀ = (curL, chL) := by
    unfold regionPass
    rw [hR₀.1]
    exact hfold
  have hresolved : ∀ i, i < curL.length → (roomAt curL i).region > -1 := by
    intro i hi
    rw [hRL.1] at hi
    rw [regionsView_region base curL _ hRL i hi]
    unfold regF
    rw [if_pos (Or.inr hi)]
    omega
  have hlen0 : cur₀.length = base.length := hR₀.1
  rw [hlen0]
  match hb : base.length, hblen with
  | L + 1, _ =>
    rw [hb] at hRL
    unfold regionIter
    rw [hpass]
    rcases chL with _ | _
    · simpa using hRL
    · simp only [if_true]
      rw [regionIter_resolved keys (L + 1) curL (by omega) hresolved]
      exact hRL

theorem roomAt_map (l : List DungeonRoom) (f : DungeonRoom → DungeonRoom)
    (i : Nat) (h : i < l.length) :
    roomAt (l.map f) i = f (roomAt l i) := by
  rw [roomAt_eq_get (l.map f) i (by simpa using h), roomAt_eq_get l i h]
  simp

theorem regions_process (d1 : Dungeon) (suffix : List Nat)
    (hmp : d1.mainPath.rooms = 0 :: suffix)
    (hI : IndexOk d1.rooms) (hC : CoordsOk d1.rooms)
    (hD : DoorsOk d1.rooms) (hT : TreeOk d1.rooms)
    (hlen : 1 ≤ d1.rooms.length) :
    ∃ d2, AssignRegionsLayer.process_dungeon d1 = .ok d2 ∧
      d2.keys = d1.keys ∧ d2.mainPath = d1.mainPath ∧
      RegionsView d1.rooms d2.rooms
        (regF d1.keys d1.rooms d1.rooms.length) := by
  have hR₀ : RegionsView d1.rooms
      (listModify (d1.rooms.map (fun r => { r with region := -1 })) 0
        (fun r => { r with region := 0 }))
      (regF d1.keys d1.rooms 0) := by
    refine ⟨by simp [listModify_length], fun j hj => ?_⟩
    by_cases hj0 : j = 0
    · subst hj0
      rw [roomAt_listModify_eq _ _ _ (by simpa using hj),
        roomAt_map _ _ 0 (by omega)]
      unfold regF
      rw [if_pos (Or.inl rfl), treeCost_entrance]
      simp
    · rw [roomAt_listModify_ne _ _ _ _ hj0, roomAt_map _ _ j hj]
      unfold regF
      rw [if_neg (by rintro (h | h) <;> omega)]
  have hiter := regionIter_computes d1.keys d1.rooms
    (listModify (d1.rooms.map (fun r => { r with region := -1 })) 0
      (fun r => { r with region := 0 }))
    hI hC hD hT hR₀ hlen
  unfold AssignRegionsLayer.process_dungeon
  rw [hmp]
  exact ⟨_, rfl, rfl, rfl, hiter⟩


/-- C2: after `AssignRegionsLayer.process_dungeon` runs on a dungeon
generated by `BranchingPathLayer.process_dungeon`, the relaxation
reaches its fixed point (the follow-up pass changes nothing), the
entrance room has region `0`, and every room's region is a non-negative
integer whose value is the least number of locked doors (crossed from
the lock side) over all open-door walks from the entrance to that
room. -/
theorem C2_regions_are_min_lock_distance (cfg : BPLayer) (attempts : Nat)
    (t : Oracle) (d1 : Dungeon) (t' : Oracle)
    (hbp : BPLayer.process_dungeon cfg attempts Dungeon.empty t =
      .ok (d1, t')) :
    ∃ d2, AssignRegionsLayer.process_dungeon d1 = .ok d2 ∧
      (roomAt d2.rooms 0).region = 0 ∧
      (∀ i, i < d2.rooms.length →
        0 ≤ (roomAt d2.rooms i).region ∧
        IsLeast (walkCostSet d2.keys d2.rooms i)
          ((roomAt d2.rooms i).region).toNat) ∧
      regionPass d2.keys d2.rooms = (d2.rooms, false) := by
  obtain ⟨hInv, hlen, suffix, hmp⟩ :=
    bpl_process_inv cfg attempts t d1 t' hbp
  obtain ⟨hI, hC, hD, hT, hK, hM⟩ := hInv
  obtain ⟨d2, hok, hkeys, hmp2, hRV⟩ :=
    regions_process d1 suffix hmp hI hC hD hT hlen
  have hL2 : d2.rooms.length = d1.rooms.length := hRV.1
  have hreg : ∀ i, i < d1.rooms.length → (roomAt d2.rooms i).region =
      ((treeCost d1.keys d1.rooms i : Nat) : Int) := by
    intro i hi
    rw [regionsView_region d1.rooms d2.rooms _ hRV i hi]
    unfold regF
    rw [if_pos (Or.inr hi)]
  have hSS := regionsView_sameShape d1.rooms d2.rooms _ hRV
  refine ⟨d2, hok, ?_, ?_, ?_⟩
  · rw [hreg 0 (by omega), treeCost_entrance]
    rfl
  · intro i hi
    rw [hL2] at hi
    rw [hreg i hi]
    refine ⟨Int.natCast_nonneg _, ?_⟩
    rw [Int.toNat_natCast, hkeys,
      walkCostSet_sameShape d1.keys d1.rooms d2.rooms hSS i]
    exact treeCost_isLeast d1.keys d1.rooms hI hC hD hT i hi
  · apply regionPass_fixed
    intro i hi
    rw [hL2] at hi
    rw [hreg i hi]
    omega

theorem C2_min_walk_witness :
    ∃ d2, AssignRegionsLayer.process_dungeon bp45Dungeon = .ok d2 ∧
      (roomAt d2.rooms 0).region = 0 ∧
      (∀ i, i < d2.rooms.length →
        0 ≤ (roomAt d2.rooms i).region ∧
        IsLeast (walkCostSet d2.keys d2.rooms i)
          ((roomAt d2.rooms i).region).toNat) ∧
      regionPass d2.keys d2.rooms = (d2.rooms, false) :=
  C2_regions_are_min_lock_distance bpCfg45 genAttempts
    [0, 0, 0, 0, 0, 0, 0, 0] bp45Dungeon bp45Tail
    (by with_unfolding_all rfl)

/-- C10: after the path layer and the regions layer, region values are
non-decreasing in room index (creation order), and the final room of
`dungeon.rooms` carries the maximum region. -/
theorem C10_regions_nondecreasing_last_max (cfg : BPLayer)
    (attempts : Nat) (t : Oracle) (d1 : Dungeon) (t' : Oracle)
    (hbp : BPLayer.process_dungeon cfg attempts Dungeon.empty t =
      .ok (d1, t')) :
    ∃ d2, AssignRegionsLayer.process_dungeon d1 = .ok d2 ∧
      (∀ i j, i ≤ j → j < d2.rooms.length →
        (roomAt d2.rooms i).region ≤ (roomAt d2.rooms j).region) ∧
      (∀ i, i < d2.rooms.length →
        (roomAt d2.rooms i).region ≤
          (roomAt d2.rooms (d2.rooms.length - 1)).region) := by
  obtain ⟨hInv, hlen, suffix, hmp⟩ :=
    bpl_process_inv cfg attempts t d1 t' hbp
  obtain ⟨hI, hC, hD, hT, hK, hM⟩ := hInv
  obtain ⟨d2, hok, hkeys, hmp2, hRV⟩ :=
    regions_process d1 suffix hmp hI hC hD hT hlen
  have hL2 : d2.rooms.length = d1.rooms.length := hRV.1
  have hreg : ∀ i, i < d1.rooms.length → (roomAt d2.rooms i).region =
      ((treeCost d1.keys d1.rooms i : Nat) : Int) := by
    intro i hi
    rw [regionsView_region d1.rooms d2.rooms _ hRV i hi]
    unfold regF
    rw [if_pos (Or.inr hi)]
  have hmono : ∀ i j, i ≤ j → j < d2.rooms.length →
      (roomAt d2.rooms i).region ≤ (roomAt d2.rooms j).region := by
    intro i j hij hj
    rw [hL2] at hj
    rw [hreg i (by omega), hreg j hj]
    have := hM i j hij hj
    exact_mod_cast this
  refine ⟨d2, hok, hmono, ?_⟩
  intro i hi
  exact hmono i (d2.rooms.length - 1) (by omega) (by omega)

theorem C10_witness :
    ∃ d2, AssignRegionsLayer.process_dungeon bp45Dungeon = .ok d2 ∧
      (∀ i j, i ≤ j → j < d2.rooms.length →
        (roomAt d2.rooms i).region ≤ (roomAt d2.rooms j).region) ∧
      (∀ i, i < d2.rooms.length →
        (roomAt d2.rooms i).region ≤
          (roomAt d2.rooms (d2.rooms.length - 1)).region) :=
  C10_regions_nondecreasing_last_max bpCfg45 genAttempts
    [0, 0, 0, 0, 0, 0, 0, 0] bp45Dungeon bp45Tail
    (by with_unfolding_all rfl)

/-! Phase 5: the later layers only touch non-geometric fields. -/

theorem shapeEqR_refl (a : DungeonRoom) : shapeEqR a a :=
  ⟨rfl, rfl, rfl, rfl⟩

theorem sameShape_listModify (l : List DungeonRoom) (i : Nat)
    (f : DungeonRoom → DungeonRoom) (hf : ∀ r, shapeEqR (f r) r) :
    SameShape l (listModify l i f) := by
  refine ⟨by rw [listModify_length], fun j hj => ?_⟩
  by_cases hji : j = i
  · subst hji
    by_cases hjl : j < l.length
    · rw [roomAt_listModify_eq l j f hjl]
      exact hf (roomAt l j)
    · omega
  · rw [roomAt_listModify_ne l i j f hji]
    exact shapeEqR_refl _

theorem nearStep_shape (keys : List DungeonKey)
    (acc : List DungeonRoom × Bool) (i : Nat) (nr : Int × Int × Nat) :
    SameShape acc.1 (regionNearStep keys acc i nr).1 := by
  rcases hdoor : (roomAt acc.1 i).door nr.2.2 with _ | _
  · rw [nearStep_skip_door keys acc i nr hdoor]
    exact sameShape_refl _
  · rcases hg : getRoomAt acc.1 nr.1 nr.2.1 with _ | n
    · rw [nearStep_skip_empty keys acc i nr hg]
      exact sameShape_refl _
    · by_cases hreg : n.region = -1
      · rw [nearStep_skip_unresolved keys acc i nr n hg hreg]
        exact sameShape_refl _
      · unfold regionNearStep
        dsimp only
        rw [roomAt_def, hdoor, hg]
        simp only [Bool.not_true, Bool.false_eq_true, if_false]
        try dsimp only
        rw [if_neg hreg]
        rcases hlk : keys.any (fun k => k.lockLocation = n.index &&
            k.lockedDoor = (nr.2.2 + 2) % 4) with _ | _
        · simp only [Bool.false_eq_true, if_false]
          try dsimp only
          split_ifs with h3
          · exact sameShape_listModify acc.1 i
              (fun r => { r with region := n.region })
              (fun r => ⟨rfl, rfl, rfl, rfl⟩)
          · exact sameShape_refl _
        · simp only [if_true]
          try dsimp only
          split_ifs with h3
          · exact sameShape_trans _ _ _
              (sameShape_listModify acc.1 i
                (fun r => { r with region := n.region + 1 })
                (fun r => ⟨rfl, rfl, rfl, rfl⟩))
              (sameShape_listModify _ i
                (fun r => { r with region := n.region })
                (fun r => ⟨rfl, rfl, rfl, rfl⟩))
          · exact sameShape_listModify acc.1 i
              (fun r => { r with region := n.region + 1 })
              (fun r => ⟨rfl, rfl, rfl, rfl⟩)

theorem roomStep_shape (keys : List DungeonKey)
    (acc : List DungeonRoom × Bool) (i : Nat) :
    SameShape acc.1 (regionRoomStep keys acc i).1 := by
  unfold regionRoomStep
  dsimp only
  split_ifs with h1
  · exact sameShape_refl _
  · have haux : ∀ (L : List (Int × Int × Nat))
        (a : List DungeonRoom × Bool), SameShape a.1
        (L.foldl (fun a nr => regionNearStep keys a i nr) a).1 := by
      intro L
      induction L with
      | nil => intro a; exact sameShape_refl _
      | cons nr t ihL =>
        intro a
        rw [List.foldl_cons]
        exact sameShape_trans _ _ _ (nearStep_shape keys a i nr)
          (ihL (regionNearStep keys a i nr))
    exact haux _ acc

theorem regionPass_shape (keys : List DungeonKey)
    (rooms : List DungeonRoom) :
    SameShape rooms (regionPass keys rooms).1 := by
  unfold regionPass
  have haux : ∀ (L : List Nat) (a : List DungeonRoom × Bool),
      SameShape a.1 (L.foldl (fun a i => regionRoomStep keys a i) a).1 := by
    intro L
    induction L with
    | nil => intro a; exact sameShape_refl _
    | cons k t ihL =>
      intro a
      rw [List.foldl_cons]
      exact sameShape_trans _ _ _ (roomStep_shape keys a k)
        (ihL (regionRoomStep keys a k))
  exact haux _ (rooms, false)

theorem regionIter_shape (keys : List DungeonKey) :
    ∀ (fuel : Nat) (rooms : List DungeonRoom),
    SameShape rooms (regionIter keys fuel rooms) := by
  intro fuel
  induction fuel with
  | zero => intro rooms; exact sameShape_refl _
  | succ f ih =>
    intro rooms
    unfold regionIter
    rcases hp : regionPass keys rooms with ⟨rooms2, ch⟩
    have hs : SameShape rooms rooms2 := by
      have := regionPass_shape keys rooms
      rw [hp] at this
      exact this
    rcases ch with _ | _
    · simpa using hs
    · simp only [if_true]
      exact sameShape_trans _ _ _ hs (ih rooms2)

theorem regions_layer_shape (d : Dungeon) (d2 : Dungeon)
    (h : AssignRegionsLayer.process_dungeon d = .ok d2) :
    SameShape d.rooms d2.rooms ∧ d2.keys = d.keys ∧
      d2.mainPath = d.mainPath := by
  unfold AssignRegionsLayer.process_dungeon at h
  split at h
  · exact Except.noConfusion h
  · next i0 rest heq =>
    have hd2 := (Except.ok.injEq _ _).mp h
    subst hd2
    refine ⟨?_, rfl, rfl⟩
    refine sameShape_trans _ _ _ ?_ (regionIter_shape d.keys _ _)
    refine sameShape_trans _ _ _ ?_
      (sameShape_listModify _ i0 (fun r => { r with region := 0 })
        (fun r => ⟨rfl, rfl, rfl, rfl⟩))
    refine ⟨by simp, fun i hi => ?_⟩
    rw [roomAt_map _ _ i hi]
    exact ⟨rfl, rfl, rfl, rfl⟩

theorem shapeEqR_trans (a b c : DungeonRoom) (h1 : shapeEqR a b)
    (h2 : shapeEqR b c) : shapeEqR a c :=
  ⟨h1.1.trans h2.1, h1.2.1.trans h2.2.1, h1.2.2.1.trans h2.2.2.1,
    h1.2.2.2.trans h2.2.2.2⟩

theorem sameShape_set (l : List DungeonRoom) (i : Nat)
    (room' : DungeonRoom) (h : shapeEqR room' (roomAt l i)) :
    SameShape l (listModify l i (fun _ => room')) := by
  refine ⟨by rw [listModify_length], fun j hj => ?_⟩
  by_cases hji : j = i
  · subst hji
    rw [roomAt_listModify_eq l j _ hj]
    exact h
  · rw [roomAt_listModify_ne l i j _ hji]
    exact shapeEqR_refl _

theorem foldlM_shape_gen {α : Type} (proj : α → List DungeonRoom)
    (f : α → DungeonRoom → Except Err α)
    (hf : ∀ a room out, f a room = .ok out →
      ∃ r', proj out = proj a ++ [r'] ∧ shapeEqR r' room) :
    ∀ (rs : List DungeonRoom) (acc out : α),
    rs.foldlM f acc = .ok out →
    ∃ ext, proj out = proj acc ++ ext ∧ ext.length = rs.length ∧
      ∀ i, i < rs.length → shapeEqR (roomAt ext i) (roomAt rs i) := by
  intro rs
  induction rs with
  | nil =>
    intro acc out h
    simp only [List.foldlM_nil] at h
    have : acc = out := by
      have := (Except.ok.injEq _ _).mp h.symm
      exact this.symm
    subst this
    exact ⟨[], by simp, rfl, fun i hi => by simp at hi⟩
  | cons r rs' ih =>
    intro acc out h
    rw [List.foldlM_cons] at h
    rcases hstep : f acc r with e | a'
    · rw [hstep] at h
      exact Except.noConfusion h
    · rw [hstep] at h
      obtain ⟨r', hr', hsh⟩ := hf acc r a' hstep
      obtain ⟨ext', hext', hlen', hpt'⟩ := ih a' out h
      refine ⟨r' :: ext', ?_, by simp [hlen'], ?_⟩
      · rw [hext', hr']
        simp
      · intro i hi
        rcases i with _ | i'
        · exact hsh
        · have : roomAt (r' :: ext') (i' + 1) = roomAt ext' i' := by
            unfold roomAt
            rw [List.getD_cons_succ]
          rw [this]
          have : roomAt (r :: rs') (i' + 1) = roomAt rs' i' := by
            unfold roomAt
            rw [List.getD_cons_succ]
          rw [this]
          exact hpt' i' (by simpa using hi)

theorem foldlM_modify_shape {α : Type} (proj : α → List DungeonRoom)
    (f : α → Nat → Except Err α)
    (hf : ∀ a k out, f a k = .ok out → SameShape (proj a) (proj out)) :
    ∀ (L : List Nat) (acc out : α), L.foldlM f acc = .ok out →
    SameShape (proj acc) (proj out) := by
  intro L
  induction L with
  | nil =>
    intro acc out h
    simp only [List.foldlM_nil] at h
    have : acc = out := by
      have := (Except.ok.injEq _ _).mp h.symm
      exact this.symm
    subst this
    exact sameShape_refl _
  | cons k t ih =>
    intro acc out h
    rw [List.foldlM_cons] at h
    rcases hstep : f acc k with e | a'
    · rw [hstep] at h
      exact Except.noConfusion h
    · rw [hstep] at h
      exact sameShape_trans _ _ _ (hf acc k a' hstep) (ih a' out h)

theorem except_bind_ok {α β : Type} (x : Except Err α)
    (g : α → Except Err β) (out : β) (h : x >>= g = .ok out) :
    ∃ a, x = .ok a ∧ g a = .ok out := by
  rcases x with e | a
  · rw [show (Except.error e >>= g : Except Err β) = Except.error e
      from rfl] at h
    exact Except.noConfusion h
  · rw [show (Except.ok a >>= g : Except Err β) = g a from rfl] at h
    exact ⟨a, rfl, h⟩

theorem adFirstPass_shape (rooms : List DungeonRoom) (rv : List ℚ)
    (out : ℚ × List ℚ × List DungeonRoom)
    (h : adFirstPass rooms rv = .ok out) : SameShape rooms out.2.2 := by
  unfold adFirstPass at h
  obtain ⟨r, hfold, hcont⟩ := except_bind_ok _ _ _ h
  have hstep : ∀ (a : ℚ × Int × List ℚ × List DungeonRoom)
      (room : DungeonRoom) (o : ℚ × Int × List ℚ × List DungeonRoom),
      (do
        let (diff, currentRegion, regionValues, done) := a
        let (currentRegion, regionValues) ←
          if room.region ≠ currentRegion then do
            let rv ← pyListSet regionValues room.region diff
            pure (room.region, rv)
          else pure (currentRegion, regionValues)
        pure (diff + 1, currentRegion, regionValues,
          done ++ [{ room with difficulty := diff }])
        : Except Err (ℚ × Int × List ℚ × List DungeonRoom)) = .ok o →
      ∃ r', o.2.2.2 = a.2.2.2 ++ [r'] ∧ shapeEqR r' room := by
    intro a room o hs
    obtain ⟨diff, creg, rv2, done⟩ := a
    refine ⟨{ room with difficulty := diff }, ?_, ⟨rfl, rfl, rfl, rfl⟩⟩
    dsimp only at hs
    split at hs
    · obtain ⟨rvx, hset, hs2⟩ := except_bind_ok _ _ _ hs
      have ho := (Except.ok.injEq _ _).mp hs2
      rw [← ho]
    · have ho := (Except.ok.injEq _ _).mp hs
      rw [← ho]
  obtain ⟨ext, hext, hlen, hpt⟩ := foldlM_shape_gen
    (fun (a : ℚ × Int × List ℚ × List DungeonRoom) => a.2.2.2) _ hstep
    rooms ((0 : ℚ), (0 : Int), rv, ([] : List DungeonRoom)) r hfold
  obtain ⟨diff, creg, rv2, done⟩ := r
  obtain ⟨rv3, hset, hpure⟩ := except_bind_ok _ _ _ hcont
  have ho := (Except.ok.injEq _ _).mp hpure
  have hout : out.2.2 = done := by rw [← ho]
  rw [hout]
  have hdone : done = ext := by simpa using hext
  rw [hdone]
  refine ⟨hlen, fun i hi => ?_⟩
  exact hpt i hi

theorem adSecondPass_shape (cfg : ADLayer) (diff : ℚ)
    (rv : List ℚ) (rooms : List DungeonRoom) (t : Oracle)
    (out : List DungeonRoom × Oracle)
    (h : adSecondPass cfg diff rv rooms t = .ok out) :
    SameShape rooms out.1 := by
  unfold adSecondPass at h
  have hstep : ∀ (a : List DungeonRoom × Oracle) (room : DungeonRoom)
      (o : List DungeonRoom × Oracle),
      (do
        let (done, t) := a
        let x1 ← pyListGet rv room.region
        let x2 ← pyListGet rv (room.region + 1)
        let n := room.difficulty
        if x2 - x1 = 0 then throw .zeroDivisionError
        else
          let d := ((n - x1) / (x2 - x1)) ^ 2 * (x2 - cfg.dropoff * x1)
            + cfg.dropoff * x1
          if diff = 0 then throw .zeroDivisionError
          else
            let d := d / diff * (1 - cfg.startingPoints) +
              cfg.startingPoints
            let (r, t) := randFloat t
            let d := d + r * 2 * cfg.noise - cfg.noise
            let d := max 0 (min 1 d)
            pure (done ++ [{ room with difficulty := d }], t)
        : Except Err (List DungeonRoom × Oracle)) = .ok o →
      ∃ r', o.1 = a.1 ++ [r'] ∧ shapeEqR r' room := by
    intro a room o hs
    obtain ⟨done, t0⟩ := a
    obtain ⟨x1, h1, hrest⟩ := except_bind_ok _ _ _ hs
    obtain ⟨x2, h2, hrest2⟩ := except_bind_ok _ _ _ hrest
    split at hrest2
    · exact Except.noConfusion hrest2
    · split at hrest2
      · exact Except.noConfusion hrest2
      · have ho := (Except.ok.injEq _ _).mp hrest2
        obtain ⟨o1, o2⟩ := o
        have ho1 : _ = o1 := congrArg Prod.fst ho
        exact ⟨_, ho1.symm, ⟨rfl, rfl, rfl, rfl⟩⟩
  exact (foldlM_shape_gen (fun (a : List DungeonRoom × Oracle) => a.1) _
    hstep rooms (([] : List DungeonRoom), t) out h).elim
    (fun ext ⟨hext, hlen, hpt⟩ => by
      rw [hext]
      exact ⟨by simpa using hlen, fun i hi => by
        have : roomAt ([] ++ ext) i = roomAt ext i := by simp
        rw [this]
        exact hpt i hi⟩)

theorem adLayer_shape (cfg : ADLayer) (d : Dungeon) (t : Oracle)
    (d2 : Dungeon) (t2 : Oracle)
    (h : ADLayer.process_dungeon cfg d t = .ok (d2, t2)) :
    SameShape d.rooms d2.rooms ∧ d2.keys = d.keys ∧
      d2.mainPath = d.mainPath := by
  unfold ADLayer.process_dungeon at h
  obtain ⟨r1, hfp, hrest⟩ := except_bind_ok _ _ _ h
  obtain ⟨diffv, rvv, roomsv⟩ := r1
  obtain ⟨r2, hsp, hpure⟩ := except_bind_ok _ _ _ hrest
  obtain ⟨rooms2, t3⟩ := r2
  have ho := (Except.ok.injEq _ _).mp hpure
  have hd2 : d2 = { d with rooms := rooms2 } := by
    have := congrArg Prod.fst ho
    simpa using this.symm
  subst hd2
  have hs1 := adFirstPass_shape d.rooms _ _ hfp
  have hs2 := adSecondPass_shape cfg diffv rvv roomsv _ _ hsp
  exact ⟨sameShape_trans _ _ _ hs1 hs2, rfl, rfl⟩

theorem roomTypes_shape (types : List RoomType) (d : Dungeon) (t : Oracle)
    (d2 : Dungeon) (t2 : Oracle)
    (h : AssignRoomTypes.process_dungeon types d t = .ok (d2, t2)) :
    SameShape d.rooms d2.rooms ∧ d2.keys = d.keys ∧
      d2.mainPath = d.mainPath := by
  unfold AssignRoomTypes.process_dungeon at h
  split at h
  · exact Except.noConfusion h
  · next i0 rest heq =>
    obtain ⟨⟨et, t1⟩, hrr1, h⟩ := except_bind_ok _ _ _ h
    obtain ⟨⟨xt, t1b⟩, hrr2, h⟩ := except_bind_ok _ _ _ h
    obtain ⟨racc, hfoldM, h⟩ := except_bind_ok _ _ _ h
    have ho := (Except.ok.injEq _ _).mp h
    have hd2 : d2 = { d with rooms := racc.1 } := by
      have := congrArg Prod.fst ho
      simpa using this.symm
    subst hd2
    have hstep : ∀ (a : List DungeonRoom × Oracle) (k : Nat)
        (o : List DungeonRoom × Oracle),
        (do
          let (rooms, t) := a
          let room := rooms.getD k DungeonRoom.new
          if room.rtype.isSome then pure (rooms, t)
          else
            match random_room types (fun x => !x.isEntrance && !x.isExit
                && x.difficulty ≤ room.difficulty) t with
            | .ok (rt, t) =>
              pure (listModify rooms k (fun r => { r with rtype := some rt }),
                t)
            | .error .generatorError => do
              let rt ← fallbackRoom types
              pure (listModify rooms k (fun r => { r with rtype := some rt }),
                t)
            | .error e => .error e
          : Except Err (List DungeonRoom × Oracle)) = .ok o →
        SameShape a.1 o.1 := by
      intro a k o hso
      obtain ⟨rooms0, t0⟩ := a
      dsimp only at hso
      split at hso
      · have ho2 := (Except.ok.injEq _ _).mp hso
        rw [← ho2]
        exact sameShape_refl _
      · split at hso
        · have ho2 := (Except.ok.injEq _ _).mp hso
          rw [← ho2]
          exact sameShape_listModify _ _ _ (fun r => ⟨rfl, rfl, rfl, rfl⟩)
        · obtain ⟨rt, hfb, hso2⟩ := except_bind_ok _ _ _ hso
          have ho2 := (Except.ok.injEq _ _).mp hso2
          rw [← ho2]
          exact sameShape_listModify _ _ _ (fun r => ⟨rfl, rfl, rfl, rfl⟩)
        · exact Except.noConfusion hso
    have hfold := foldlM_modify_shape
      (fun (a : List DungeonRoom × Oracle) => a.1) _ hstep _ _ _ hfoldM
    refine ⟨?_, rfl, rfl⟩
    refine sameShape_trans _ _ _ ?_ hfold
    refine sameShape_trans _ _ _
      (sameShape_listModify d.rooms i0
        (fun r => { r with rtype := some et })
        (fun r => ⟨rfl, rfl, rfl, rfl⟩)) ?_
    exact sameShape_listModify _ ((d.mainPath.rooms).getLastD 0)
      (fun r => { r with rtype := some xt })
      (fun r => ⟨rfl, rfl, rfl, rfl⟩)

theorem enemiesRoomLoop_shape (es : List EnemyType) (d : Dungeon) :
    ∀ (fuel i : Nat) (room : DungeonRoom) (diff : ℚ) (t : Oracle),
    shapeEqR (enemiesRoomLoop es d fuel i room diff t).1 room := by
  intro fuel
  induction fuel with
  | zero => intro i room diff t; exact shapeEqR_refl _
  | succ f ih =>
    intro i room diff t
    unfold enemiesRoomLoop
    split_ifs with h1
    · rcases hre : random_enemy es (fun x => x.difficulty ≤ diff
          && room.has_room_for x
          && (!x.endOfRegion || d.is_end_of_region i)
          && meets_enemy_requirements x room
          && meets_room_type_requirements x room) t with e | p
      · exact shapeEqR_refl _
      · obtain ⟨enemy, t2⟩ := p
        exact shapeEqR_trans _ _ _
          (ih i { room with enemies := room.enemies ++ [enemy] }
            (diff - enemy.difficulty) t2)
          ⟨rfl, rfl, rfl, rfl⟩
    · exact shapeEqR_refl _

theorem foldl_modify_shape
    (g : (List DungeonRoom × Oracle) → Nat → (List DungeonRoom × Oracle))
    (hg : ∀ a i, SameShape a.1 (g a i).1) :
    ∀ (L : List Nat) (a : List DungeonRoom × Oracle),
    SameShape a.1 (L.foldl g a).1 := by
  intro L
  induction L with
  | nil => intro a; exact sameShape_refl _
  | cons k tl ihL =>
    intro a
    rw [List.foldl_cons]
    exact sameShape_trans _ _ _ (hg a k) (ihL _)

theorem enemies_shape (es : List EnemyType) (d : Dungeon) (t : Oracle)
    (d2 : Dungeon) (t2 : Oracle)
    (h : EnemiesLayer.process_dungeon es d t = .ok (d2, t2)) :
    SameShape d.rooms d2.rooms ∧ d2.keys = d.keys ∧
      d2.mainPath = d.mainPath := by
  unfold EnemiesLayer.process_dungeon at h
  dsimp only at h
  have ho := (Except.ok.injEq _ _).mp h
  have hd2 : _ = d2 := congrArg Prod.fst ho
  subst hd2
  refine ⟨?_, rfl, rfl⟩
  refine foldl_modify_shape _ ?_ _ _
  intro a i
  obtain ⟨rooms0, t0⟩ := a
  dsimp only
  rcases hrt : (rooms0.getD i DungeonRoom.new).rtype with _ | rt
  · exact sameShape_refl _
  · dsimp only
    split_ifs with h1
    · exact sameShape_refl _
    · exact sameShape_set rooms0 i _ (enemiesRoomLoop_shape es d _ i _ _ _)

theorem adFirstPass_eq (rooms : List DungeonRoom) (rv : List ℚ) :
    adFirstPass rooms rv = (do
      let r ← rooms.foldlM adFP1Step
        ((0 : ℚ), (0 : Int), rv, ([] : List DungeonRoom))
      let (diff, creg, regionValues, done) := r
      let _ := creg
      let diff := diff - 1
      let regionValues ← pyListSet regionValues (-1) diff
      pure (diff, regionValues, done)) := rfl

theorem adSecondPass_eq (cfg : ADLayer) (diff : ℚ) (rv : List ℚ)
    (rooms : List DungeonRoom) (t : Oracle) :
    adSecondPass cfg diff rv rooms t =
      rooms.foldlM (adFP2Step cfg diff rv) (([] : List DungeonRoom), t) :=
  rfl

theorem bind_ok_eq {α β : Type} (x : Except Err α) (a : α)
    (g : α → Except Err β) (h : x = .ok a) : (x >>= g) = g a := by
  rw [h]
  rfl

theorem randFloat_bounds (t : Oracle) :
    0 ≤ (randFloat t).1 ∧ (randFloat t).1 < 1 := by
  unfold randFloat
  rcases h1 : takeNat t with ⟨a, t1⟩
  rcases h2 : takeNat t1 with ⟨b, t2⟩
  dsimp only
  constructor
  · positivity
  · rw [div_lt_one (by positivity)]
    have hb : (0 : ℚ) ≤ (b : ℚ) := Nat.cast_nonneg b
    linarith

theorem specDifficulty_nonneg (cfg : ADLayer) (diff x1 x2 n r : ℚ) :
    0 ≤ specDifficulty cfg diff x1 x2 n r :=
  le_max_left 0 _

theorem specDifficulty_le_one (cfg : ADLayer) (diff x1 x2 n r : ℚ) :
    specDifficulty cfg diff x1 x2 n r ≤ 1 :=
  max_le (by norm_num) (min_le_left 1 _)

theorem pyListGet_ok {α : Type} (l : List α) (i : ℤ) (d : α)
    (h0 : 0 ≤ i) (h1 : i.toNat < l.length) :
    pyListGet l i = .ok (l.getD i.toNat d) := by
  unfold pyListGet
  rw [if_pos ⟨h0, by omega⟩]
  rw [List.get?_eq_getElem?, List.getElem?_eq_getElem h1]
  rw [List.getD_eq_getElem l d h1]

theorem pyListSet_ok_pos {α : Type} (l : List α) (i : ℤ) (v : α)
    (h0 : 0 ≤ i) (h1 : i.toNat < l.length) :
    pyListSet l i v = .ok (listModify l i.toNat (fun _ => v)) := by
  unfold pyListSet
  rw [if_pos ⟨h0, by omega⟩]

theorem pyListSet_ok_neg1 {α : Type} (l : List α) (v : α)
    (h1 : 0 < l.length) :
    pyListSet l (-1) v =
      .ok (listModify l (l.length - 1) (fun _ => v)) := by
  unfold pyListSet
  rw [if_neg (by omega)]
  rw [if_pos (by constructor <;> omega)]
  norm_num

theorem getLast?_eq_roomAt (rooms : List DungeonRoom)
    (h : 0 < rooms.length) :
    rooms.getLast? = some (roomAt rooms (rooms.length - 1)) := by
  rw [List.getLast?_eq_getElem?,
    List.getElem?_eq_getElem (by omega : rooms.length - 1 < rooms.length)]
  rw [roomAt_eq_get rooms (rooms.length - 1) (by omega)]
  rfl

theorem adFP1Step_same (diff : ℚ) (curReg : Int) (rv : List ℚ)
    (done : List DungeonRoom) (room : DungeonRoom)
    (h : room.region = curReg) :
    adFP1Step (diff, curReg, rv, done) room =
      .ok (diff + 1, curReg, rv,
        done ++ [{ room with difficulty := diff }]) := by
  unfold adFP1Step
  dsimp only
  rw [if_neg (not_not_intro h)]
  rfl

theorem adFP1Step_write (diff : ℚ) (curReg : Int) (rv : List ℚ)
    (done : List DungeonRoom) (room : DungeonRoom) (rv2 : List ℚ)
    (h : ¬(room.region = curReg))
    (hset : pyListSet rv room.region diff = .ok rv2) :
    adFP1Step (diff, curReg, rv, done) room =
      .ok (diff + 1, room.region, rv2,
        done ++ [{ room with difficulty := diff }]) := by
  unfold adFP1Step
  dsimp only
  rw [if_pos h]
  rw [bind_ok_eq _ rv2 _ hset]
  rfl

theorem adFP2Step_run (cfg : ADLayer) (diff : ℚ) (rv : List ℚ)
    (done : List DungeonRoom) (t : Oracle) (room : DungeonRoom)
    (x1 x2 : ℚ) (rd : ℚ) (t2 : Oracle)
    (hx1 : pyListGet rv room.region = .ok x1)
    (hx2 : pyListGet rv (room.region + 1) = .ok x2)
    (hne : ¬(x2 - x1 = 0)) (hdiff : ¬(diff = 0))
    (hR : randFloat t = (rd, t2)) :
    adFP2Step cfg diff rv (done, t) room =
      .ok (done ++
        [{ room with
          difficulty := specDifficulty cfg diff x1 x2 room.difficulty rd }],
        t2) := by
  unfold adFP2Step
  dsimp only
  rw [bind_ok_eq _ x1 _ hx1]
  rw [bind_ok_eq _ x2 _ hx2]
  rw [if_neg hne]
  rw [if_neg hdiff]
  rw [hR]
  rfl

theorem ladder_nonneg (rooms : List DungeonRoom) (h : RegionLadder rooms)
    (i : Nat) (hi : i < rooms.length) : 0 ≤ (roomAt rooms i).region := by
  obtain ⟨h0, hz, hmono, hstep⟩ := h
  rw [← hz]
  exact hmono 0 i (Nat.zero_le i) hi

theorem ladder_le_last (rooms : List DungeonRoom) (h : RegionLadder rooms)
    (i : Nat) (hi : i < rooms.length) :
    (roomAt rooms i).region ≤ (roomAt rooms (rooms.length - 1)).region :=
  h.2.2.1 i (rooms.length - 1) (by omega) (by omega)

theorem ladder_surj (rooms : List DungeonRoom) (h : RegionLadder rooms)
    (r : ℤ) (h0 : 0 ≤ r)
    (hr : r ≤ (roomAt rooms (rooms.length - 1)).region) :
    ∃ i, i < rooms.length ∧ (roomAt rooms i).region = r := by
  obtain ⟨hlen, hz, hmono, hstep⟩ := h
  by_cases hr0 : r = 0
  · subst hr0
    exact ⟨0, hlen, hz⟩
  · have hP : ∃ n, r ≤ (roomAt rooms n).region :=
      ⟨rooms.length - 1, hr⟩
    have hi0 := Nat.find_spec hP
    have hle : Nat.find hP ≤ rooms.length - 1 := Nat.find_min' hP hr
    have hne0 : Nat.find hP ≠ 0 := by
      intro hcontra
      rw [hcontra] at hi0
      rw [hz] at hi0
      omega
    have hprev : ¬ r ≤ (roomAt rooms (Nat.find hP - 1)).region :=
      Nat.find_min hP (by omega)
    have hup := hstep (Nat.find hP - 1) (by omega)
    rw [show Nat.find hP - 1 + 1 = Nat.find hP by omega] at hup
    exact ⟨Nat.find hP, by omega, by omega⟩

theorem specRegionStart_spec (rooms : List DungeonRoom) (r : ℤ)
    (hex : ∃ i, i < rooms.length ∧ (roomAt rooms i).region = r) :
    specRegionStart rooms r < rooms.length ∧
    (roomAt rooms (specRegionStart rooms r)).region = r ∧
    (∀ j, j < specRegionStart rooms r → j < rooms.length →
      (roomAt rooms j).region ≠ r) := by
  obtain ⟨i, hi, hr⟩ := hex
  unfold specRegionStart
  have hlt : List.findIdx (fun room => room.region = r) rooms <
      rooms.length := by
    apply List.findIdx_lt_length_of_exists
    refine ⟨rooms.get ⟨i, hi⟩, List.get_mem rooms i hi, ?_⟩
    have hv : (rooms.get ⟨i, hi⟩).region = r := by
      rw [← roomAt_eq_get rooms i hi]
      exact hr
    exact decide_eq_true hv
  refine ⟨hlt, ?_, ?_⟩
  · have h2 := @List.findIdx_getElem _ (fun room => room.region = r)
      rooms hlt
    have h3 := of_decide_eq_true h2
    rw [roomAt_eq_get rooms _ hlt]
    exact h3
  · intro j hj hjlen
    have h5 := List.not_of_lt_findIdx hj
    intro hc
    rw [roomAt_eq_get rooms j hjlen] at hc
    have h6 : decide (rooms[j].region = r) = true := decide_eq_true hc
    rw [h5] at h6
    exact Bool.false_ne_true h6

theorem specRegionStart_lt (rooms : List DungeonRoom)
    (h : RegionLadder rooms) (r1 r2 : ℤ)
    (hx1 : ∃ i, i < rooms.length ∧ (roomAt rooms i).region = r1)
    (hx2 : ∃ i, i < rooms.length ∧ (roomAt rooms i).region = r2)
    (hlt : r1 < r2) :
    specRegionStart rooms r1 < specRegionStart rooms r2 := by
  obtain ⟨hl1, hv1, hm1⟩ := specRegionStart_spec rooms r1 hx1
  obtain ⟨hl2, hv2, hm2⟩ := specRegionStart_spec rooms r2 hx2
  by_contra hcontra
  have hle : specRegionStart rooms r2 ≤ specRegionStart rooms r1 := by
    omega
  have := h.2.2.1 (specRegionStart rooms r2) (specRegionStart rooms r1)
    hle hl1
  rw [hv1, hv2] at this
  omega

theorem treeCost_step (keys : List DungeonKey) (rooms : List DungeonRoom)
    (hT : TreeOk rooms)
    (hM : ∀ a b, a ≤ b → b < rooms.length →
      treeCost keys rooms a ≤ treeCost keys rooms b)
    (i : Nat) (hi : i + 1 < rooms.length) :
    treeCost keys rooms (i + 1) ≤ treeCost keys rooms i + 1 := by
  obtain ⟨p, dd, hp⟩ :=
    parentD_some_of_ne rooms hT (i + 1) hi (Nat.succ_ne_zero i)
  have hplt := (parentD_lt rooms (i + 1) p dd hp).1
  rw [treeCost_parent keys rooms (i + 1) p dd hp]
  have h1 := hM p i (by omega) (by omega)
  have h2 : lockBit keys p ((dd + 2) % 4) ≤ 1 := by
    unfold lockBit
    split <;> omega
  omega

theorem foldlM_append_run
    (f : List DungeonRoom × Oracle → DungeonRoom →
      Except Err (List DungeonRoom × Oracle))
    (P : DungeonRoom → DungeonRoom → Prop) :
    ∀ (rs : List DungeonRoom),
    (∀ room, room ∈ rs → ∀ (done : List DungeonRoom) (t : Oracle),
      ∃ r2 t2, f (done, t) room = .ok (done ++ [r2], t2) ∧ P room r2) →
    ∀ (done : List DungeonRoom) (t : Oracle),
    ∃ suf t2, rs.foldlM f (done, t) = .ok (done ++ suf, t2) ∧
      List.Forall₂ P rs suf := by
  intro rs
  induction rs with
  | nil =>
    intro hstep done t
    refine ⟨[], t, ?_, List.Forall₂.nil⟩
    rw [List.foldlM_nil, List.append_nil]
    rfl
  | cons room rs2 ih =>
    intro hstep done t
    obtain ⟨r2, t2, hf, hP⟩ :=
      hstep room (List.mem_cons_self room rs2) done t
    obtain ⟨suf, t3, hfold, hF⟩ :=
      ih (fun rm hm => hstep rm (List.mem_cons_of_mem room hm))
        (done ++ [r2]) t2
    refine ⟨r2 :: suf, t3, ?_, List.Forall₂.cons hP hF⟩
    rw [List.foldlM_cons]
    rw [bind_ok_eq _ (done ++ [r2], t2) _ hf]
    rw [show done ++ r2 :: suf = (done ++ [r2]) ++ suf by simp]
    exact hfold

theorem adFirstPass_run (rooms : List DungeonRoom)
    (hlad : RegionLadder rooms) :
    ∃ rv1 rooms1,
      adFirstPass rooms
        (List.replicate
          ((roomAt rooms (rooms.length - 1)).region + 2).toNat (0 : ℚ)) =
        .ok ((rooms.length : ℚ) - 1, rv1, rooms1) ∧
      rooms1.length = rooms.length ∧
      (∀ i, i < rooms.length →
        roomAt rooms1 i =
          { roomAt rooms i with difficulty := (i : ℚ) }) ∧
      (∀ i, i < rooms.length →
        pyListGet rv1 (roomAt rooms i).region =
          .ok ((specRegionStart rooms (roomAt rooms i).region : ℚ))) ∧
      (∀ i, i < rooms.length →
        pyListGet rv1 ((roomAt rooms i).region + 1) =
          .ok (if (roomAt rooms i).region =
                (roomAt rooms (rooms.length - 1)).region
              then (rooms.length : ℚ) - 1
              else
                (specRegionStart rooms
                  ((roomAt rooms i).region + 1) : ℚ))) := by
  obtain ⟨hlen, hz, hmono, hsteps⟩ := hlad
  have hlad2 : RegionLadder rooms := ⟨hlen, hz, hmono, hsteps⟩
  have hRZ : 0 ≤ (roomAt rooms (rooms.length - 1)).region :=
    ladder_nonneg rooms hlad2 (rooms.length - 1) (by omega)
  have floop : ∀ (l : List DungeonRoom) (m : Nat) (rv : List ℚ)
      (done : List DungeonRoom),
      rooms.drop m = l →
      m + l.length = rooms.length →
      rv.length = ((roomAt rooms (rooms.length - 1)).region).toNat + 2 →
      (∀ r2 : Nat, r2 < rv.length → rv.getD r2 0 =
        if 1 ≤ r2 ∧ (r2 : ℤ) ≤ (roomAt rooms (m - 1)).region
        then (specRegionStart rooms (r2 : ℤ) : ℚ) else 0) →
      ∃ rv2 done2,
        l.foldlM adFP1Step
          ((m : ℚ), (roomAt rooms (m - 1)).region, rv, done) =
          .ok ((rooms.length : ℚ),
            (roomAt rooms (rooms.length - 1)).region, rv2, done2) ∧
        rv2.length = rv.length ∧
        (∀ r2 : Nat, r2 < rv2.length → rv2.getD r2 0 =
          if 1 ≤ r2 ∧
              (r2 : ℤ) ≤ (roomAt rooms (rooms.length - 1)).region
          then (specRegionStart rooms (r2 : ℤ) : ℚ) else 0) ∧
        ∃ suf, done2 = done ++ suf ∧ suf.length = l.length ∧
          (∀ jj, jj < l.length → roomAt suf jj =
            { roomAt rooms (m + jj) with
              difficulty := ((m + jj : Nat) : ℚ) }) := by
    intro l
    induction l with
    | nil =>
      intro m rv done hdrop hcount hrvlen hrvinv
      obtain rfl : m = rooms.length := by simpa using hcount
      refine ⟨rv, done, ?_, rfl, ?_, [], by simp, rfl, ?_⟩
      · rw [List.foldlM_nil]
        rfl
      · intro r2 hr2
        exact hrvinv r2 hr2
      · intro jj hjj
        exact absurd hjj (by simp)
    | cons room l2 ih =>
      intro m rv done hdrop hcount hrvlen hrvinv
      have hmlt : m < rooms.length := by
        simp only [List.length_cons] at hcount
        omega
      have hdropm := List.drop_eq_getElem_cons hmlt
      rw [hdropm] at hdrop
      have hpair := (List.cons.injEq _ _ _ _).mp hdrop
      have hroom : room = roomAt rooms m := by
        rw [roomAt_eq_get rooms m hmlt]
        exact hpair.1.symm
      have hdrop2 : rooms.drop (m + 1) = l2 := hpair.2
      have hcount2 : m + 1 + l2.length = rooms.length := by
        simp only [List.length_cons] at hcount
        omega
      subst hroom
      rw [List.foldlM_cons]
      by_cases hc : (roomAt rooms m).region = (roomAt rooms (m - 1)).region
      · have hstep1 := adFP1Step_same (m : ℚ)
          ((roomAt rooms (m - 1)).region) rv done (roomAt rooms m) hc
        rw [bind_ok_eq _ _ _ hstep1]
        have hinv1 : ∀ r2 : Nat, r2 < rv.length → rv.getD r2 0 =
            if 1 ≤ r2 ∧
                (r2 : ℤ) ≤ (roomAt rooms (m + 1 - 1)).region
            then (specRegionStart rooms (r2 : ℤ) : ℚ) else 0 := by
          intro r2 hr2
          rw [show m + 1 - 1 = m from rfl, hc]
          exact hrvinv r2 hr2
        obtain ⟨rv2, done2, hfold, hlen2, hinv2, suf, hsufeq, hsuflen,
          hsufchar⟩ := ih (m + 1) rv
            (done ++ [{ roomAt rooms m with difficulty := (m : ℚ) }])
            hdrop2 hcount2 hrvlen hinv1
        refine ⟨rv2, done2, ?_, hlen2, hinv2,
          { roomAt rooms m with difficulty := (m : ℚ) } :: suf, ?_, ?_, ?_⟩
        · rw [show ((m + 1 : Nat) : ℚ) = (m : ℚ) + 1 from by push_cast; ring,
            show m + 1 - 1 = m from rfl, hc] at hfold
          exact hfold
        · rw [hsufeq]
          simp
        · simp [hsuflen]
        · intro jj hjj
          rcases jj with _ | jj2
          · rfl
          · have hx : roomAt
                ({ roomAt rooms m with difficulty := (m : ℚ) } :: suf)
                (jj2 + 1) = roomAt suf jj2 := by
              unfold roomAt
              rw [List.getD_cons_succ]
            rw [hx]
            have hy := hsufchar jj2 (by
              simp only [List.length_cons] at hjj
              omega)
            rw [show m + 1 + jj2 = m + (jj2 + 1) from by omega] at hy
            exact hy
      · have hm1 : 1 ≤ m := by
          rcases m with _ | m2
          · exact absurd rfl hc
          · omega
        have hlt1 : (roomAt rooms (m - 1)).region <
            (roomAt rooms m).region :=
          lt_of_le_of_ne (hmono (m - 1) m (by omega) hmlt) (Ne.symm hc)
        have hup : (roomAt rooms m).region ≤
            (roomAt rooms (m - 1)).region + 1 := by
          have h9 := hsteps (m - 1) (by omega)
          rw [show m - 1 + 1 = m from by omega] at h9
          exact h9
        have heq : (roomAt rooms m).region =
            (roomAt rooms (m - 1)).region + 1 := by omega
        have hge0m : 0 ≤ (roomAt rooms (m - 1)).region :=
          ladder_nonneg rooms hlad2 (m - 1) (by omega)
        have hge1 : 1 ≤ (roomAt rooms m).region := by omega
        have hleR : (roomAt rooms m).region ≤
            (roomAt rooms (rooms.length - 1)).region :=
          ladder_le_last rooms hlad2 m hmlt
        have hsetok := pyListSet_ok_pos rv ((roomAt rooms m).region)
          ((m : ℚ)) (by omega) (by rw [hrvlen]; omega)
        have hstep2 := adFP1Step_write (m : ℚ)
          ((roomAt rooms (m - 1)).region) rv done (roomAt rooms m)
          (listModify rv ((roomAt rooms m).region).toNat
            (fun _ => (m : ℚ)))
          hc hsetok
        rw [bind_ok_eq _ _ _ hstep2]
        have hfirst : specRegionStart rooms ((roomAt rooms m).region) =
            m := by
          unfold specRegionStart
          rw [List.findIdx_eq hmlt]
          constructor
          · have hvm : rooms[m].region = (roomAt rooms m).region := by
              rw [roomAt_eq_get rooms m hmlt]
              rfl
            exact decide_eq_true hvm
          · intro j hj
            have hjlt : (roomAt rooms j).region <
                (roomAt rooms m).region := by
              have := hmono j (m - 1) (by omega) (by omega)
              omega
            have hvj : rooms[j].region = (roomAt rooms j).region := by
              rw [roomAt_eq_get rooms j (by omega)]
              rfl
            apply decide_eq_false
            rw [hvj]
            omega
        have hinvnew : ∀ r2 : Nat,
            r2 < (listModify rv ((roomAt rooms m).region).toNat
              (fun _ => (m : ℚ))).length →
            (listModify rv ((roomAt rooms m).region).toNat
              (fun _ => (m : ℚ))).getD r2 0 =
            if 1 ≤ r2 ∧ (r2 : ℤ) ≤ (roomAt rooms (m + 1 - 1)).region
            then (specRegionStart rooms (r2 : ℤ) : ℚ) else 0 := by
          intro r2 hr2
          rw [listModify_length] at hr2
          rw [show m + 1 - 1 = m from rfl]
          by_cases hr2eq : r2 = ((roomAt rooms m).region).toNat
          · subst hr2eq
            rw [listModify_getD_eq rv _ _ 0 (by rw [hrvlen] at hr2 ⊢; omega)]
            rw [if_pos ⟨by omega, by omega⟩]
            rw [show ((((roomAt rooms m).region).toNat : Nat) : ℤ) =
              (roomAt rooms m).region from by omega]
            rw [hfirst]
          · rw [listModify_getD_ne rv _ r2 _ 0 hr2eq]
            rw [hrvinv r2 hr2]
            split_ifs with h1 h2
            · rfl
            · exfalso; omega
            · exfalso; omega
            · rfl
        obtain ⟨rv3, done3, hfold, hlen3, hinv3, suf, hsufeq, hsuflen,
          hsufchar⟩ := ih (m + 1)
            (listModify rv ((roomAt rooms m).region).toNat
              (fun _ => (m : ℚ)))
            (done ++ [{ roomAt rooms m with difficulty := (m : ℚ) }])
            hdrop2 hcount2 (by rw [listModify_length]; exact hrvlen)
            hinvnew
        refine ⟨rv3, done3, ?_, by rw [hlen3, listModify_length],
          hinv3, { roomAt rooms m with difficulty := (m : ℚ) } :: suf,
          ?_, ?_, ?_⟩
        · rw [show ((m + 1 : Nat) : ℚ) = (m : ℚ) + 1 from by push_cast; ring,
            show m + 1 - 1 = m from rfl] at hfold
          exact hfold
        · rw [hsufeq]
          simp
        · simp [hsuflen]
        · intro jj hjj
          rcases jj with _ | jj2
          · rfl
          · have hx : roomAt
                ({ roomAt rooms m with difficulty := (m : ℚ) } :: suf)
                (jj2 + 1) = roomAt suf jj2 := by
              unfold roomAt
              rw [List.getD_cons_succ]
            rw [hx]
            have hy := hsufchar jj2 (by
              simp only [List.length_cons] at hjj
              omega)
            rw [show m + 1 + jj2 = m + (jj2 + 1) from by omega] at hy
            exact hy
  have hrv0len : (List.replicate
      ((roomAt rooms (rooms.length - 1)).region + 2).toNat
      (0 : ℚ)).length =
      ((roomAt rooms (rooms.length - 1)).region).toNat + 2 := by
    rw [List.length_replicate]
    omega
  have hrv0inv : ∀ r2 : Nat, r2 < (List.replicate
      ((roomAt rooms (rooms.length - 1)).region + 2).toNat
      (0 : ℚ)).length →
      (List.replicate
        ((roomAt rooms (rooms.length - 1)).region + 2).toNat
        (0 : ℚ)).getD r2 0 =
      if 1 ≤ r2 ∧ (r2 : ℤ) ≤ (roomAt rooms (0 - 1)).region
      then (specRegionStart rooms (r2 : ℤ) : ℚ) else 0 := by
    intro r2 hr2
    rw [if_neg (by
      rw [show (0 : Nat) - 1 = 0 from rfl, hz]
      omega)]
    rw [List.getD_eq_getElem _ 0 hr2]
    simp
  obtain ⟨rv2, done2, hfold, hrvlen2, hinv2, suf, hsufeq, hsuflen,
    hsufchar⟩ := floop rooms 0
      (List.replicate
        ((roomAt rooms (rooms.length - 1)).region + 2).toNat (0 : ℚ))
      [] (List.drop_zero rooms) (by omega) hrv0len hrv0inv
  rw [show (0 : Nat) - 1 = 0 from rfl, hz,
    show ((0 : Nat) : ℚ) = (0 : ℚ) from by norm_num] at hfold
  refine ⟨listModify rv2 (rv2.length - 1)
      (fun _ => (rooms.length : ℚ) - 1), done2, ?_, ?_, ?_, ?_, ?_⟩
  · rw [adFirstPass_eq]
    rw [bind_ok_eq _ _ _ hfold]
    dsimp only
    rw [bind_ok_eq _ _ _ (pyListSet_ok_neg1 rv2
      ((rooms.length : ℚ) - 1) (by omega))]
    rfl
  · rw [hsufeq]
    simp only [List.nil_append]
    omega
  · intro i hi
    rw [hsufeq]
    have := hsufchar i hi
    rw [show (0 : Nat) + i = i from by omega] at this
    simpa using this
  · intro i hi
    have hge0 : 0 ≤ (roomAt rooms i).region :=
      ladder_nonneg rooms hlad2 i hi
    have hle : (roomAt rooms i).region ≤
        (roomAt rooms (rooms.length - 1)).region :=
      ladder_le_last rooms hlad2 i hi
    have hlm : (listModify rv2 (rv2.length - 1)
        (fun _ => (rooms.length : ℚ) - 1)).length = rv2.length :=
      listModify_length _ _ _
    rw [pyListGet_ok _ _ (0 : ℚ) hge0 (by rw [hlm, hrvlen2, hrv0len]; omega)]
    rw [listModify_getD_ne rv2 _ _ _ 0 (by rw [hrvlen2, hrv0len]; omega)]
    by_cases h0 : (roomAt rooms i).region = 0
    · rw [h0]
      have hs0 : specRegionStart rooms 0 = 0 := by
        unfold specRegionStart
        rw [List.findIdx_eq hlen]
        constructor
        · have hv0 : rooms[0].region = (roomAt rooms 0).region := by
            rw [roomAt_eq_get rooms 0 hlen]
            rfl
          exact decide_eq_true (by rw [hv0, hz])
        · intro j hj
          omega
      rw [hinv2 _ (by rw [hrvlen2, hrv0len]; omega)]
      rw [if_neg (by omega)]
      rw [hs0]
      norm_num
    · rw [hinv2 _ (by rw [hrvlen2, hrv0len]; omega)]
      rw [if_pos ⟨by omega, by omega⟩]
      rw [show ((((roomAt rooms i).region).toNat : Nat) : ℤ) =
        (roomAt rooms i).region from by omega]
  · intro i hi
    have hge0 : 0 ≤ (roomAt rooms i).region :=
      ladder_nonneg rooms hlad2 i hi
    have hle : (roomAt rooms i).region ≤
        (roomAt rooms (rooms.length - 1)).region :=
      ladder_le_last rooms hlad2 i hi
    have hlm : (listModify rv2 (rv2.length - 1)
        (fun _ => (rooms.length : ℚ) - 1)).length = rv2.length :=
      listModify_length _ _ _
    rw [pyListGet_ok _ _ (0 : ℚ) (by omega)
      (by rw [hlm, hrvlen2, hrv0len]; omega)]
    by_cases hR : (roomAt rooms i).region =
        (roomAt rooms (rooms.length - 1)).region
    · rw [if_pos hR]
      have hidx : ((roomAt rooms i).region + 1).toNat =
          rv2.length - 1 := by
        rw [hrvlen2, hrv0len]
        omega
      rw [hidx]
      rw [listModify_getD_eq rv2 _ _ 0 (by rw [hrvlen2, hrv0len]; omega)]
    · rw [if_neg hR]
      rw [listModify_getD_ne rv2 _ _ _ 0
        (by rw [hrvlen2, hrv0len]; omega)]
      rw [hinv2 _ (by rw [hrvlen2, hrv0len]; omega)]
      rw [if_pos ⟨by omega, by omega⟩]
      rw [show ((((roomAt rooms i).region + 1).toNat : Nat) : ℤ) =
        (roomAt rooms i).region + 1 from by omega]

theorem adSecondPass_run (cfg : ADLayer) (diff : ℚ) (rv : List ℚ)
    (rooms1 : List DungeonRoom) (hdiff : ¬(diff = 0))
    (hx : ∀ room, room ∈ rooms1 → ∃ x1 x2,
      pyListGet rv room.region = .ok x1 ∧
      pyListGet rv (room.region + 1) = .ok x2 ∧ ¬(x2 - x1 = 0)) :
    ∀ t, ∃ rooms2 t2,
      adSecondPass cfg diff rv rooms1 t = .ok (rooms2, t2) ∧
      List.Forall₂ (fun room outr => ∃ x1 x2 rd,
        pyListGet rv room.region = .ok x1 ∧
        pyListGet rv (room.region + 1) = .ok x2 ∧
        0 ≤ rd ∧ rd < 1 ∧
        outr = { room with
          difficulty := specDifficulty cfg diff x1 x2 room.difficulty rd })
        rooms1 rooms2 := by
  intro t
  have hstep : ∀ room, room ∈ rooms1 →
      ∀ (done : List DungeonRoom) (t0 : Oracle), ∃ r2 t2,
      adFP2Step cfg diff rv (done, t0) room = .ok (done ++ [r2], t2) ∧
      (∃ x1 x2 rd,
        pyListGet rv room.region = .ok x1 ∧
        pyListGet rv (room.region + 1) = .ok x2 ∧
        0 ≤ rd ∧ rd < 1 ∧
        r2 = { room with
          difficulty :=
            specDifficulty cfg diff x1 x2 room.difficulty rd }) := by
    intro room hm done t0
    obtain ⟨x1, x2, hx1, hx2, hne⟩ := hx room hm
    rcases hRf : randFloat t0 with ⟨rd, t2⟩
    refine ⟨_, t2,
      adFP2Step_run cfg diff rv done t0 room x1 x2 rd t2 hx1 hx2 hne
        hdiff hRf, x1, x2, rd, hx1, hx2, ?_, ?_, rfl⟩
    · have hb := (randFloat_bounds t0).1
      rw [hRf] at hb
      exact hb
    · have hb := (randFloat_bounds t0).2
      rw [hRf] at hb
      exact hb
  obtain ⟨suf, t2, hfold, hF⟩ :=
    foldlM_append_run (adFP2Step cfg diff rv) _ rooms1 hstep [] t
  refine ⟨suf, t2, ?_, hF⟩
  rw [adSecondPass_eq]
  simpa using hfold

theorem adLayer_run (cfg : ADLayer) (d : Dungeon) (tA : Oracle)
    (hlad : RegionLadder d.rooms)
    (hN : 2 ≤ d.rooms.length)
    (hlast : (roomAt d.rooms (d.rooms.length - 2)).region =
      (roomAt d.rooms (d.rooms.length - 1)).region) :
    ∃ d3 t2, ADLayer.process_dungeon cfg d tA = .ok (d3, t2) ∧
      d3.rooms.length = d.rooms.length ∧
      d3.keys = d.keys ∧ d3.mainPath = d.mainPath ∧
      ∀ i, i < d.rooms.length →
        (0 ≤ (roomAt d3.rooms i).difficulty ∧
          (roomAt d3.rooms i).difficulty ≤ 1) ∧
        ∃ rd, 0 ≤ rd ∧ rd < 1 ∧
          (roomAt d3.rooms i).difficulty =
            specDifficulty cfg ((d.rooms.length : ℚ) - 1)
              ((specRegionStart d.rooms (roomAt d.rooms i).region : ℚ))
              (if (roomAt d.rooms i).region =
                  (roomAt d.rooms (d.rooms.length - 1)).region
                then (d.rooms.length : ℚ) - 1
                else (specRegionStart d.rooms
                  ((roomAt d.rooms i).region + 1) : ℚ))
              (i : ℚ) rd := by
  obtain ⟨rv1, rooms1, hfp, hlen1, hchar1, hget1, hget2⟩ :=
    adFirstPass_run d.rooms hlad
  have hdiff : ¬((d.rooms.length : ℚ) - 1 = 0) := by
    have h2 : (2 : ℚ) ≤ (d.rooms.length : ℚ) := by exact_mod_cast hN
    intro hcon
    linarith
  have hx : ∀ room, room ∈ rooms1 → ∃ x1 x2,
      pyListGet rv1 room.region = .ok x1 ∧
      pyListGet rv1 (room.region + 1) = .ok x2 ∧ ¬(x2 - x1 = 0) := by
    intro room hm
    obtain ⟨i, hgetI⟩ := List.mem_iff_get.mp hm
    have hilen : (i : Nat) < d.rooms.length := by
      rw [← hlen1]
      exact i.2
    have hroomeq : room = roomAt rooms1 i.1 := by
      rw [roomAt_eq_get rooms1 i.1 i.2]
      exact hgetI.symm
    have hregeq : room.region = (roomAt d.rooms i.1).region := by
      rw [hroomeq, hchar1 i.1 hilen]
    refine ⟨(specRegionStart d.rooms (roomAt d.rooms i.1).region : ℚ),
      (if (roomAt d.rooms i.1).region =
          (roomAt d.rooms (d.rooms.length - 1)).region
        then (d.rooms.length : ℚ) - 1
        else (specRegionStart d.rooms
          ((roomAt d.rooms i.1).region + 1) : ℚ)), ?_, ?_, ?_⟩
    · rw [hregeq]
      exact hget1 i.1 hilen
    · rw [hregeq]
      exact hget2 i.1 hilen
    · by_cases hR : (roomAt d.rooms i.1).region =
          (roomAt d.rooms (d.rooms.length - 1)).region
      · rw [if_pos hR]
        have hexRZ : ∃ j, j < d.rooms.length ∧ (roomAt d.rooms j).region =
            (roomAt d.rooms (d.rooms.length - 1)).region :=
          ⟨d.rooms.length - 1, by omega, rfl⟩
        obtain ⟨hsl, hsv, hsmin⟩ := specRegionStart_spec d.rooms _ hexRZ
        have hstart : specRegionStart d.rooms
            ((roomAt d.rooms (d.rooms.length - 1)).region) ≤
            d.rooms.length - 2 := by
          by_contra hcon
          push_neg at hcon
          exact hsmin (d.rooms.length - 2) (by omega) (by omega) hlast
        have hcast : ((specRegionStart d.rooms
            ((roomAt d.rooms (d.rooms.length - 1)).region) : Nat) : ℚ) ≤
            (d.rooms.length : ℚ) - 2 := by
          have h22 : ((d.rooms.length - 2 : Nat) : ℚ) =
              (d.rooms.length : ℚ) - 2 := by
            push_cast [hN]
            ring
          rw [← h22]
          exact_mod_cast hstart
        rw [hR]
        intro hcon
        linarith
      · rw [if_neg hR]
        have hge0 : 0 ≤ (roomAt d.rooms i.1).region :=
          ladder_nonneg d.rooms hlad i.1 hilen
        have hleR : (roomAt d.rooms i.1).region ≤
            (roomAt d.rooms (d.rooms.length - 1)).region :=
          ladder_le_last d.rooms hlad i.1 hilen
        have hex1 : ∃ j, j < d.rooms.length ∧ (roomAt d.rooms j).region =
            (roomAt d.rooms i.1).region := ⟨i.1, hilen, rfl⟩
        have hex2 := ladder_surj d.rooms hlad
          ((roomAt d.rooms i.1).region + 1) (by omega) (by omega)
        have hltI := specRegionStart_lt d.rooms hlad
          ((roomAt d.rooms i.1).region)
          ((roomAt d.rooms i.1).region + 1) hex1 hex2 (by omega)
        intro hcon
        have : ((specRegionStart d.rooms
            ((roomAt d.rooms i.1).region) : Nat) : ℚ) <
            ((specRegionStart d.rooms
              ((roomAt d.rooms i.1).region + 1) : Nat) : ℚ) := by
          exact_mod_cast hltI
        linarith
  obtain ⟨rooms2, t2, hsp, hF⟩ :=
    adSecondPass_run cfg ((d.rooms.length : ℚ) - 1) rv1 rooms1 hdiff
      hx tA
  have hrc : d.region_count =
      (roomAt d.rooms (d.rooms.length - 1)).region + 1 := by
    unfold Dungeon.region_count
    rw [getLast?_eq_roomAt d.rooms (by omega)]
  have hrv0 : List.replicate (d.region_count + 1).toNat (0 : ℚ) =
      List.replicate
        ((roomAt d.rooms (d.rooms.length - 1)).region + 2).toNat 0 := by
    rw [hrc]
    rw [show (roomAt d.rooms (d.rooms.length - 1)).region + 1 + 1 =
      (roomAt d.rooms (d.rooms.length - 1)).region + 2 from by ring]
  have hlen2 : rooms2.length = d.rooms.length := by
    rw [← List.Forall₂.length_eq hF]
    exact hlen1
  refine ⟨{ d with rooms := rooms2 }, t2, ?_, hlen2, rfl, rfl, ?_⟩
  · unfold ADLayer.process_dungeon
    dsimp only
    rw [hrv0]
    rw [bind_ok_eq _ _ _ hfp]
    dsimp only
    rw [bind_ok_eq _ _ _ hsp]
    rfl
  · intro i hi
    have hi1 : i < rooms1.length := by omega
    have hi2 : i < rooms2.length := by omega
    have hR := (List.forall₂_iff_get.mp hF).2 i hi1 hi2
    obtain ⟨x1, x2, rd, hx1, hx2, hrd0, hrd1, hout⟩ := hR
    have hd3i : roomAt rooms2 i = rooms2.get ⟨i, hi2⟩ :=
      roomAt_eq_get rooms2 i hi2
    have hr1i : rooms1.get ⟨i, hi1⟩ = roomAt rooms1 i :=
      (roomAt_eq_get rooms1 i hi1).symm
    rw [hr1i, hchar1 i hi] at hout hx1 hx2
    have hx1c := hget1 i hi
    have hx2c := hget2 i hi
    rw [hx1c] at hx1
    rw [hx2c] at hx2
    have hx1v := (Except.ok.injEq _ _).mp hx1
    have hx2v := (Except.ok.injEq _ _).mp hx2
    have hdiffval : (roomAt { d with rooms := rooms2 }.rooms i).difficulty
        = specDifficulty cfg ((d.rooms.length : ℚ) - 1) x1 x2 (i : ℚ)
          rd := by
      show (roomAt rooms2 i).difficulty = _
      rw [hd3i, hout]
    constructor
    · rw [hdiffval]
      exact ⟨specDifficulty_nonneg _ _ _ _ _ _,
        specDifficulty_le_one _ _ _ _ _ _⟩
    · refine ⟨rd, hrd0, hrd1, ?_⟩
      rw [hdiffval, ← hx1v, ← hx2v]

theorem pipeline_ladder (cfg : BPLayer) (attempts : Nat) (t : Oracle)
    (d1 : Dungeon) (t' : Oracle)
    (hbp : BPLayer.process_dungeon cfg attempts Dungeon.empty t =
      .ok (d1, t'))
    (d2 : Dungeon)
    (hreg : AssignRegionsLayer.process_dungeon d1 = .ok d2) :
    RegionLadder d2.rooms := by
  obtain ⟨hInv, hlen, suffix, hmp⟩ :=
    bpl_process_inv cfg attempts t d1 t' hbp
  obtain ⟨hI, hC, hD, hT, hK, hM⟩ := hInv
  obtain ⟨d2', hok, hkeys, hmp2, hRV⟩ :=
    regions_process d1 suffix hmp hI hC hD hT hlen
  have hdd : d2 = d2' := by
    rw [hok] at hreg
    exact ((Except.ok.injEq _ _).mp hreg).symm
  subst hdd
  have hL2 : d2.rooms.length = d1.rooms.length := hRV.1
  have hregc : ∀ i, i < d1.rooms.length → (roomAt d2.rooms i).region =
      ((treeCost d1.keys d1.rooms i : Nat) : Int) := by
    intro i hi
    rw [regionsView_region d1.rooms d2.rooms _ hRV i hi]
    unfold regF
    rw [if_pos (Or.inr hi)]
  refine ⟨by omega, ?_, ?_, ?_⟩
  · rw [hregc 0 (by omega), treeCost_entrance]
    rfl
  · intro i j hij hj
    rw [hL2] at hj
    rw [hregc i (by omega), hregc j hj]
    exact_mod_cast hM i j hij hj
  · intro i hi
    rw [hL2] at hi
    rw [hregc i (by omega), hregc (i + 1) hi]
    have hst := treeCost_step d1.keys d1.rooms hT
      (fun a b hab hb => hM a b hab hb) i hi
    exact_mod_cast hst

/-- C3: on a dungeon produced by the path layer and the regions layer,
`AssignDifficultiesLayer.process_dungeon` is not total in general (see
`C3_counterexample_divzero`), but whenever the dungeon has at least two
rooms and its final region spans at least two rooms the layer succeeds,
and every room `i` in region `r` receives the difficulty
`clamp01((((i - x1) / (x2 - x1))^2 * (x2 - dropoff*x1) + dropoff*x1)
/ (N-1) * (1 - startingPoints) + startingPoints + noiseTerm)` where
`x1 = regionStart r` (the first sequence index of region `r`),
`x2 = regionStart (r+1)` for non-final regions and `N - 1` for the
final one, and the noise draw lies in `[0, 1)`; in particular every
assigned difficulty lies in `[0, 1]`. -/
theorem C3_difficulty_formula (pcfg : BPLayer) (attempts : Nat)
    (t : Oracle) (d1 : Dungeon) (t' : Oracle)
    (hbp : BPLayer.process_dungeon pcfg attempts Dungeon.empty t =
      .ok (d1, t'))
    (d2 : Dungeon)
    (hreg : AssignRegionsLayer.process_dungeon d1 = .ok d2)
    (hN : 2 ≤ d2.rooms.length)
    (hlast : (roomAt d2.rooms (d2.rooms.length - 2)).region =
      (roomAt d2.rooms (d2.rooms.length - 1)).region)
    (cfg : ADLayer) (tA : Oracle) :
    ∃ d3 t2, ADLayer.process_dungeon cfg d2 tA = .ok (d3, t2) ∧
      d3.rooms.length = d2.rooms.length ∧
      ∀ i, i < d2.rooms.length →
        (0 ≤ (roomAt d3.rooms i).difficulty ∧
          (roomAt d3.rooms i).difficulty ≤ 1) ∧
        ∃ rd, 0 ≤ rd ∧ rd < 1 ∧
          (roomAt d3.rooms i).difficulty =
            specDifficulty cfg ((d2.rooms.length : ℚ) - 1)
              ((specRegionStart d2.rooms (roomAt d2.rooms i).region : ℚ))
              (if (roomAt d2.rooms i).region =
                  (roomAt d2.rooms (d2.rooms.length - 1)).region
                then (d2.rooms.length : ℚ) - 1
                else (specRegionStart d2.rooms
                  ((roomAt d2.rooms i).region + 1) : ℚ))
              (i : ℚ) rd := by
  have hlad := pipeline_ladder pcfg attempts t d1 t' hbp d2 hreg
  obtain ⟨d3, t2, hok, hlen, hkeys, hmp, hchar⟩ :=
    adLayer_run cfg d2 tA hlad hN hlast
  exact ⟨d3, t2, hok, hlen, hchar⟩

theorem C3_formula_witness :
    ∃ d3 t2,
      ADLayer.process_dungeon adCfgHalf keyRegDungeon keyBPTail =
        .ok (d3, t2) ∧
      d3.rooms.length = keyRegDungeon.rooms.length ∧
      ∀ i, i < keyRegDungeon.rooms.length →
        (0 ≤ (roomAt d3.rooms i).difficulty ∧
          (roomAt d3.rooms i).difficulty ≤ 1) ∧
        ∃ rd, 0 ≤ rd ∧ rd < 1 ∧
          (roomAt d3.rooms i).difficulty =
            specDifficulty adCfgHalf
              ((keyRegDungeon.rooms.length : ℚ) - 1)
              ((specRegionStart keyRegDungeon.rooms
                (roomAt keyRegDungeon.rooms i).region : ℚ))
              (if (roomAt keyRegDungeon.rooms i).region =
                  (roomAt keyRegDungeon.rooms
                    (keyRegDungeon.rooms.length - 1)).region
                then (keyRegDungeon.rooms.length : ℚ) - 1
                else (specRegionStart keyRegDungeon.rooms
                  ((roomAt keyRegDungeon.rooms i).region + 1) : ℚ))
              (i : ℚ) rd :=
  C3_difficulty_formula bpCfgKey genAttempts tapeKey keyBPDungeon
    keyBPTail (by with_unfolding_all rfl) keyRegDungeon
    (by with_unfolding_all rfl) (by with_unfolding_all decide)
    (by with_unfolding_all decide) adCfgHalf keyBPTail

theorem pipeline_shape (cfg : BPLayer) (adCfg : ADLayer)
    (types : List RoomType) (es : List EnemyType) (t : Oracle)
    (d : Dungeon) (t' : Oracle)
    (h : gen_map [.branching cfg, .regions, .difficulties adCfg,
      .roomTypesL types, .enemiesL es] t = .ok (d, t')) :
    ∃ d1 t1, BPLayer.process_dungeon cfg genAttempts Dungeon.empty t =
      .ok (d1, t1) ∧ SameShape d1.rooms d.rooms ∧ d.keys = d1.keys := by
  unfold gen_map at h
  simp only [List.foldlM_cons, List.foldlM_nil] at h
  obtain ⟨a1, h1, h⟩ := except_bind_ok _ _ _ h
  obtain ⟨d1, t1⟩ := a1
  obtain ⟨a2, h2, h⟩ := except_bind_ok _ _ _ h
  obtain ⟨d2, t2⟩ := a2
  obtain ⟨a3, h3, h⟩ := except_bind_ok _ _ _ h
  obtain ⟨d3, t3⟩ := a3
  obtain ⟨a4, h4, h⟩ := except_bind_ok _ _ _ h
  obtain ⟨d4, t4⟩ := a4
  obtain ⟨a5, h5, h⟩ := except_bind_ok _ _ _ h
  obtain ⟨d5, t5⟩ := a5
  have hfin : d = d5 ∧ t' = t5 := by
    have := ((Except.ok.injEq _ _).mp h).symm
    exact ⟨congrArg Prod.fst this, congrArg Prod.snd this⟩
  obtain ⟨rfl, rfl⟩ := hfin
  have hb : BPLayer.process_dungeon cfg genAttempts Dungeon.empty t =
      .ok (d1, t1) := h1
  obtain ⟨dr, hreg, hpr⟩ := except_bind_ok _ _ _ h2
  have hdr : dr = d2 ∧ t1 = t2 := by
    have := (Except.ok.injEq _ _).mp hpr
    exact ⟨congrArg Prod.fst this, congrArg Prod.snd this⟩
  obtain ⟨rfl, rfl⟩ := hdr
  have hS1 := regions_layer_shape d1 dr hreg
  have hA : ADLayer.process_dungeon adCfg dr t1 = .ok (d3, t3) := h3
  have hS2 := adLayer_shape adCfg dr t1 d3 t3 hA
  have hR : AssignRoomTypes.process_dungeon types d3 t3 = .ok (d4, t4) := h4
  have hS3 := roomTypes_shape types d3 t3 d4 t4 hR
  have hE : EnemiesLayer.process_dungeon es d4 t4 = .ok (d, t') := h5
  have hS4 := enemies_shape es d4 t4 d t' hE
  refine ⟨d1, t1, hb, ?_, ?_⟩
  · exact sameShape_trans _ _ _
      (sameShape_trans _ _ _
        (sameShape_trans _ _ _ hS1.1 hS2.1) hS3.1) hS4.1
  · rw [hS4.2.1, hS3.2.1, hS2.2.1, hS1.2.1]

/-- C4: in every fully generated dungeon (all five layers run by
`gen_map`), no two distinct rooms share the same grid coordinates. -/
theorem C4_no_two_rooms_share_cell (cfg : BPLayer) (adCfg : ADLayer)
    (types : List RoomType) (es : List EnemyType) (t : Oracle)
    (d : Dungeon) (t' : Oracle)
    (h : gen_map [.branching cfg, .regions, .difficulties adCfg,
      .roomTypesL types, .enemiesL es] t = .ok (d, t')) :
    CoordsOk d.rooms := by
  obtain ⟨d1, t1, hb, hS, hk⟩ := pipeline_shape cfg adCfg types es t d t' h
  obtain ⟨⟨hI, hC, hD, hT, hK, hM⟩, hlen, _⟩ :=
    bpl_process_inv cfg genAttempts t d1 t1 hb
  exact CoordsOk_sameShape _ _ hS hC

theorem C4_witness : CoordsOk keyDungeon.rooms :=
  C4_no_two_rooms_share_cell bpCfgKey adCfgHalf
    [entranceType, exitType, genericType] [bossEnemy] tapeKey
    keyDungeon keyPipeTail (by with_unfolding_all rfl)

/-- C5: in every fully generated dungeon, an open door of room `i`
leads to an existing grid-adjacent room whose opposite door is open
(`DoorsOk`, which also rules out open doors onto empty cells), and
conversely: if the room in the adjacent cell at direction `dd` has its
door `(dd + 2) % 4` open, then room `i`'s door `dd` is open. -/
theorem C5_doors_pair_up (cfg : BPLayer) (adCfg : ADLayer)
    (types : List RoomType) (es : List EnemyType) (t : Oracle)
    (d : Dungeon) (t' : Oracle)
    (h : gen_map [.branching cfg, .regions, .difficulties adCfg,
      .roomTypesL types, .enemiesL es] t = .ok (d, t')) :
    DoorsOk d.rooms ∧
    (∀ i j dd, i < d.rooms.length → j < d.rooms.length → dd < 4 →
      (roomAt d.rooms j).x =
        (neighborCell (roomAt d.rooms i).x (roomAt d.rooms i).y dd).1 →
      (roomAt d.rooms j).y =
        (neighborCell (roomAt d.rooms i).x (roomAt d.rooms i).y dd).2 →
      (roomAt d.rooms j).door ((dd + 2) % 4) = true →
      (roomAt d.rooms i).door dd = true) := by
  obtain ⟨d1, t1, hb, hS, hk⟩ := pipeline_shape cfg adCfg types es t d t' h
  obtain ⟨⟨hI, hC, hD, hT, hK, hM⟩, hlen, _⟩ :=
    bpl_process_inv cfg genAttempts t d1 t1 hb
  have hD2 := DoorsOk_sameShape _ _ hS hD
  have hC2 := CoordsOk_sameShape _ _ hS hC
  refine ⟨hD2, ?_⟩
  intro i j dd hi hj hdd hx hy hdoor
  obtain ⟨j2, hj2, hx2, hy2, hdoor2⟩ :=
    hD2 j ((dd + 2) % 4) hj (by omega) hdoor
  rw [hx, hy] at hx2 hy2
  rw [neighborCell_symm (roomAt d.rooms i).x (roomAt d.rooms i).y dd hdd]
    at hx2 hy2
  by_cases hji : j2 = i
  · rw [hji, opp_opp dd hdd] at hdoor2
    exact hdoor2
  · exfalso
    rcases hC2 j2 i hj2 hi hji with hne | hne
    · exact hne hx2
    · exact hne hy2

theorem C5_witness :
    DoorsOk keyDungeon.rooms ∧
    (∀ i j dd, i < keyDungeon.rooms.length →
      j < keyDungeon.rooms.length → dd < 4 →
      (roomAt keyDungeon.rooms j).x =
        (neighborCell (roomAt keyDungeon.rooms i).x
          (roomAt keyDungeon.rooms i).y dd).1 →
      (roomAt keyDungeon.rooms j).y =
        (neighborCell (roomAt keyDungeon.rooms i).x
          (roomAt keyDungeon.rooms i).y dd).2 →
      (roomAt keyDungeon.rooms j).door ((dd + 2) % 4) = true →
      (roomAt keyDungeon.rooms i).door dd = true) :=
  C5_doors_pair_up bpCfgKey adCfgHalf
    [entranceType, exitType, genericType] [bossEnemy] tapeKey
    keyDungeon keyPipeTail (by with_unfolding_all rfl)

/-- C8: for every recorded key of a fully generated dungeon, the key
room is reachable from the entrance by a walk through open doors that
never enters the room behind the key's locked door (so the locked door
is never crossed); and `keyLocation < lockLocation` is *not* guaranteed:
the concrete run `keyDungeon` has a key in room 2 whose lock is in
room 1. -/
theorem C8_key_not_behind_own_lock (cfg : BPLayer) (adCfg : ADLayer)
    (types : List RoomType) (es : List EnemyType) (t : Oracle)
    (d : Dungeon) (t' : Oracle)
    (h : gen_map [.branching cfg, .regions, .difficulties adCfg,
      .roomTypesL types, .enemiesL es] t = .ok (d, t')) :
    (∀ k ∈ d.keys, ∃ c,
      doorTargetIdx d.rooms k.lockLocation k.lockedDoor = some c ∧
      ∃ w, IsWalk d.rooms w ∧ w.head? = some 0 ∧
        w.getLast? = some k.keyLocation ∧ ∀ x ∈ w, x ≠ c) ∧
    (∃ k ∈ keyDungeon.keys, ¬(k.keyLocation < k.lockLocation)) := by
  constructor
  · intro k hk
    obtain ⟨d1, t1, hb, hS, hkeys⟩ :=
      pipeline_shape cfg adCfg types es t d t' h
    obtain ⟨⟨hI, hC, hD, hT, hK, hM⟩, hlen, _⟩ :=
      bpl_process_inv cfg genAttempts t d1 t1 hb
    rw [hkeys] at hk
    obtain ⟨hl1, hl2, hl3, c, hc, hclen, hlc, hkc⟩ := hK k hk
    obtain ⟨hh, hlast, hchain, hcost, hmem⟩ :=
      rootPath_spec d1.keys d1.rooms hI hC hD hT k.keyLocation
        k.keyLocation le_rfl hl2
    refine ⟨c, ?_, rootPath d1.rooms k.keyLocation k.keyLocation,
      ?_, hh, hlast, ?_⟩
    · rw [doorTargetIdx_sameShape d1.rooms d.rooms hS]
      exact hc
    · rw [IsWalk_sameShape d1.rooms d.rooms hS]
      refine ⟨?_, hchain⟩
      intro hnil
      rw [hnil] at hh
      exact Option.noConfusion hh
    · intro x hx
      have := hmem x hx
      omega
  · have hkeq : keyDungeon.keys = [⟨2, 1, 2⟩] := by
      with_unfolding_all rfl
    rw [hkeq]
    exact ⟨⟨2, 1, 2⟩, List.mem_singleton.mpr rfl, by decide⟩

theorem C8_witness :
    (∀ k ∈ keyDungeon.keys, ∃ c,
      doorTargetIdx keyDungeon.rooms k.lockLocation k.lockedDoor =
        some c ∧
      ∃ w, IsWalk keyDungeon.rooms w ∧ w.head? = some 0 ∧
        w.getLast? = some k.keyLocation ∧ ∀ x ∈ w, x ≠ c) ∧
    (∃ k ∈ keyDungeon.keys, ¬(k.keyLocation < k.lockLocation)) :=
  C8_key_not_behind_own_lock bpCfgKey adCfgHalf
    [entranceType, exitType, genericType] [bossEnemy] tapeKey
    keyDungeon keyPipeTail (by with_unfolding_all rfl)
